import Mathlib

/-! # discord-ical-srv: calendar encoder and retrieval cache

A shallow embedding of `calendar/calendar.go` (`Calendar.WriteICS`) and of the
retrieval cache of `main.go` (`calendarClient.Events`), together with the
library routines those two functions call, embedded the way the program uses
them: the property setters and the encoder of `go-ical`, `Get`, `Set` and
`DeleteExpired` of `ttlcache`, `singleflight.Group.Do`, and the part of `time`
that `IsZero` and the two date-time layouts need. The properties proved about
them follow the definitions.

Conventions of the embedding:

* a Go string is a Lean string (well-formed Unicode text), except the text
  fields of an event, which are `GoString`s and may hold bytes that are not
  UTF-8;
* a `time.Duration` and a reading of the monotonic clock are integers, in
  nanoseconds; a `time.Time` is a number of seconds and nanoseconds since
  January 1 of year 1 UTC, not bounded, with its location;
* an `io.Writer` is the text written to it so far, and its writes succeed;
* a Go map is an association list with distinct keys, or a function from keys
  to optional values;
* an `error` made by the program is its message, an error of the encoder a
  constructor of `ical.EncodeError`;
* the upstream `ListScheduledEvents`, the markdown renderer and the methods of
  a snowflake are parameters: the answer of the upstream is an argument of each
  call, the others are fields of `Collaborators`;
* the source does not fix the release of `ttlcache`: the releases that differ
  in `Set` are the cases of `ttlcache.Release`, also a field of `Collaborators`.

`calendarClient.Events` is embedded twice: as a function, for calls that run
one after the other, and as a relation of atomic steps (`interleaving.step`),
for calls that run at the same time.
-/

set_option autoImplicit false

/-! ## Go standard library: `time` -/

namespace time

/-- A `*time.Location`: either the `time.UTC` singleton or any other zone, which
has a name (`Location.String`) and a table giving the offset east of UTC, in
seconds, in force at an instant. -/
inductive Location where
  | UTC
  | zone (name : String) (offsetAt : Int → Int)

/-- The name of the location (`Location.String`). -/
def Location.String : Location → String
  | .UTC => "UTC"
  | .zone name _ => name

/-- The offset east of UTC, in seconds, in force at instant `sec`. -/
def Location.offset : Location → Int → Int
  | .UTC, _ => 0
  | .zone _ offsetAt, sec => offsetAt sec

/-- A `time.Time`: seconds and nanoseconds elapsed since
January 1, year 1, 00:00:00 UTC, and the location the instant is shown in. -/
structure Time where
  sec : Int
  nsec : Nat
  loc : Location

/-- The zero value `time.Time{}`. -/
def Time.zero : Time := ⟨0, 0, .UTC⟩

/-- Seconds between January 1, year 1 and the Unix epoch (`unixToInternal`). -/
def unixToInternal : Int := 62135596800

/-- The instant `time.Unix(sec, 0)`, shown in location `loc`. -/
def Unix (sec : Int) (loc : Location) : Time := ⟨sec + unixToInternal, 0, loc⟩

/-- `Time.IsZero`: the instant is January 1, year 1, 00:00:00 UTC, whatever the
location. -/
def Time.IsZero (t : Time) : Bool := t.sec == 0 && t.nsec == 0

/-- `Time.In`: same instant, other location. -/
def Time.In (t : Time) (loc : Location) : Time := { t with loc := loc }

/-- `Time.Add` of a whole number of seconds. -/
def Time.AddSeconds (t : Time) (d : Int) : Time := { t with sec := t.sec + d }

/-- `Time.Location`. -/
def Time.Location (t : Time) : Location := t.loc

/-- The decimal digits of `n`, least significant first, at least `width` of them. -/
def digitsRev : Nat → Nat → Nat → List Char
  | 0, _, _ => []
  | fuel + 1, width, n =>
    if n < 10 ∧ width ≤ 1 then [Char.ofNat (48 + n)]
    else Char.ofNat (48 + n % 10) :: digitsRev fuel (width - 1) (n / 10)

/-- `appendInt`: `x` in decimal, zero-padded to `width` digits, with a leading
minus sign when negative. -/
def appendInt (x : Int) (width : Nat) : List Char :=
  let u := x.natAbs
  (if x < 0 then ['-'] else []) ++ (digitsRev (u + width + 1) width u).reverse

/-- The civil date (year, month, day) of the day `days` days after
January 1, year 1, in the proleptic Gregorian calendar. -/
def civil (days : Int) : Int × Int × Int :=
  let z := days + 306
  let era := z / 146097
  let doe := z - era * 146097
  let yoe := (doe - doe / 1460 + doe / 36524 - doe / 146096) / 365
  let doy := doe - (365 * yoe + yoe / 4 - yoe / 100)
  let mp := (5 * doy + 2) / 153
  let d := doy - (153 * mp + 2) / 5 + 1
  let m := if mp < 10 then mp + 3 else mp - 9
  let y := yoe + era * 400 + (if m ≤ 2 then 1 else 0)
  (y, m, d)

/-- `Time.Format("20060102T150405")`: the wall clock reading of the instant in
its own location. -/
def Time.formatDateTime (t : Time) : List Char :=
  let abs := t.sec + t.loc.offset t.sec
  let days := abs / 86400
  let rem := abs % 86400
  let (y, m, d) := civil days
  appendInt y 4 ++ appendInt m 2 ++ appendInt d 2 ++ ['T']
    ++ appendInt (rem / 3600) 2 ++ appendInt (rem % 3600 / 60) 2 ++ appendInt (rem % 60) 2

end time

/-! ## Go strings -/

/-- What the `range` loop reads at one position of a Go string: a well-formed
UTF-8 sequence, given as the scalar it encodes, or one byte that begins no
well-formed sequence. -/
inductive GoString.Piece where
  | rune (c : Char)
  | invalid (b : UInt8)
  deriving DecidableEq

/-- A Go string that may hold bytes that are not UTF-8, cut into the pieces the
`range` loop reads one after the other. -/
structure GoString where
  pieces : List GoString.Piece
  deriving DecidableEq

/-- A Lean string as a Go string: every piece is well formed. -/
def GoString.ofString (s : String) : GoString := ⟨s.data.map GoString.Piece.rune⟩

instance : Coe String GoString := ⟨GoString.ofString⟩

/-- `utf8.RuneError`, the scalar U+FFFD. -/
def RuneError : Char := Char.ofNat 65533

/-- The runes `for _, r := range s` yields: `RuneError` for each byte that is not
UTF-8. -/
def GoString.runes (s : GoString) : List Char :=
  s.pieces.map fun p =>
    match p with
    | .rune c => c
    | .invalid _ => RuneError

/-- The string is well-formed UTF-8. -/
def GoString.wellFormed (s : GoString) : Prop :=
  ∀ p ∈ s.pieces, ∃ c, p = GoString.Piece.rune c

/-! ## `github.com/emersion/go-ical` -/

namespace ical

def CompCalendar : String := "VCALENDAR"
def CompEvent : String := "VEVENT"
def CompAlarm : String := "VALARM"

def PropVersion : String := "VERSION"
def PropProductID : String := "PRODID"
def PropUID : String := "UID"
def PropDateTimeStamp : String := "DTSTAMP"
def PropDateTimeStart : String := "DTSTART"
def PropDateTimeEnd : String := "DTEND"
def PropDuration : String := "DURATION"
def PropSummary : String := "SUMMARY"
def PropDescription : String := "DESCRIPTION"
def PropLocation : String := "LOCATION"
def ParamTimezoneID : String := "TZID"
def ParamValue : String := "VALUE"

/-- The Go type `Params`, a `map[string][]string`, as an association list with
distinct keys. -/
abbrev Params := List (String × List String)

/-- `Params.Set`: bind `name` to the single value `value`. -/
def Params.Set (params : Params) (name value : String) : Params :=
  if params.any (fun kv => kv.1 == name) then
    params.map (fun kv => if kv.1 == name then (kv.1, [value]) else kv)
  else params ++ [(name, [value])]

/-- `Params.Del`. -/
def Params.Del (params : Params) (name : String) : Params :=
  params.filter (fun kv => kv.1 != name)

/-- The Go type `Prop`: a content line. -/
structure Property where
  Name : String
  Params : Params
  Value : String
  deriving DecidableEq

/-- `NewProp`: the name is upper-cased (the names the program passes are ASCII),
the parameter map is empty. -/
def NewProp (name : String) : Property := ⟨String.mk (name.data.map Char.toUpper), [], ""⟩

/-- `Prop.SetValueType` for a value type that is the default one of the
property: the `VALUE` parameter is removed. -/
def Property.SetValueTypeDefault (prop : Property) : Property :=
  { prop with Params := Params.Del prop.Params ParamValue }

/-- The escape sequence `SetTextList` writes for one character. -/
def escapeRune (r : Char) : List Char :=
  if r = '\\' ∨ r = ';' ∨ r = ',' then ['\\', r]
  else if r = '\n' then ['\\', 'n']
  else [r]

/-- The loop of `Prop.SetTextList` over the runes of one text. -/
def escapeText : List Char → List Char
  | [] => []
  | r :: rest => escapeRune r ++ escapeText rest

/-- `Prop.SetText`: the escaped runes that `range text` yields. -/
def Property.SetText (prop : Property) (text : GoString) : Property :=
  { prop.SetValueTypeDefault with Value := String.mk (escapeText text.runes) }

/-- `Prop.SetDateTime`: a UTC time is written with a `Z` suffix, any other as a
wall clock reading with a `TZID` parameter naming its location. -/
def Property.SetDateTime (prop : Property) (t : time.Time) : Property :=
  let prop := prop.SetValueTypeDefault
  match t.Location with
  | .UTC => { prop with Value := String.mk (t.formatDateTime ++ ['Z']) }
  | loc =>
    { prop with
      Params := Params.Set prop.Params ParamTimezoneID loc.String
      Value := String.mk t.formatDateTime }

/-- The Go type `Props`, a `map[string][]Prop`, as an association list with
distinct keys. -/
abbrev Props := List (String × List Property)

/-- `Props.Set`: bind the name of `prop` to `prop` alone. -/
def Props.Set (props : Props) (prop : Property) : Props :=
  if props.any (fun kv => kv.1 == prop.Name) then
    props.map (fun kv => if kv.1 == prop.Name then (kv.1, [prop]) else kv)
  else props ++ [(prop.Name, [prop])]

/-- The map lookup `props[name]`; an absent key gives the empty slice. -/
def Props.Values (props : Props) (name : String) : List Property :=
  match props.find? (fun kv => kv.1 == name) with
  | some kv => kv.2
  | none => []

/-- `Props.SetText`. -/
def Props.SetText (props : Props) (name : String) (text : GoString) : Props :=
  props.Set ((NewProp name).SetText text)

/-- `Props.SetDateTime`. -/
def Props.SetDateTime (props : Props) (name : String) (t : time.Time) : Props :=
  props.Set ((NewProp name).SetDateTime t)

/-- The Go type `Component`. -/
inductive Component where
  | mk (Name : String) (Props : Props) (Children : List Component)

def Component.Name : Component → String
  | .mk n _ _ => n

def Component.Props : Component → Props
  | .mk _ p _ => p

def Component.Children : Component → List Component
  | .mk _ _ c => c

/-- `NewComponent`. -/
def NewComponent (name : String) : Component := .mk name [] []

/-- `NewCalendar`. -/
def NewCalendar : Component := NewComponent CompCalendar

/-- `NewEvent`. -/
def NewEvent : Component := NewComponent CompEvent

/-- The errors of the encoder. -/
inductive EncodeError where
  | calendarEmpty
  | nestedComponent (name : String)
  | endAndDuration
  | wantExactlyOne (comp name : String) (got : Nat)
  | wantAtMostOne (comp name : String) (got : Nat)
  | paramDoubleQuote
  | valueNewline
  deriving DecidableEq

/-- The closing loop of `checkComponent` over the names that may be bound to
at most one property. -/
def checkAtMostOne (comp : Component) : List String → Option EncodeError
  | [] => none
  | name :: rest =>
    if (comp.Props.Values name).length > 1 then
      some (.wantAtMostOne comp.Name name (comp.Props.Values name).length)
    else checkAtMostOne comp rest

/-- The two closing loops of `checkComponent`: each name of `exactlyOne` is
bound to one property, each name of `atMostOne` to at most one. -/
def checkCounts (comp : Component) : List String → List String → Option EncodeError
  | [], atMostOne => checkAtMostOne comp atMostOne
  | name :: rest, atMostOne =>
    if (comp.Props.Values name).length ≠ 1 then
      some (.wantExactlyOne comp.Name name (comp.Props.Values name).length)
    else checkCounts comp rest atMostOne

/-- `checkComponent`, for the two kinds of component the program builds, with
the checks in the order of the library; the cases of the kinds the program never
builds are left out. -/
def checkComponent (comp : Component) : Option EncodeError :=
  if comp.Name = CompCalendar then
    if comp.Children.isEmpty then some .calendarEmpty
    else checkCounts comp [PropProductID, PropVersion]
      ["CALSCALE", "METHOD", "UID", "LAST-MODIFIED", "URL", "REFRESH-INTERVAL", "SOURCE",
        "COLOR"]
  else if comp.Name = CompEvent then
    match comp.Children.find? (fun child => child.Name != CompAlarm) with
    | some child => some (.nestedComponent child.Name)
    | none =>
      if (comp.Props.Values PropDateTimeEnd).length > 0
          ∧ (comp.Props.Values PropDuration).length > 0 then
        some .endAndDuration
      else checkCounts comp [PropDateTimeStamp, PropUID]
        [PropDateTimeStart, "CLASS", "CREATED", PropDescription, "GEO", "LAST-MODIFIED",
          PropLocation, "ORGANIZER", "PRIORITY", "SEQUENCE", "STATUS", PropSummary, "TRANSP",
          "URL", "RECURRENCE-ID", PropDateTimeEnd, PropDuration, "COLOR"]
  else checkCounts comp [] []

/-- The order of Go strings (`<`): lexicographic. -/
def strLt : List Char → List Char → Bool
  | _, [] => false
  | [], _ :: _ => true
  | a :: as, b :: bs => a.toNat < b.toNat || (a.toNat == b.toNat && strLt as bs)

/-- Insertion into a sorted list of names. -/
def insertSorted (s : String) : List String → List String
  | [] => [s]
  | x :: xs => if strLt s.data x.data then s :: x :: xs else x :: insertSorted s xs

/-- `sort.Strings`. -/
def sortStrings (l : List String) : List String := l.foldr insertSorted []

/-- The text written to the `io.Writer` so far and the error returned, if any. -/
structure Written (ε : Type) where
  out : String
  err : Option ε

/-- The values of one parameter, comma separated; a value holding `;`, `:` or `,`
is quoted, one holding a double quote is refused. -/
def encodeParamValues : List String → Bool → Except EncodeError (List Char)
  | [], _ => .ok []
  | v :: rest, first =>
    if v.data.contains ('"') then .error .paramDoubleQuote
    else
      let quoted :=
        if v.data.any (fun c => c = ';' ∨ c = ':' ∨ c = ',') then
          ['"'] ++ v.data ++ ['"']
        else v.data
      match encodeParamValues rest false with
      | .error e => .error e
      | .ok tail => .ok ((if first then [] else [',']) ++ quoted ++ tail)

/-- The parameters of a content line, in the order of their sorted names. -/
def encodeParams (params : Params) : List String → Except EncodeError (List Char)
  | [] => .ok []
  | name :: rest =>
    let values :=
      match params.find? (fun kv => kv.1 == name) with
      | some kv => kv.2
      | none => []
    match encodeParamValues values true with
    | .error e => .error e
    | .ok vs =>
      match encodeParams params rest with
      | .error e => .error e
      | .ok tail => .ok ([';'] ++ name.data ++ ['='] ++ vs ++ tail)

/-- The content line of a property, ended by CRLF; a value holding a CR or LF is
refused. -/
def encodeLine (prop : Property) : Except EncodeError (List Char) :=
  match encodeParams prop.Params (sortStrings (prop.Params.map Prod.fst)) with
  | .error e => .error e
  | .ok ps =>
    if prop.Value.data.any (fun c => c = '\r' ∨ c = '\n') then
      .error .valueNewline
    else .ok (prop.Name.data ++ ps ++ [':'] ++ prop.Value.data
      ++ ['\r', '\n'])

/-- `Encoder.encodeProp`: one write of the whole content line, or an error and
no write. -/
def encodeProp (w : String) (prop : Property) : Written EncodeError :=
  match encodeLine prop with
  | .error e => ⟨w, some e⟩
  | .ok line => ⟨String.mk (w.data ++ line), none⟩

/-- The properties of a component, one after the other, until one fails. -/
def encodeProps (w : String) : List Property → Written EncodeError
  | [] => ⟨w, none⟩
  | prop :: rest =>
    match encodeProp w prop with
    | ⟨w1, none⟩ => encodeProps w1 rest
    | r => r

mutual
/-- `Encoder.encodeComponent`: check, `BEGIN` line, properties by sorted name,
children in order, `END` line. -/
def encodeComponent (w : String) : Component → Written EncodeError
  | .mk name props children =>
    match checkComponent (.mk name props children) with
    | some e => ⟨w, some e⟩
    | none =>
      match encodeProp w ⟨"BEGIN", [], name⟩ with
      | ⟨w1, none⟩ =>
        match encodeProps w1
            ((sortStrings (props.map Prod.fst)).flatMap (fun n => Props.Values props n)) with
        | ⟨w2, none⟩ =>
          match encodeChildren w2 children with
          | ⟨w3, none⟩ => encodeProp w3 ⟨"END", [], name⟩
          | r => r
        | r => r
      | r => r
termination_by structural comp => comp
/-- The loop of `encodeComponent` over the children. -/
def encodeChildren (w : String) : List Component → Written EncodeError
  | [] => ⟨w, none⟩
  | child :: rest =>
    match encodeComponent w child with
    | ⟨w1, none⟩ => encodeChildren w1 rest
    | r => r
termination_by structural children => children
end

/-- `Encoder.Encode`. -/
def Encode (w : String) (cal : Component) : Written EncodeError :=
  encodeComponent w cal

end ical

/-! ## `calendar/calendar.go` -/

namespace calendar

/-- `Event` is a calendar event. -/
structure Event where
  ID : GoString
  CreatedAt : time.Time
  Start : time.Time
  End : time.Time
  Summary : GoString
  Description : GoString
  Location : GoString

/-- `Calendar` is a calendar. -/
structure Calendar where
  Events : List Event

/-- The error returned by `WriteICS`: one made by `fmt.Errorf` in the
validation, kept as its message, or one of the encoder. -/
inductive Error where
  | msg (text : String)
  | encode (e : ical.EncodeError)
  deriving DecidableEq

/-- The component the loop body builds for a valid event (lines 56-70). -/
def eventComponent (event : Event) : ical.Component :=
  let props : ical.Props := ical.NewEvent.Props
  let props := props.SetText ical.PropUID event.ID
  let props := props.SetDateTime ical.PropDateTimeStamp event.CreatedAt
  let props := props.SetDateTime ical.PropDateTimeStart event.Start
  let props := props.SetDateTime ical.PropDateTimeEnd event.End
  let props := if event.Summary ≠ "" then props.SetText ical.PropSummary event.Summary else props
  let props :=
    if event.Description ≠ "" then props.SetText ical.PropDescription event.Description
    else props
  let props :=
    if event.Location ≠ "" then props.SetText ical.PropLocation event.Location else props
  .mk ical.NewEvent.Name props ical.NewEvent.Children

/-- The `for i, event := range c.Events` loop of `WriteICS` (lines 42-73), from
index `i` on, with the children appended so far. -/
def buildChildren : Nat → List Event → List ical.Component → Except String (List ical.Component)
  | _, [], children => .ok children
  | i, event :: rest, children =>
    if event.ID = "" then .error ("event " ++ toString i ++ " has no ID")
    else if event.CreatedAt.IsZero then .error ("event " ++ toString i ++ " has no creation time")
    else if event.Start.IsZero then .error ("event " ++ toString i ++ " has no start time")
    else if event.End.IsZero then .error ("event " ++ toString i ++ " has no end time")
    else buildChildren (i + 1) rest (children ++ [eventComponent event])

/-- The dummy event inserted into an empty calendar (lines 79-85). -/
def dummyEvent : ical.Component :=
  let early := time.Time.zero.In .UTC
  let props : ical.Props := ical.NewEvent.Props
  let props := props.SetText ical.PropUID ""
  let props := props.SetDateTime ical.PropDateTimeStamp early
  let props := props.SetDateTime ical.PropDateTimeStart early
  let props := props.SetDateTime ical.PropDateTimeEnd early
  .mk ical.NewEvent.Name props ical.NewEvent.Children

/-- The properties of the calendar component (lines 38-40). -/
def calendarProps : ical.Props :=
  let props : ical.Props := ical.NewCalendar.Props
  let props := props.SetText ical.PropVersion "2.0"
  props.SetText ical.PropProductID "-//diamondburned//discord-ical-srv"

/-- `Calendar.WriteICS`, on a writer that has received `w` so far. -/
def Calendar.WriteICS (c : Calendar) (w : String) : ical.Written Error :=
  match buildChildren 0 c.Events ical.NewCalendar.Children with
  | .error text => ⟨w, some (.msg text)⟩
  | .ok children =>
    let children := if children.length = 0 then children ++ [dummyEvent] else children
    match ical.Encode w (.mk ical.NewCalendar.Name calendarProps children) with
    | ⟨out, none⟩ => ⟨out, none⟩
    | ⟨out, some e⟩ => ⟨out, some (.encode e)⟩

end calendar

/-! ## `github.com/jellydator/ttlcache/v3` -/

namespace ttlcache

/-- The releases of the library that differ in what the program uses of it:
up to v3.1, v3.2, and v3.3 or later. -/
inductive Release where
  | v3_1
  | v3_2
  | v3_3
  deriving DecidableEq

/-- From v3.2 on, a TTL of `PreviousOrDefaultTTL` passed to `Set` stands for the
TTL of the item the key already holds, or for the TTL of the cache. -/
def Release.previousOrDefaultTTL : Release → Bool
  | .v3_1 => false
  | .v3_2 => true
  | .v3_3 => true

/-- From v3.3 on, `set` looks the key up with `get(key, false, true)`, which also
gives an expired item; before, with `get(key, false)`, which hides it. -/
def Release.setSeesExpired : Release → Bool
  | .v3_1 => false
  | .v3_2 => false
  | .v3_3 => true

/-- `DefaultTTL`: passed to `Set`, it stands for the TTL the cache was made with. -/
def DefaultTTL : Int := 0

/-- `PreviousOrDefaultTTL`. -/
def PreviousOrDefaultTTL : Int := -2

/-- An `Item`: the value, the TTL it was stored with and the clock reading at
which it expires (read only when the TTL is positive). -/
structure Item (V : Type) where
  value : V
  ttl : Int
  expiresAt : Int

/-- `Item.isExpiredUnsafe`: an item without a positive TTL never expires. -/
def Item.isExpired {V : Type} (item : Item V) (now : Int) : Bool :=
  if item.ttl ≤ 0 then false else decide (item.expiresAt < now)

/-- `Item.touch`: the expiry moves to `now + ttl`. -/
def Item.touch {V : Type} (item : Item V) (now : Int) : Item V :=
  if item.ttl ≤ 0 then item else { item with expiresAt := now + item.ttl }

/-- `newItem`. -/
def newItem {V : Type} (value : V) (ttl : Int) (now : Int) : Item V :=
  Item.touch ⟨value, ttl, 0⟩ now

/-- A `Cache`: the options it was made with (`WithTTL`, `WithDisableTouchOnHit`),
the map from a key to the element it points to, and the elements that are
still in the list and the expiration queue of the cache although the map no
longer points to them, each with its key. -/
structure Cache (K V : Type) where
  ttl : Int
  disableTouchOnHit : Bool
  values : K → Option (Item V)
  orphans : List (K × Item V)

/-- `New(WithTTL(ttl))`: an empty cache; touching on a hit is not disabled. -/
def New {K V : Type} (ttl : Int) : Cache K V := ⟨ttl, false, fun _ => none, []⟩

/-- The unexported `Cache.get`: an absent or expired item gives nil and leaves
the map as it is; a hit touches the item when asked to. -/
def Cache.get {K V : Type} [DecidableEq K] (c : Cache K V) (key : K) (touch : Bool) (now : Int) :
    Cache K V × Option (Item V) :=
  match c.values key with
  | none => (c, none)
  | some item =>
    if item.isExpired now then (c, none)
    else if touch ∧ item.ttl > 0 then
      ({ c with values := Function.update c.values key (some (item.touch now)) },
        some (item.touch now))
    else (c, some item)

/-- `Cache.Get`. -/
def Cache.Get {K V : Type} [DecidableEq K] (c : Cache K V) (key : K) (now : Int) :
    Cache K V × Option (Item V) :=
  c.get key (!c.disableTouchOnHit) now

/-- `Cache.Set` (the unexported `set`). `DefaultTTL` is replaced by the TTL of
the cache. When the lookup of the key gives an item, the item is updated in
place (`Item.update`: new value, new TTL, expiry `ttl` after `now`). Otherwise a
new element is made, pushed on the list and the expiration queue, and the map is
pointed to it; an expired item that the lookup hid stays in the list and the
queue. -/
def Cache.Set {K V : Type} [DecidableEq K] (c : Cache K V) (rel : Release) (key : K) (value : V)
    (ttl : Int) (now : Int) : Cache K V :=
  let ttl := if ttl = DefaultTTL then c.ttl else ttl
  match c.values key with
  | some item =>
    if item.isExpired now ∧ rel.setSeesExpired = false then
      let ttl := if rel.previousOrDefaultTTL ∧ ttl = PreviousOrDefaultTTL then c.ttl else ttl
      { c with
        values := Function.update c.values key (some (newItem value ttl now))
        orphans := (key, item) :: c.orphans }
    else
      let ttl := if rel.previousOrDefaultTTL ∧ ttl = PreviousOrDefaultTTL then item.ttl else ttl
      { c with values := Function.update c.values key (some (newItem value ttl now)) }
  | none =>
    let ttl := if rel.previousOrDefaultTTL ∧ ttl = PreviousOrDefaultTTL then c.ttl else ttl
    { c with values := Function.update c.values key (some (newItem value ttl now)) }

/-- `Cache.DeleteExpired`: every expired element of the expiration queue is
evicted. `evict` removes the element from the list and the queue and deletes
the map entry of its key, also when the map points to another element of that
key: that element then stays in the list and the queue without a map entry. -/
def Cache.DeleteExpired {K V : Type} [DecidableEq K] (c : Cache K V) (now : Int) : Cache K V :=
  { c with
    values := fun k =>
      if (match c.values k with
          | some item => item.isExpired now
          | none => false)
          || c.orphans.any (fun o => decide (o.1 = k) && o.2.isExpired now) then none
      else c.values k
    orphans := c.orphans.filter (fun o => !o.2.isExpired now)
      ++ (((c.orphans.filter (fun o => o.2.isExpired now)).map Prod.fst).eraseDups).filterMap
        (fun k =>
          match c.values k with
          | some item => if item.isExpired now then none else some (k, item)
          | none => none) }

end ttlcache

/-! ## `github.com/diamondburned/arikawa/v3/discord` -/

namespace discord

/-- A `Snowflake` is an unsigned 64-bit number. -/
abbrev Snowflake := Nat

abbrev GuildID := Snowflake

structure EntityMetadata where
  Location : String

/-- The fields of `GuildScheduledEvent` the program reads; `StartTime` and
`EndTime` hold what `Timestamp.Time` returns. -/
structure GuildScheduledEvent where
  ID : Snowflake
  StartTime : time.Time
  EndTime : time.Time
  Name : String
  Description : String
  EntityMetadata : Option EntityMetadata

end discord

/-! ## `main.go` -/

/-- What `main.go` is built and run with, besides the upstream: the text and
creation time of a snowflake and the markdown renderer, whose results the
program passes on unread, and the release of `ttlcache` (the repository pins
none). -/
structure Collaborators where
  snowflakeString : discord.Snowflake → String
  snowflakeTime : discord.Snowflake → time.Time
  RenderToString : String → String
  ttlcache : ttlcache.Release

/-- `time.Minute`, in nanoseconds. -/
def time.Minute : Int := 60 * 1000000000

/-- `markdownToHTML` converts markdown to HTML. -/
def markdownToHTML (env : Collaborators) (markdown : String) : String :=
  env.RenderToString markdown

/-- `convertDiscordEvents`. -/
def convertDiscordEvents (env : Collaborators)
    (discordEvents : List discord.GuildScheduledEvent) : List calendar.Event :=
  discordEvents.map fun ev =>
    { ID := env.snowflakeString ev.ID
      CreatedAt := env.snowflakeTime ev.ID
      Start := ev.StartTime
      End := ev.EndTime
      Summary := ev.Name
      Description := markdownToHTML env ev.Description
      Location :=
        match ev.EntityMetadata with
        | some md => md.Location
        | none => "" }

/-- The state of a `calendarClient`: its cache and the TTL it was given. -/
structure calendarClient where
  cache : ttlcache.Cache discord.GuildID (List calendar.Event)
  ttl : Int

/-- `newCalendarClient`. -/
def newCalendarClient (ttl : Int) : calendarClient :=
  { cache := ttlcache.New (5 * time.Minute), ttl := ttl }

/-- What the upstream `ListScheduledEvents` answers: the events or the message
of its error. -/
abbrev Upstream := Except String (List discord.GuildScheduledEvent)

/-- What `Events` returns: the events or the message of the error. -/
abbrev EventsResult := Except String (List calendar.Event)

/-- `errors.Wrapf(err, "cannot get events for guild %s", guildID)`. -/
def wrapEventsError (env : Collaborators) (guildID : discord.GuildID) (err : String) : String :=
  "cannot get events for guild " ++ env.snowflakeString guildID ++ ": " ++ err

/-- The function handed to `single.Do` (lines 166-176), given the answer of
`ListScheduledEvents` and the clock reading `now` at the time of `cache.Set`. -/
def fetchEvents (env : Collaborators) (c : calendarClient) (guildID : discord.GuildID)
    (upstream : Upstream) (now : Int) : calendarClient × EventsResult :=
  match upstream with
  | .error err => (c, .error err)
  | .ok discordEvents =>
    let events := convertDiscordEvents env discordEvents
    ({ c with cache := c.cache.Set env.ttlcache guildID events c.ttl now }, .ok events)

/-- The end of `Events` (lines 177-181): an error is wrapped with the guild. -/
def finishEvents (env : Collaborators) (guildID : discord.GuildID) :
    EventsResult → EventsResult
  | .error err => .error (wrapEventsError env guildID err)
  | .ok events => .ok events

/-- One call of `Events` run to its end: the result, the client afterwards and
the number of calls made to the upstream. -/
structure EventsReturn where
  result : EventsResult
  client : calendarClient
  upstreamCalls : Nat

/-- `calendarClient.Events` when no other call is in flight: the cache is read
at clock reading `now`; on a miss `single.Do` runs the fetch, whose answer
`upstream` arrives `latency` later. -/
def calendarClient.Events (env : Collaborators) (c : calendarClient) (guildID : discord.GuildID)
    (now : Int) (latency : Nat) (upstream : Upstream) : EventsReturn :=
  match c.cache.Get guildID now with
  | (cache, some item) => ⟨.ok item.value, { c with cache := cache }, 0⟩
  | (cache, none) =>
    let (c1, r) := fetchEvents env { c with cache := cache } guildID upstream (now + latency)
    ⟨finishEvents env guildID r, c1, 1⟩

/-- The periodic sweep of `main` (line 85). -/
def calendarClient.DeleteExpired (c : calendarClient) (now : Int) : calendarClient :=
  { c with cache := c.cache.DeleteExpired now }

/-- An operation on the client: a call of `Events` or a sweep. -/
inductive Op where
  | events (guildID : discord.GuildID) (now : Int) (latency : Nat) (upstream : Upstream)
  | sweep (now : Int)

/-- The clock reading at which an operation starts. -/
def Op.time : Op → Int
  | .events _ now _ _ => now
  | .sweep now => now

/-- The client after an operation. -/
def calendarClient.apply (env : Collaborators) (c : calendarClient) : Op → calendarClient
  | .events guildID now latency upstream => (c.Events env guildID now latency upstream).client
  | .sweep now => c.DeleteExpired now

/-- The client after a sequence of operations. -/
def calendarClient.run (env : Collaborators) (c : calendarClient) (ops : List Op) :
    calendarClient :=
  ops.foldl (calendarClient.apply env) c

/-- The entry of `guildID` holds `events` and stays unexpired at least until
`ttl` after `inserted`, also if touched at or after `inserted`. -/
def calendarClient.fresh (c : calendarClient) (guildID : discord.GuildID)
    (events : List calendar.Event) (ttl inserted : Int) : Prop :=
  c.ttl = ttl ∧ ∃ item, c.cache.values guildID = some item ∧ item.value = events
    ∧ (item.ttl ≤ 0 ∨ (ttl ≤ item.ttl ∧ inserted + ttl ≤ item.expiresAt))

/-- The guild an operation asks for, when it is a call of `Events`. -/
def Op.guild : Op → Option discord.GuildID
  | .events guildID _ _ _ => some guildID
  | .sweep _ => none

/-- The operation is a sweep. -/
def Op.isSweep : Op → Bool
  | .events _ _ _ _ => false
  | .sweep _ => true

/-- The expiration queue of the cache holds no element of `guildID` besides the
one the map points to. -/
def calendarClient.unshadowed (c : calendarClient) (guildID : discord.GuildID) : Prop :=
  ∀ o ∈ c.cache.orphans, o.1 ≠ guildID

/-- The client was made by `newCalendarClient ttl` and has since only run calls
of `Events` and sweeps: touching on a hit is on and every item was stored with
the TTL of the client. -/
def calendarClient.regular (c : calendarClient) (ttl : Int) : Prop :=
  c.ttl = ttl ∧ c.cache.disableTouchOnHit = false
    ∧ ∀ k item, c.cache.values k = some item → item.ttl = ttl

/-- Collaborators for the examples: a snowflake is written in decimal and was
created at the Unix epoch, markdown is rendered as it stands, the release of
`ttlcache` is one up to v3.1. -/
def exampleEnv : Collaborators :=
  { snowflakeString := fun id => toString id
    snowflakeTime := fun _ => time.Unix 0 .UTC
    RenderToString := fun md => md
    ttlcache := .v3_1 }

/-- A client with a TTL of five minutes after a first call for guild 1, made at
clock reading 0, has fetched an empty list. -/
def afterFetch : calendarClient :=
  ((newCalendarClient (5 * time.Minute)).Events exampleEnv 1 0 0 (.ok [])).client

/-- The client `afterFetch` after a second call for guild 1, four minutes after
the first. -/
def afterRead : calendarClient :=
  (afterFetch.Events exampleEnv 1 (4 * time.Minute) 0 (.ok [])).client

/-! ## Concurrent calls of `Events`

Several goroutines run `calendarClient.Events` on one client. Each access to
shared state is one atomic step: `cache.Get` and `cache.Set` (under the mutex of
the cache), the entry into `single.Do` and the return from it (under the mutex
of the group). The call of `ListScheduledEvents` happens between the entry of
the leader and its `cache.Set`. -/

namespace interleaving

/-- Where a goroutine running `Events` stands. A finished goroutine keeps its
result and the `single.Do` call that served it, if any. -/
inductive Pc where
  | start
  | missed
  | leading (call : Nat)
  | leaving (call : Nat) (result : EventsResult)
  | waiting (call : Nat)
  | done (result : EventsResult) (call : Option Nat)

/-- The shared state and the goroutines: the client; the map of the
`singleflight.Group` from a key to the call in flight for it; the result each
call has published to its waiters; the number of calls made so far; the guild
each goroutine asks for and where it stands; the keys the upstream was called
with, in order. -/
structure State where
  client : calendarClient
  flights : discord.GuildID → Option Nat
  results : Nat → Option EventsResult
  nextCall : Nat
  n : Nat
  keys : Nat → discord.GuildID
  pcs : Nat → Pc
  upstream : List discord.GuildID

/-- The atomic steps of goroutine `g`: `cache.Get` at line 161; entering
`single.Do` at line 166; as leader, the return of `ListScheduledEvents` with
answer `upstream` followed by the rest of the function, `cache.Set` included
(lines 167-175); as leader, returning from `single.Do`, which hands the result
to the waiters and removes the key from the group; as waiter, returning from
`single.Do` with the result of the leader. -/
inductive Action where
  | get (g : Nat) (now : Int)
  | enter (g : Nat)
  | fetch (g : Nat) (upstream : Upstream) (now : Int)
  | leave (g : Nat)
  | wake (g : Nat)

/-- The goroutine that takes the step. -/
def Action.goroutine : Action → Nat
  | .get g _ => g
  | .enter g => g
  | .fetch g _ _ => g
  | .leave g => g
  | .wake g => g

/-- `n` goroutines about to call `Events`, goroutine `g` for guild `keys g`, on
a client on which no call is in flight. -/
def init (c : calendarClient) (n : Nat) (keys : Nat → discord.GuildID) : State :=
  { client := c
    flights := fun _ => none
    results := fun _ => none
    nextCall := 0
    n := n
    keys := keys
    pcs := fun _ => .start
    upstream := [] }

/-- One step; `none` when the goroutine cannot take it where it stands. -/
def step (env : Collaborators) (s : State) (a : Action) : Option State :=
  if a.goroutine < s.n then
    match a, s.pcs a.goroutine with
    | .get g now, .start =>
      match s.client.cache.Get (s.keys g) now with
      | (cache, some item) =>
        some { s with
          client := { s.client with cache := cache }
          pcs := Function.update s.pcs g (.done (.ok item.value) none) }
      | (cache, none) =>
        some { s with
          client := { s.client with cache := cache }
          pcs := Function.update s.pcs g .missed }
    | .enter g, .missed =>
      match s.flights (s.keys g) with
      | some call => some { s with pcs := Function.update s.pcs g (.waiting call) }
      | none =>
        some { s with
          flights := Function.update s.flights (s.keys g) (some s.nextCall)
          nextCall := s.nextCall + 1
          pcs := Function.update s.pcs g (.leading s.nextCall) }
    | .fetch g upstream now, .leading call =>
      some { s with
        client := (fetchEvents env s.client (s.keys g) upstream now).1
        pcs := Function.update s.pcs g
          (.leaving call (fetchEvents env s.client (s.keys g) upstream now).2)
        upstream := s.upstream ++ [s.keys g] }
    | .leave g, .leaving call r =>
      some { s with
        results := Function.update s.results call (some r)
        flights := Function.update s.flights (s.keys g) none
        pcs := Function.update s.pcs g (.done (finishEvents env (s.keys g) r) (some call)) }
    | .wake g, .waiting call =>
      match s.results call with
      | some r =>
        some { s with
          pcs := Function.update s.pcs g (.done (finishEvents env (s.keys g) r) (some call)) }
      | none => none
    | _, _ => none
  else none

/-- A schedule run from a state; `none` when one of its steps cannot be taken. -/
def run (env : Collaborators) (s : State) : List Action → Option State
  | [] => some s
  | a :: rest =>
    match step env s a with
    | some s1 => run env s1 rest
    | none => none

/-- Goroutine `g` is inside `single.Do` running the function of call `call`. -/
def State.leads (s : State) (g call : Nat) : Prop :=
  s.pcs g = .leading call ∨ ∃ r, s.pcs g = .leaving call r

/-- Every goroutine has returned from `Events`. -/
def State.allDone (s : State) : Bool :=
  (List.range s.n).all fun g =>
    match s.pcs g with
    | .done _ _ => true
    | _ => false

/-- The error message goroutine `g` returned: `none` while it runs,
`some none` for a nil error. -/
def State.errorOf (s : State) (g : Nat) : Option (Option String) :=
  match s.pcs g with
  | .done (.ok _) _ => some none
  | .done (.error err) _ => some (some err)
  | _ => none

/-- What the invariants of a run say of a state: a leader is the call the group
holds for its key and that call is unpublished; a call has one leader; a
goroutine served by a call returned the published result of the call, wrapped
for its key; calls not yet made are unpublished. -/
def State.consistent (env : Collaborators) (s : State) : Prop :=
  (∀ g call, s.leads g call →
      s.flights (s.keys g) = some call ∧ s.results call = none ∧ call < s.nextCall)
    ∧ (∀ g1 g2 call, s.leads g1 call → s.leads g2 call → g1 = g2)
    ∧ (∀ g r call, s.pcs g = .done r (some call) →
        ∃ r0, s.results call = some r0 ∧ r = finishEvents env (s.keys g) r0)
    ∧ (∀ call, s.nextCall ≤ call → s.results call = none)

/-- The step enters `single.Do`. -/
def Action.isEnter : Action → Bool
  | .enter _ => true
  | _ => false

/-- The step returns from `single.Do` as the leader of a call. -/
def Action.isLeave : Action → Bool
  | .leave _ => true
  | _ => false

/-- What the cache of `s` holds for `key` once the fetch has given `r`: after a
successful fetch an entry of `key`, if there is one, holds the fetched events;
after a failed fetch the client is `c`, as before it. -/
def State.served (c : calendarClient) (key : discord.GuildID) (s : State) :
    EventsResult → Prop
  | .ok events => ∀ item, s.client.cache.values key = some item → item.value = events
  | .error _ => s.client = c

/-- Goroutine `g` has not entered `single.Do`, or waits for call 0, or has
returned the result `r`, wrapped for `key`. -/
def State.rest (env : Collaborators) (key : discord.GuildID) (s : State) (r : EventsResult)
    (g : Nat) : Prop :=
  s.pcs g = .start ∨ s.pcs g = .missed ∨ s.pcs g = .waiting 0
    ∨ ∃ call, s.pcs g = .done (finishEvents env key r) call

/-- No goroutine has entered `single.Do`: the client is `c`, as at the start. -/
def State.unled (c : calendarClient) (key : discord.GuildID) (s : State) : Prop :=
  s.flights key = none ∧ s.nextCall = 0 ∧ s.upstream = [] ∧ s.client = c
    ∧ s.results 0 = none ∧ ∀ g, s.pcs g = .start ∨ s.pcs g = .missed

/-- One goroutine leads call 0 and has not fetched yet; the others have not
entered `single.Do` or wait for call 0. -/
def State.led (c : calendarClient) (key : discord.GuildID) (s : State) : Prop :=
  s.flights key = some 0 ∧ s.nextCall = 1 ∧ s.upstream = [] ∧ s.client = c
    ∧ s.results 0 = none
    ∧ ∃ g0, g0 < s.n ∧ s.pcs g0 = .leading 0
      ∧ ∀ g, g ≠ g0 → s.pcs g = .start ∨ s.pcs g = .missed ∨ s.pcs g = .waiting 0

/-- The leader of call 0 has fetched, with result `r`, and is still inside
`single.Do`; the upstream was called once. -/
def State.fetched (env : Collaborators) (c : calendarClient) (key : discord.GuildID)
    (s : State) (r : EventsResult) : Prop :=
  s.flights key = some 0 ∧ s.nextCall = 1 ∧ s.upstream = [key] ∧ s.served c key r
    ∧ s.results 0 = none
    ∧ ∃ g0, g0 < s.n ∧ s.pcs g0 = .leaving 0 r ∧ ∀ g, g ≠ g0 → s.rest env key r g

/-- The leader of call 0 has left `single.Do` and published the result `r`; the
upstream was called once. -/
def State.published (env : Collaborators) (c : calendarClient) (key : discord.GuildID)
    (s : State) (r : EventsResult) : Prop :=
  s.upstream = [key] ∧ s.served c key r ∧ s.results 0 = some r ∧ ∀ g, s.rest env key r g

/-- Calls for the one key `key` on the client `c`, none of which has left
`single.Do` yet. -/
def State.joining (env : Collaborators) (c : calendarClient) (key : discord.GuildID)
    (s : State) : Prop :=
  (∀ g, s.keys g = key) ∧ (s.unled c key ∨ s.led c key ∨ ∃ r, s.fetched env c key r)

/-- Calls for the one key `key` on the client `c`, after the leader of call 0
has left `single.Do`. -/
def State.settled (env : Collaborators) (c : calendarClient) (key : discord.GuildID)
    (s : State) : Prop :=
  (∀ g, s.keys g = key) ∧ ∃ r, s.published env c key r

/-- The start of the schedule in which `n` goroutines all read the cache at
`now`, then all enter `single.Do`, goroutine 0 first, and goroutine 0 gets the
answer `upstream` at `fetched`. -/
def joinedPre (n : Nat) (upstream : Upstream) (now fetched : Int) : List Action :=
  (List.range' 0 n).map (fun g => Action.get g now)
    ++ ((List.range' 0 n).map Action.enter ++ [.fetch 0 upstream fetched])

/-- The end of that schedule: goroutine 0 leaves `single.Do` and the others
wake. -/
def joinedPost (n : Nat) : List Action :=
  .leave 0 :: (List.range' 1 (n - 1)).map Action.wake

/-- The state of that schedule when the goroutines below `k` have read the
cache of `c`, which was cold. -/
def joinedRead (c : calendarClient) (n : Nat) (key : discord.GuildID) (k : Nat) : State :=
  { client := c
    flights := fun _ => none
    results := fun _ => none
    nextCall := 0
    n := n
    keys := fun _ => key
    pcs := fun g => if g < k then .missed else .start
    upstream := [] }

/-- The state of that schedule when the goroutines below `k` have entered
`single.Do`. -/
def joinedEntered (c : calendarClient) (n : Nat) (key : discord.GuildID) (k : Nat) : State :=
  { client := c
    flights := Function.update (fun _ => none) key (some 0)
    results := fun _ => none
    nextCall := 1
    n := n
    keys := fun _ => key
    pcs := fun g =>
      if g < k then (if g = 0 then .leading 0 else .waiting 0)
      else if g < n then .missed else .start
    upstream := [] }

/-- The state of that schedule when goroutine 0 has fetched, with client `c1`
and result `r`, and the goroutines below `k` have returned. -/
def joinedReturned (env : Collaborators) (c1 : calendarClient) (r : EventsResult) (n : Nat)
    (key : discord.GuildID) (k : Nat) : State :=
  { client := c1
    flights := Function.update (Function.update (fun _ => none) key (some 0)) key none
    results := Function.update (fun _ => none) 0 (some r)
    nextCall := 1
    n := n
    keys := fun _ => key
    pcs := fun g =>
      if g < k then .done (finishEvents env key r) (some 0)
      else if g < n then .waiting 0 else .start
    upstream := [key] }

/-- Two goroutines ask for guild 7 on a fresh client; the second enters
`single.Do` only after the first has left it. The upstream answers the first
with an empty list and fails for the second. -/
def lateEntry : List Action :=
  [.get 0 0, .get 1 0, .enter 0, .fetch 0 (.ok []) 1, .leave 0,
    .enter 1, .fetch 1 (.error "boom") 2, .leave 1]

/-- Two goroutines ask for guild 7 on a fresh client; the second enters
`single.Do` while the first is fetching and waits for it. -/
def joined : List Action :=
  [.get 0 0, .get 1 0, .enter 0, .enter 1, .fetch 0 (.ok []) 1, .leave 0, .wake 1]

/-- The state the schedule `joined` ends in. -/
def joinedState : State :=
  (run exampleEnv (init (newCalendarClient (5 * time.Minute)) 2 (fun _ => 7)) joined).getD
    (init (newCalendarClient (5 * time.Minute)) 2 (fun _ => 7))

end interleaving

/-! ## Reading aids for the statements -/

namespace strings

/-- `unicode.IsSpace`. -/
def IsSpace (c : Char) : Bool :=
  let n := c.toNat
  (9 ≤ n && n ≤ 13) || n == 32 || n == 133 || n == 160 || n == 5760
    || (8192 ≤ n && n ≤ 8202) || n == 8232 || n == 8233 || n == 8239 || n == 8287 || n == 12288

/-- `strings.TrimSpace`. -/
def TrimSpace (s : String) : String :=
  String.mk ((s.data.dropWhile IsSpace).reverse.dropWhile IsSpace).reverse

/-- The lines of a text that are ended by CRLF, without their ending, after the
line `cur` begun so far; what follows the last CRLF is a line too unless
empty. -/
def splitCRLF (cur : List Char) : List Char → List (List Char)
  | [] => if cur.isEmpty then [] else [cur]
  | [c] => [cur ++ [c]]
  | c :: d :: rest =>
    if c = '\r' ∧ d = '\n' then cur :: splitCRLF [] rest
    else splitCRLF (cur ++ [c]) (d :: rest)

/-- The lines of a text, cut at each CRLF. -/
def Lines (s : String) : List String := (splitCRLF [] s.data).map String.mk

/-- `strings.Join`. -/
def Join : List String → String → String
  | [], _ => ""
  | [a], _ => a
  | a :: b :: rest, sep => a ++ sep ++ Join (b :: rest) sep

end strings

namespace calendar

/-- An event lacks one of the four required fields. -/
def Event.invalid (e : Event) : Prop :=
  e.ID = "" ∨ e.CreatedAt.IsZero = true ∨ e.Start.IsZero = true ∨ e.End.IsZero = true

instance (e : Event) : Decidable e.invalid := by
  unfold Event.invalid
  exact inferInstance

/-- The first missing field of an invalid event, in the order ID, creation
time, start time, end time, as the error message names it. -/
def missingField (e : Event) : String :=
  if e.ID = "" then "ID"
  else if e.CreatedAt.IsZero then "creation time"
  else if e.Start.IsZero then "start time"
  else "end time"

end calendar

namespace ical

/-- Reading an escaped text back by the iCalendar text rules: after a backslash,
a backslash, semicolon or comma stands for itself and `n` or `N` for a newline;
a bare comma, semicolon or newline and any other use of the backslash are
malformed. The flag tells whether the last character read was an escaping
backslash. -/
def unescapeAux : Bool → List Char → Option (List Char)
  | false, [] => some []
  | true, [] => none
  | false, c :: rest =>
    if c = '\\' then unescapeAux true rest
    else if c = ';' ∨ c = ',' ∨ c = '\n' then none
    else (unescapeAux false rest).map (fun l => c :: l)
  | true, c :: rest =>
    if c = '\\' ∨ c = ';' ∨ c = ',' then (unescapeAux false rest).map (fun l => c :: l)
    else if c = 'n' ∨ c = 'N' then (unescapeAux false rest).map (fun l => '\n' :: l)
    else none

/-- The text an escaped value stands for, if it is well formed. -/
def unescapeText (value : String) : Option String :=
  (unescapeAux false value.data).map String.mk

end ical

namespace calendar

/-- The encoder accepts every line of the event: no text field holds a carriage
return and no zone name a double quote. -/
def Event.encodable (e : Event) : Prop :=
  '\r' ∉ e.ID.runes ∧ '\r' ∉ e.Summary.runes ∧ '\r' ∉ e.Description.runes
    ∧ '\r' ∉ e.Location.runes ∧ '"' ∉ e.CreatedAt.loc.String.data
    ∧ '"' ∉ e.Start.loc.String.data ∧ '"' ∉ e.End.loc.String.data

/-- The content line of a text property, without its line ending. -/
def textLine (name : String) (text : GoString) : String :=
  name ++ ":" ++ String.mk (ical.escapeText text.runes)

/-- The content line of a date-time property, without its line ending: a UTC
time ends in `Z`, a time in another zone carries a `TZID` parameter, quoted when
the zone name holds a semicolon, colon or comma. -/
def dateTimeLine (name : String) (t : time.Time) : String :=
  match t.loc with
  | .UTC => name ++ ":" ++ String.mk t.formatDateTime ++ "Z"
  | .zone zname _ =>
    name ++ ";TZID="
      ++ (if zname.data.any (fun c => c = ';' ∨ c = ':' ∨ c = ',') then "\"" ++ zname ++ "\""
          else zname)
      ++ ":" ++ String.mk t.formatDateTime

/-- The property lines of the VEVENT block of an event, in the order of the
property names. -/
def eventPropLines (e : Event) : List String :=
  (if e.Description ≠ "" then [textLine "DESCRIPTION" e.Description] else [])
    ++ [dateTimeLine "DTEND" e.End, dateTimeLine "DTSTAMP" e.CreatedAt,
        dateTimeLine "DTSTART" e.Start]
    ++ (if e.Location ≠ "" then [textLine "LOCATION" e.Location] else [])
    ++ (if e.Summary ≠ "" then [textLine "SUMMARY" e.Summary] else [])
    ++ [textLine "UID" e.ID]

/-- The lines of the VEVENT block of an event. -/
def eventLines (e : Event) : List String :=
  ["BEGIN:VEVENT"] ++ eventPropLines e ++ ["END:VEVENT"]

/-- The lines of the document of a list of events: one container, the fixed
header, one VEVENT block per event in input order. -/
def documentLines (events : List Event) : List String :=
  ["BEGIN:VCALENDAR", "PRODID:-//diamondburned//discord-ical-srv", "VERSION:2.0"]
    ++ events.flatMap eventLines ++ ["END:VCALENDAR"]

/-- The line begins with one of the letters the names of the properties of an
event begin with. -/
def propHead (l : String) : Bool :=
  l.data.head? = some 'D' || l.data.head? = some 'L' || l.data.head? = some 'S'
    || l.data.head? = some 'U'

/-- No zone name of the event holds a carriage return or a line feed. -/
def Event.zonesPlain (e : Event) : Prop :=
  ∀ t ∈ [e.CreatedAt, e.Start, e.End], ∀ c ∈ t.loc.String.data, c ≠ '\r' ∧ c ≠ '\n'

/-- A character that ends no line. -/
def plain (c : Char) : Prop := c ≠ '\r' ∧ c ≠ '\n'

/-- The text of a list of lines, each ended by CRLF. -/
def crlfLines (lines : List String) : String :=
  String.mk (lines.flatMap (fun l => l.data ++ ['\r', '\n']))

end calendar

namespace calendar

/-- The zone of `calendar_test.go`, with the offset in force around the Unix
epoch (Pacific Standard Time, eight hours west). -/
def tzLA : time.Location := .zone "America/Los_Angeles" (fun _ => -28800)

/-- The events of the test case "events" of `TestCalendar_WriteICS`. -/
def testEvents : List Event :=
  [ { ID := "1"
      CreatedAt := time.Unix 0 tzLA
      Start := time.Unix 0 tzLA
      End := (time.Unix 0 tzLA).AddSeconds 3600
      Summary := "Test Event"
      Description := "This is a test event."
      Location := "Los Angeles, CA" },
    { ID := "2"
      CreatedAt := time.Unix 0 tzLA
      Start := time.Unix 1000 tzLA
      End := (time.Unix 1000 tzLA).AddSeconds 3600
      Summary := "Test Event 2"
      Description := "This is a test event 2."
      Location := "Anaheim, CA" } ]

/-- An event whose Start and End are the zero time. -/
def unscheduledEvent : Event :=
  { ID := "3"
    CreatedAt := time.Unix 0 tzLA
    Start := time.Time.zero
    End := time.Time.zero
    Summary := "Unscheduled"
    Description := ""
    Location := "" }

/-- A valid event whose summary is the single byte 0xFF, which is not UTF-8. -/
def invalidByteEvent : Event :=
  { ID := "5"
    CreatedAt := time.Unix 0 .UTC
    Start := time.Unix 0 .UTC
    End := time.Unix 3600 .UTC
    Summary := ⟨[.invalid 255]⟩
    Description := ""
    Location := "" }

/-- A valid event whose description holds a Windows line break. -/
def crlfEvent : Event :=
  { ID := "4"
    CreatedAt := time.Unix 0 .UTC
    Start := time.Unix 0 .UTC
    End := time.Unix 3600 .UTC
    Summary := ""
    Description := "first\r\nsecond"
    Location := "" }

end calendar

/-! ## Properties of `Calendar.WriteICS` -/

namespace calendar

theorem buildChildren_invalid (events : List Event) :
    ∀ (i : Nat) (children : List ical.Component), (∃ e ∈ events, e.invalid) →
      ∃ text, buildChildren i events children = .error text := by
  induction events with
  | nil => intro i children h; obtain ⟨e, he, _⟩ := h; cases he
  | cons ev rest ih =>
    intro i children h
    unfold buildChildren
    by_cases h1 : ev.ID = ""
    · exact ⟨_, by rw [if_pos h1]⟩
    rw [if_neg h1]
    by_cases h2 : ev.CreatedAt.IsZero = true
    · exact ⟨_, by rw [if_pos h2]⟩
    rw [if_neg h2]
    by_cases h3 : ev.Start.IsZero = true
    · exact ⟨_, by rw [if_pos h3]⟩
    rw [if_neg h3]
    by_cases h4 : ev.End.IsZero = true
    · exact ⟨_, by rw [if_pos h4]⟩
    rw [if_neg h4]
    apply ih
    obtain ⟨e, he, hinv⟩ := h
    rcases List.mem_cons.mp he with rfl | hmem
    · rcases hinv with h | h | h | h
      · exact absurd h h1
      · exact absurd h h2
      · exact absurd h h3
      · exact absurd h h4
    · exact ⟨e, hmem, hinv⟩

theorem buildChildren_valid (events : List Event) :
    ∀ (i : Nat) (children : List ical.Component), (∀ e ∈ events, ¬ e.invalid) →
      buildChildren i events children = .ok (children ++ events.map eventComponent) := by
  induction events with
  | nil => intro i children _; simp [buildChildren]
  | cons ev rest ih =>
    intro i children h
    have hv : ¬ ev.invalid := h ev (List.mem_cons_self _ _)
    simp only [Event.invalid, not_or] at hv
    obtain ⟨h1, h2, h3, h4⟩ := hv
    unfold buildChildren
    rw [if_neg h1, if_neg h2, if_neg h3, if_neg h4,
      ih (i + 1) _ (fun e he => h e (List.mem_cons_of_mem _ he))]
    simp

theorem missing_message (i : Nat) (field : String) :
    "event " ++ toString i ++ " has no " ++ field
      = "event " ++ toString i ++ (" has no " ++ field) := by
  rw [String.append_assoc]

theorem buildChildren_first (events : List Event) :
    ∀ (i k : Nat) (children : List ical.Component) (e : Event), events[k]? = some e →
      e.invalid → (∀ j < k, ∀ e2, events[j]? = some e2 → ¬ e2.invalid) →
      buildChildren i events children
        = .error ("event " ++ toString (i + k) ++ " has no " ++ missingField e) := by
  induction events with
  | nil => intro i k children e h; simp at h
  | cons ev rest ih =>
    intro i k children e hk hinv hfirst
    cases k with
    | zero =>
      simp only [List.getElem?_cons_zero, Option.some.injEq] at hk
      subst hk
      rw [missing_message]
      unfold buildChildren missingField
      simp only [Nat.add_zero]
      by_cases h1 : ev.ID = ""
      · rw [if_pos h1, if_pos h1]; rfl
      rw [if_neg h1, if_neg h1]
      by_cases h2 : ev.CreatedAt.IsZero = true
      · rw [if_pos h2, if_pos h2]; rfl
      rw [if_neg h2, if_neg h2]
      by_cases h3 : ev.Start.IsZero = true
      · rw [if_pos h3, if_pos h3]; rfl
      rw [if_neg h3, if_neg h3]
      rcases hinv with h | h | h | h
      · exact absurd h h1
      · exact absurd h h2
      · exact absurd h h3
      · rw [if_pos h]; rfl
    | succ k =>
      have hv : ¬ ev.invalid := hfirst 0 (Nat.succ_pos k) ev (by simp)
      simp only [Event.invalid, not_or] at hv
      obtain ⟨h1, h2, h3, h4⟩ := hv
      simp only [List.getElem?_cons_succ] at hk
      unfold buildChildren
      rw [if_neg h1, if_neg h2, if_neg h3, if_neg h4,
        ih (i + 1) k _ e hk hinv (fun j hj e2 he2 =>
          hfirst (j + 1) (Nat.succ_lt_succ hj) e2 (by simpa using he2))]
      have : i + 1 + k = i + (k + 1) := by omega
      rw [this]

/-- C1: when some event of the list has an empty ID or a zero CreatedAt, Start
or End, `WriteICS` returns an error and the writer holds exactly what it held
before the call; on a fresh writer the output is empty. -/
theorem WriteICS_invalid_writes_nothing (events : List Event) (w : String)
    (h : ∃ e ∈ events, e.ID = "" ∨ e.CreatedAt.IsZero = true ∨ e.Start.IsZero = true
      ∨ e.End.IsZero = true) :
    (∃ err, (Calendar.WriteICS ⟨events⟩ w).err = some err)
      ∧ (Calendar.WriteICS ⟨events⟩ w).out = w
      ∧ (Calendar.WriteICS ⟨events⟩ "").out = "" := by
  have key : ∀ w0 : String, (∃ err, (Calendar.WriteICS ⟨events⟩ w0).err = some err)
      ∧ (Calendar.WriteICS ⟨events⟩ w0).out = w0 := by
    intro w0
    obtain ⟨text, ht⟩ := buildChildren_invalid events 0 ical.NewCalendar.Children h
    have hw : Calendar.WriteICS ⟨events⟩ w0 = ⟨w0, some (.msg text)⟩ := by
      unfold Calendar.WriteICS
      simp only [ht]
    rw [hw]
    exact ⟨⟨_, rfl⟩, rfl⟩
  exact ⟨(key w).1, (key w).2, (key "").2⟩

theorem exists_first_invalid (events : List Event) (h : ∃ e ∈ events, e.invalid) :
    ∃ (i : Nat) (e : Event), events[i]? = some e ∧ e.invalid
      ∧ ∀ j < i, ∀ e2 : Event, events[j]? = some e2 → ¬ e2.invalid := by
  induction events with
  | nil => obtain ⟨e, he, _⟩ := h; cases he
  | cons ev rest ih =>
    by_cases hev : ev.invalid
    · exact ⟨0, ev, by simp, hev, fun j hj => absurd hj (Nat.not_lt_zero j)⟩
    · obtain ⟨e, he, hinv⟩ := h
      rcases List.mem_cons.mp he with rfl | hmem
      · exact absurd hinv hev
      · obtain ⟨i, e1, h1, h2, h3⟩ := ih ⟨e, hmem, hinv⟩
        refine ⟨i + 1, e1, by rw [List.getElem?_cons_succ]; exact h1, h2, ?_⟩
        intro j hj e2 he2
        cases j with
        | zero =>
          simp only [List.getElem?_cons_zero, Option.some.injEq] at he2
          subst he2
          exact hev
        | succ j =>
          simp only [List.getElem?_cons_succ] at he2
          exact h3 j (Nat.lt_of_succ_lt_succ hj) e2 he2

/-- C2: a list holding an event with an empty ID or a zero CreatedAt, Start or End
has a smallest index `i` of such an event, and the error of `WriteICS` is the
message "event i has no F" for that index, where F names the first missing field
of the event at `i` in the order ID, creation time, start time, end time. -/
theorem WriteICS_reports_first_violation (events : List Event) (w : String)
    (h : ∃ e ∈ events, e.ID = "" ∨ e.CreatedAt.IsZero = true ∨ e.Start.IsZero = true
      ∨ e.End.IsZero = true) :
    (∃ (i : Nat) (e : Event), events[i]? = some e
        ∧ (e.ID = "" ∨ e.CreatedAt.IsZero = true ∨ e.Start.IsZero = true
          ∨ e.End.IsZero = true)
        ∧ ∀ j < i, ∀ e2 : Event, events[j]? = some e2 →
          ¬ (e2.ID = "" ∨ e2.CreatedAt.IsZero = true ∨ e2.Start.IsZero = true
            ∨ e2.End.IsZero = true))
      ∧ ∀ (i : Nat) (e : Event), events[i]? = some e →
        (e.ID = "" ∨ e.CreatedAt.IsZero = true ∨ e.Start.IsZero = true
          ∨ e.End.IsZero = true) →
        (∀ j < i, ∀ e2 : Event, events[j]? = some e2 →
          ¬ (e2.ID = "" ∨ e2.CreatedAt.IsZero = true ∨ e2.Start.IsZero = true
            ∨ e2.End.IsZero = true)) →
        (Calendar.WriteICS ⟨events⟩ w).err
          = some (.msg ("event " ++ toString i ++ " has no " ++
              (if e.ID = "" then "ID"
               else if e.CreatedAt.IsZero then "creation time"
               else if e.Start.IsZero then "start time"
               else "end time"))) := by
  refine ⟨exists_first_invalid events h, ?_⟩
  intro i e hi hinv hfirst
  have hb := buildChildren_first events 0 i ical.NewCalendar.Children e hi hinv hfirst
  rw [Nat.zero_add] at hb
  have hw : Calendar.WriteICS ⟨events⟩ w
      = ⟨w, some (.msg ("event " ++ toString i ++ " has no " ++ missingField e))⟩ := by
    unfold Calendar.WriteICS
    simp only [hb]
  rw [hw]
  rfl

set_option maxRecDepth 100000 in
/-- C3: on an empty event list `WriteICS` succeeds and writes the document with
the single placeholder VEVENT block, whose DTEND, DTSTAMP and DTSTART are
00010101T000000Z and whose UID is empty; trimmed of surrounding white space the
output is the ten expected lines joined by CRLF. -/
theorem WriteICS_empty_list :
    (Calendar.WriteICS ⟨[]⟩ "").err = none
      ∧ (Calendar.WriteICS ⟨[]⟩ "").out
        = "BEGIN:VCALENDAR\r\nPRODID:-//diamondburned//discord-ical-srv\r\nVERSION:2.0\r\nBEGIN:VEVENT\r\nDTEND:00010101T000000Z\r\nDTSTAMP:00010101T000000Z\r\nDTSTART:00010101T000000Z\r\nUID:\r\nEND:VEVENT\r\nEND:VCALENDAR\r\n"
      ∧ strings.TrimSpace (Calendar.WriteICS ⟨[]⟩ "").out
        = strings.Join ["BEGIN:VCALENDAR", "PRODID:-//diamondburned//discord-ical-srv",
            "VERSION:2.0", "BEGIN:VEVENT", "DTEND:00010101T000000Z", "DTSTAMP:00010101T000000Z",
            "DTSTART:00010101T000000Z", "UID:", "END:VEVENT", "END:VCALENDAR"] "\r\n" := by
  refine ⟨rfl, rfl, ?_⟩
  rfl

theorem SetText_Name (prop : ical.Property) (text : GoString) :
    (prop.SetText text).Name = prop.Name := rfl

theorem SetDateTime_Name (prop : ical.Property) (t : time.Time) :
    (prop.SetDateTime t).Name = prop.Name := by
  unfold ical.Property.SetDateTime
  cases t.Location <;> rfl

open ical in
theorem eventComponent_Props (e : Event) :
    (eventComponent e).Props
      = [("UID", [(NewProp PropUID).SetText e.ID]),
          ("DTSTAMP", [(NewProp PropDateTimeStamp).SetDateTime e.CreatedAt]),
          ("DTSTART", [(NewProp PropDateTimeStart).SetDateTime e.Start]),
          ("DTEND", [(NewProp PropDateTimeEnd).SetDateTime e.End])]
        ++ (if e.Summary ≠ "" then [("SUMMARY", [(NewProp PropSummary).SetText e.Summary])]
            else [])
        ++ (if e.Description ≠ "" then
            [("DESCRIPTION", [(NewProp PropDescription).SetText e.Description])] else [])
        ++ (if e.Location ≠ "" then [("LOCATION", [(NewProp PropLocation).SetText e.Location])]
            else []) := by
  have n1 : (NewProp PropUID).Name = "UID" := by decide
  have n2 : (NewProp PropDateTimeStamp).Name = "DTSTAMP" := by decide
  have n3 : (NewProp PropDateTimeStart).Name = "DTSTART" := by decide
  have n4 : (NewProp PropDateTimeEnd).Name = "DTEND" := by decide
  have n5 : (NewProp PropSummary).Name = "SUMMARY" := by decide
  have n6 : (NewProp PropDescription).Name = "DESCRIPTION" := by decide
  have n7 : (NewProp PropLocation).Name = "LOCATION" := by decide
  by_cases h1 : e.Summary = "" <;> by_cases h2 : e.Description = "" <;>
    by_cases h3 : e.Location = "" <;>
    simp [eventComponent, Props.SetText, Props.SetDateTime, Props.Set, SetText_Name,
      SetDateTime_Name, n1, n2, n3, n4, n5, n6, n7, h1, h2, h3, NewEvent, NewComponent,
      Component.Props, Component.Name, Component.Children]

open ical in
/-- C6: the VEVENT component `WriteICS` builds for a valid event has a SUMMARY
property exactly when Summary is non-empty, a DESCRIPTION property exactly when
Description is non-empty and a LOCATION property exactly when Location is
non-empty; for an empty field the property map has no such key at all. -/
theorem optional_props_iff_nonempty (e : Event) (i : Nat) (children : List Component)
    (hid : e.ID ≠ "") (hcreated : e.CreatedAt.IsZero = false) (hstart : e.Start.IsZero = false)
    (hend : e.End.IsZero = false) :
    buildChildren i [e] children = .ok (children ++ [eventComponent e])
      ∧ (0 < ((eventComponent e).Props.Values PropSummary).length ↔ e.Summary ≠ "")
      ∧ (0 < ((eventComponent e).Props.Values PropDescription).length ↔ e.Description ≠ "")
      ∧ (0 < ((eventComponent e).Props.Values PropLocation).length ↔ e.Location ≠ "")
      ∧ (e.Summary = "" → PropSummary ∉ (eventComponent e).Props.map Prod.fst)
      ∧ (e.Description = "" → PropDescription ∉ (eventComponent e).Props.map Prod.fst)
      ∧ (e.Location = "" → PropLocation ∉ (eventComponent e).Props.map Prod.fst) := by
  refine ⟨?_, ?_⟩
  · unfold buildChildren buildChildren
    simp [hid, hcreated, hstart, hend]
  · rw [eventComponent_Props]
    by_cases h1 : e.Summary = "" <;> by_cases h2 : e.Description = "" <;>
      by_cases h3 : e.Location = "" <;>
      simp [h1, h2, h3, Props.Values, PropSummary, PropDescription, PropLocation]

open ical in
theorem unescapeAux_escapeText (text : List Char) :
    unescapeAux false (escapeText text) = some text := by
  induction text with
  | nil => rfl
  | cons r rest ih =>
    unfold escapeText escapeRune
    by_cases h1 : r = '\\' ∨ r = ';' ∨ r = ','
    · rw [if_pos h1]
      simp only [List.cons_append, List.nil_append]
      unfold unescapeAux
      rw [if_pos rfl]
      unfold unescapeAux
      rw [if_pos h1, ih]
      rfl
    · rw [if_neg h1]
      by_cases h2 : r = '\n'
      · rw [if_pos h2]
        simp only [List.cons_append, List.nil_append]
        unfold unescapeAux
        rw [if_pos rfl]
        unfold unescapeAux
        rw [if_neg (by decide), if_pos (Or.inl rfl), ih, h2]
        rfl
      · rw [if_neg h2]
        simp only [List.cons_append, List.nil_append]
        unfold unescapeAux
        simp only [not_or] at h1
        rw [if_neg h1.1, if_neg (by simp [h1.2.1, h1.2.2, h2]), ih]
        rfl

open ical in
theorem escapeText_no_newline (text : List Char) : '\n' ∉ escapeText text := by
  induction text with
  | nil => simp [escapeText]
  | cons r rest ih =>
    unfold escapeText escapeRune
    by_cases h1 : r = '\\' ∨ r = ';' ∨ r = ','
    · rw [if_pos h1]
      rcases h1 with h | h | h <;> subst h <;> simp [ih]
    · rw [if_neg h1]
      by_cases h2 : r = '\n'
      · rw [if_pos h2]; simp [ih]
      · rw [if_neg h2]; simp [ih]; exact fun h => h2 h.symm

open ical in
theorem escapeText_separator_escaped (text : List Char) :
    ∀ (pre post : List Char) (c : Char), escapeText text = pre ++ c :: post →
      c = ',' ∨ c = ';' → ∃ pre2, pre = pre2 ++ ['\\'] := by
  induction text with
  | nil => intro pre post c h; simp [escapeText] at h
  | cons r rest ih =>
    intro pre post c h hc
    unfold escapeText escapeRune at h
    have hc2 : c ≠ '\\' ∧ c ≠ 'n' := by rcases hc with h | h <;> subst h <;> decide
    by_cases h1 : r = '\\' ∨ r = ';' ∨ r = ','
    · rw [if_pos h1] at h
      simp only [List.cons_append, List.nil_append] at h
      match pre, h with
      | [], h => simp at h; exact absurd h.1.symm hc2.1
      | [p], h => simp at h; exact ⟨[], by simp [← h.1]⟩
      | p :: q :: pre3, h =>
        simp at h
        obtain ⟨pre2, hp⟩ := ih pre3 post c h.2.2 hc
        exact ⟨p :: q :: pre2, by simp [hp]⟩
    · rw [if_neg h1] at h
      by_cases h2 : r = '\n'
      · rw [if_pos h2] at h
        simp only [List.cons_append, List.nil_append] at h
        match pre, h with
        | [], h => simp at h; exact absurd h.1.symm hc2.1
        | [p], h => simp at h; exact absurd h.2.1.symm hc2.2
        | p :: q :: pre3, h =>
          simp at h
          obtain ⟨pre2, hp⟩ := ih pre3 post c h.2.2 hc
          exact ⟨p :: q :: pre2, by simp [hp]⟩
      · rw [if_neg h2] at h
        simp only [List.cons_append, List.nil_append] at h
        match pre, h with
        | [], h =>
          simp at h
          simp only [not_or] at h1
          rcases hc with hc | hc
          · exact absurd (h.1.trans hc) h1.2.2
          · exact absurd (h.1.trans hc) h1.2.1
        | p :: pre3, h =>
          simp at h
          obtain ⟨pre2, hp⟩ := ih pre3 post c h.2 hc
          exact ⟨p :: pre2, by simp [hp]⟩

open ical in
theorem mem_escapeText (text : List Char) (c : Char) (h : c ∈ escapeText text) :
    c ∈ text ∨ c = '\\' ∨ c = 'n' := by
  induction text with
  | nil => simp [escapeText] at h
  | cons r rest ih =>
    unfold escapeText escapeRune at h
    have step : c ∈ escapeText rest → c ∈ r :: rest ∨ c = '\\' ∨ c = 'n' := fun hm => by
      rcases ih hm with h1 | h1 | h1
      · exact Or.inl (List.mem_cons_of_mem _ h1)
      · exact Or.inr (Or.inl h1)
      · exact Or.inr (Or.inr h1)
    split_ifs at h
    · simp only [List.cons_append, List.nil_append, List.mem_cons] at h
      rcases h with h | h | h
      · exact Or.inr (Or.inl h)
      · exact Or.inl (h ▸ List.mem_cons_self _ _)
      · exact step h
    · simp only [List.cons_append, List.nil_append, List.mem_cons] at h
      rcases h with h | h | h
      · exact Or.inr (Or.inl h)
      · exact Or.inr (Or.inr h)
      · exact step h
    · simp only [List.cons_append, List.nil_append, List.mem_cons] at h
      rcases h with h | h
      · exact Or.inl (h ▸ List.mem_cons_self _ _)
      · exact step h

open ical in
theorem escapeText_any_newline (text : List Char) (h : '\r' ∉ text) :
    (escapeText text).any (fun c => decide (c = '\r' ∨ c = '\n')) = false := by
  rw [List.any_eq_false]
  intro c hc
  simp only [decide_eq_true_eq, not_or]
  constructor
  · rintro rfl
    rcases mem_escapeText text _ hc with h1 | h1 | h1
    · exact h h1
    · exact absurd h1 (by decide)
    · exact absurd h1 (by decide)
  · rintro rfl
    exact escapeText_no_newline text hc

open ical in
theorem encodeLine_text (name : String) (text : GoString) (h : '\r' ∉ text.runes) :
    encodeLine ((NewProp name).SetText text)
      = .ok ((NewProp name).Name.data ++ [':'] ++ escapeText text.runes ++ ['\r', '\n']) := by
  have hp : ((NewProp name).SetText text).Params = [] := rfl
  have hv : ((NewProp name).SetText text).Value = String.mk (escapeText text.runes) := rfl
  unfold encodeLine
  rw [hp, hv]
  simp only [List.map_nil, sortStrings, List.foldr_nil, encodeParams]
  rw [escapeText_any_newline text.runes h]
  simp [SetText_Name]

theorem digit_plain (d : Nat) (h : d < 10) : plain (Char.ofNat (48 + d)) := by
  unfold plain
  interval_cases d <;> decide

theorem digitsRev_plain (fuel : Nat) : ∀ (width n : Nat), ∀ c ∈ time.digitsRev fuel width n,
    plain c := by
  induction fuel with
  | zero => intro width n c h; simp [time.digitsRev] at h
  | succ fuel ih =>
    intro width n c h
    unfold time.digitsRev at h
    split_ifs at h with h1
    · simp only [List.mem_singleton] at h
      subst h
      exact digit_plain n h1.1
    · rcases List.mem_cons.mp h with h | h
      · subst h
        exact digit_plain (n % 10) (Nat.mod_lt _ (by decide))
      · exact ih _ _ c h

theorem appendInt_plain (x : Int) (width : Nat) : ∀ c ∈ time.appendInt x width, plain c := by
  intro c h
  unfold time.appendInt at h
  simp only [List.mem_append, List.mem_reverse] at h
  rcases h with h | h
  · split_ifs at h
    · simp only [List.mem_singleton] at h
      subst h
      exact ⟨by decide, by decide⟩
    · simp at h
  · exact digitsRev_plain _ _ _ c h

theorem formatDateTime_plain (t : time.Time) : ∀ c ∈ t.formatDateTime, plain c := by
  intro c h
  unfold time.Time.formatDateTime at h
  simp only [List.mem_append, List.mem_singleton] at h
  rcases h with (((((h | h) | h) | h) | h) | h) | h
  · exact appendInt_plain _ _ c h
  · exact appendInt_plain _ _ c h
  · exact appendInt_plain _ _ c h
  · subst h; exact ⟨by decide, by decide⟩
  · exact appendInt_plain _ _ c h
  · exact appendInt_plain _ _ c h
  · exact appendInt_plain _ _ c h

theorem any_newline_of_plain (l : List Char) (h : ∀ c ∈ l, plain c) :
    l.any (fun c => decide (c = '\r' ∨ c = '\n')) = false := by
  rw [List.any_eq_false]
  intro c hc
  have := h c hc
  simp only [decide_eq_true_eq, not_or]
  exact this

open ical in
theorem encodeLine_time (name : String) (t : time.Time) (hq : '"' ∉ t.loc.String.data) :
    encodeLine ((NewProp name).SetDateTime t)
      = .ok ((dateTimeLine (NewProp name).Name t).data ++ ['\r', '\n']) := by
  obtain ⟨sec, nsec, loc⟩ := t
  cases loc with
  | UTC =>
    have hp : ((NewProp name).SetDateTime ⟨sec, nsec, .UTC⟩).Params = [] := rfl
    have hv : ((NewProp name).SetDateTime ⟨sec, nsec, .UTC⟩).Value
        = String.mk ((time.Time.mk sec nsec .UTC).formatDateTime ++ ['Z']) := rfl
    unfold encodeLine
    rw [hp, hv]
    simp only [List.map_nil, sortStrings, List.foldr_nil, encodeParams]
    rw [any_newline_of_plain]
    · simp [SetDateTime_Name, dateTimeLine]
    · intro c hc
      rcases List.mem_append.mp hc with h | h
      · exact formatDateTime_plain _ c h
      · simp only [List.mem_singleton] at h
        subst h
        exact ⟨by decide, by decide⟩
  | zone zname f =>
    have hp : ((NewProp name).SetDateTime ⟨sec, nsec, .zone zname f⟩).Params
        = [("TZID", [zname])] := rfl
    have hv : ((NewProp name).SetDateTime ⟨sec, nsec, .zone zname f⟩).Value
        = String.mk ((time.Time.mk sec nsec (.zone zname f)).formatDateTime) := rfl
    have hq2 : zname.data.contains '"' = false := by
      simpa [time.Location.String] using hq
    unfold encodeLine
    rw [hp, hv]
    have hs : sortStrings (List.map Prod.fst [("TZID", [zname])]) = ["TZID"] := rfl
    rw [hs]
    simp only [encodeParams, encodeParamValues, List.find?, hq2]
    rw [any_newline_of_plain _ (formatDateTime_plain _)]
    simp [SetDateTime_Name, dateTimeLine]
    split_ifs <;> simp

open ical in
theorem Values_nil (name : String) : Props.Values [] name = [] := rfl

open ical in
theorem Values_cons (k : String) (v : List Property) (rest : Props) (name : String) :
    Props.Values ((k, v) :: rest) name = if k = name then v else Props.Values rest name := by
  unfold Props.Values
  by_cases h : k = name
  · simp [List.find?_cons, h]
  · simp [List.find?_cons, h]

open ical in
theorem encodeProp_ok (w : String) (prop : Property) (line : List Char)
    (h : encodeLine prop = .ok line) :
    encodeProp w prop = ⟨String.mk (w.data ++ line), none⟩ := by
  unfold encodeProp
  rw [h]

open ical in
theorem encodeProps_cons_ok (w : String) (prop : Property) (rest : List Property)
    (line : List Char) (h : encodeLine prop = .ok line) :
    encodeProps w (prop :: rest) = encodeProps (String.mk (w.data ++ line)) rest := by
  rw [encodeProps, encodeProp_ok w prop line h]

open ical in
theorem encodeProps_nil (w : String) : encodeProps w [] = ⟨w, none⟩ := rfl

open ical in
theorem encodeComponent_ok (w : String) (name : String) (props : Props)
    (children : List Component) (lb tp tc le : List Char)
    (hcheck : checkComponent (.mk name props children) = none)
    (hbegin : encodeLine ⟨"BEGIN", [], name⟩ = .ok lb)
    (hprops : ∀ w1, encodeProps w1
      ((sortStrings (props.map Prod.fst)).flatMap (fun n => Props.Values props n))
        = ⟨String.mk (w1.data ++ tp), none⟩)
    (hchildren : ∀ w2, encodeChildren w2 children = ⟨String.mk (w2.data ++ tc), none⟩)
    (hend : encodeLine ⟨"END", [], name⟩ = .ok le) :
    encodeComponent w (.mk name props children)
      = ⟨String.mk (w.data ++ (lb ++ (tp ++ (tc ++ le)))), none⟩ := by
  rw [encodeComponent, hcheck]
  simp only [encodeProp_ok _ _ _ hbegin, hprops, hchildren, encodeProp_ok _ _ _ hend,
    List.append_assoc]

open ical in
theorem eventComponent_eq (e : Event) :
    eventComponent e = .mk "VEVENT" (eventComponent e).Props [] := rfl

open ical in
theorem checkComponent_event (e : Event) :
    checkComponent (.mk "VEVENT" (eventComponent e).Props []) = none := by
  rw [eventComponent_Props]
  by_cases h1 : e.Summary = "" <;> by_cases h2 : e.Description = "" <;>
    by_cases h3 : e.Location = ""
  all_goals
    simp only [h1, h2, h3, ne_eq, not_true_eq_false, not_false_eq_true, if_true, if_false,
      List.append_nil, List.cons_append, List.nil_append]
    rfl

open ical in
theorem encodeProps_event (e : Event) (he : e.encodable) (w1 : String) :
    encodeProps w1 ((sortStrings ((eventComponent e).Props.map Prod.fst)).flatMap
        (fun n => Props.Values (eventComponent e).Props n))
      = ⟨String.mk (w1.data ++ (crlfLines (eventPropLines e)).data), none⟩ := by
  obtain ⟨c1, c2, c3, c4, q1, q2, q3⟩ := he
  have n1 : (NewProp PropUID).Name = "UID" := by decide
  have n2 : (NewProp PropDateTimeStamp).Name = "DTSTAMP" := by decide
  have n3 : (NewProp PropDateTimeStart).Name = "DTSTART" := by decide
  have n4 : (NewProp PropDateTimeEnd).Name = "DTEND" := by decide
  have n5 : (NewProp PropSummary).Name = "SUMMARY" := by decide
  have n6 : (NewProp PropDescription).Name = "DESCRIPTION" := by decide
  have n7 : (NewProp PropLocation).Name = "LOCATION" := by decide
  have l1 := encodeLine_text PropUID e.ID c1
  have l2 := encodeLine_time PropDateTimeStamp e.CreatedAt q1
  have l3 := encodeLine_time PropDateTimeStart e.Start q2
  have l4 := encodeLine_time PropDateTimeEnd e.End q3
  have l5 := encodeLine_text PropSummary e.Summary c2
  have l6 := encodeLine_text PropDescription e.Description c3
  have l7 := encodeLine_text PropLocation e.Location c4
  rw [n1] at l1; rw [n2] at l2; rw [n3] at l3; rw [n4] at l4; rw [n5] at l5; rw [n6] at l6
  rw [n7] at l7
  rw [eventComponent_Props]
  by_cases h1 : e.Summary = "" <;> by_cases h2 : e.Description = "" <;>
    by_cases h3 : e.Location = ""
  all_goals
    simp only [h1, h2, h3, ne_eq, not_true_eq_false, not_false_eq_true, if_true, if_false,
      List.append_nil, List.cons_append, List.nil_append]
    simp +decide only [List.map_cons, List.map_nil, sortStrings, List.foldr_cons,
      List.foldr_nil, insertSorted, if_true, if_false, ite_true, ite_false]
    simp +decide only [List.flatMap_cons, List.flatMap_nil, Values_cons, Values_nil,
      List.append_nil, if_true, if_false, ite_true, ite_false, List.cons_append,
      List.nil_append]
    simp only [encodeProps_cons_ok _ _ _ _ l1, encodeProps_cons_ok _ _ _ _ l2,
      encodeProps_cons_ok _ _ _ _ l3, encodeProps_cons_ok _ _ _ _ l4,
      encodeProps_cons_ok _ _ _ _ l5, encodeProps_cons_ok _ _ _ _ l6,
      encodeProps_cons_ok _ _ _ _ l7, encodeProps_nil, List.append_assoc]
    simp [crlfLines, eventPropLines, h1, h2, h3, textLine]

open ical in
theorem encodeComponent_event (w : String) (e : Event) (he : e.encodable) :
    encodeComponent w (eventComponent e)
      = ⟨String.mk (w.data ++ (crlfLines (eventLines e)).data), none⟩ := by
  rw [eventComponent_eq, encodeComponent_ok w "VEVENT" _ [] "BEGIN:VEVENT\r\n".data
    (crlfLines (eventPropLines e)).data [] "END:VEVENT\r\n".data (checkComponent_event e) rfl
    (encodeProps_event e he) (fun _ => by simp [encodeChildren]) rfl]
  simp [crlfLines, eventLines]

open ical in
theorem encodeChildren_events (events : List Event) (h : ∀ e ∈ events, e.encodable) :
    ∀ w : String, encodeChildren w (events.map eventComponent)
      = ⟨String.mk (w.data ++ (crlfLines (events.flatMap eventLines)).data), none⟩ := by
  induction events with
  | nil => intro w; simp [encodeChildren, crlfLines]
  | cons e rest ih =>
    intro w
    rw [List.map_cons, encodeChildren,
      encodeComponent_event w e (h e (List.mem_cons_self _ _))]
    simp only
    rw [ih (fun e2 he2 => h e2 (List.mem_cons_of_mem _ he2))]
    simp [crlfLines]

open ical in
theorem encodeProps_calendar (w1 : String) :
    encodeProps w1 ((sortStrings (calendarProps.map Prod.fst)).flatMap
        (fun n => Props.Values calendarProps n))
      = ⟨String.mk (w1.data
          ++ "PRODID:-//diamondburned//discord-ical-srv\r\nVERSION:2.0\r\n".data), none⟩ := by
  have hs : (sortStrings (calendarProps.map Prod.fst)).flatMap
      (fun n => Props.Values calendarProps n)
      = [⟨"PRODID", [], "-//diamondburned//discord-ical-srv"⟩, ⟨"VERSION", [], "2.0"⟩] := by
    decide
  have e1 : encodeLine ⟨"PRODID", [], "-//diamondburned//discord-ical-srv"⟩
      = .ok "PRODID:-//diamondburned//discord-ical-srv\r\n".data := rfl
  have e2 : encodeLine ⟨"VERSION", [], "2.0"⟩ = .ok "VERSION:2.0\r\n".data := rfl
  rw [hs, encodeProps_cons_ok _ _ _ _ e1, encodeProps_cons_ok _ _ _ _ e2, encodeProps_nil,
    List.append_assoc]
  rfl

open ical in
theorem encodeComponent_calendar (w : String) (e : Event) (rest : List Event)
    (h : ∀ e2 ∈ e :: rest, e2.encodable) :
    encodeComponent w (.mk "VCALENDAR" calendarProps ((e :: rest).map eventComponent))
      = ⟨String.mk (w.data ++ (crlfLines (documentLines (e :: rest))).data), none⟩ := by
  have hc : checkComponent
      (.mk "VCALENDAR" calendarProps (eventComponent e :: rest.map eventComponent)) = none := rfl
  rw [List.map_cons] at *
  rw [encodeComponent_ok w "VCALENDAR" calendarProps _ "BEGIN:VCALENDAR\r\n".data
    "PRODID:-//diamondburned//discord-ical-srv\r\nVERSION:2.0\r\n".data
    (crlfLines ((e :: rest).flatMap eventLines)).data "END:VCALENDAR\r\n".data hc rfl
    encodeProps_calendar (encodeChildren_events (e :: rest) h) rfl]
  simp [crlfLines, documentLines]

open ical in
theorem splitCRLF_line (line : List Char) :
    ∀ (cur tail : List Char), (∀ c ∈ line, c ≠ '\r') →
      strings.splitCRLF cur (line ++ '\r' :: '\n' :: tail)
        = (cur ++ line) :: strings.splitCRLF [] tail := by
  induction line with
  | nil =>
    intro cur tail _
    simp [strings.splitCRLF]
  | cons c l ih =>
    intro cur tail h
    have hc : c ≠ '\r' := h c (List.mem_cons_self _ _)
    have hl : ∀ d ∈ l, d ≠ '\r' := fun d hd => h d (List.mem_cons_of_mem _ hd)
    have step : ∀ rest : List Char, rest ≠ [] →
        strings.splitCRLF cur (c :: rest) = strings.splitCRLF (cur ++ [c]) rest := by
      intro rest hr
      cases rest with
      | nil => exact absurd rfl hr
      | cons d r => simp [strings.splitCRLF, hc]
    rw [List.cons_append, step _ (by simp), ih (cur ++ [c]) tail hl]
    simp

open ical in
theorem splitCRLF_lines (lines : List String) (h : ∀ l ∈ lines, '\r' ∉ l.data) :
    strings.Lines (crlfLines lines) = lines := by
  unfold strings.Lines crlfLines
  induction lines with
  | nil => simp [strings.splitCRLF]
  | cons l rest ih =>
    have hl : ∀ c ∈ l.data, c ≠ '\r' := by
      intro c hc hcr
      exact h l (List.mem_cons_self _ _) (hcr ▸ hc)
    have := ih (fun l2 h2 => h l2 (List.mem_cons_of_mem _ h2))
    simp only [List.flatMap_cons, List.append_assoc, List.cons_append, List.nil_append]
    rw [splitCRLF_line l.data [] _ hl]
    simp only [List.nil_append, List.map_cons]
    rw [this]

open ical in
theorem literal_plain (lit : String)
    (h : lit.data.all (fun c => decide (c ≠ '\r' ∧ c ≠ '\n')) = true) :
    ∀ c ∈ lit.data, plain c := by
  intro c hc
  have := List.all_eq_true.mp h c hc
  simpa [plain] using this

open ical in
theorem escapeText_plain (text : List Char) (h : '\r' ∉ text) : ∀ c ∈ escapeText text, plain c := by
  intro c hc
  constructor
  · rintro rfl
    rcases mem_escapeText text _ hc with h1 | h1 | h1
    · exact h h1
    · exact absurd h1 (by decide)
    · exact absurd h1 (by decide)
  · rintro rfl
    exact escapeText_no_newline text hc

open ical in
theorem textLine_plain (name : String) (text : GoString) (hn : ∀ c ∈ name.data, plain c)
    (h : '\r' ∉ text.runes) : ∀ c ∈ (textLine name text).data, plain c := by
  intro c hc
  simp only [textLine, String.data_append, List.mem_append] at hc
  rcases hc with (hc | hc) | hc
  · exact hn c hc
  · have : c = ':' := by simpa using hc
    subst this
    exact ⟨by decide, by decide⟩
  · exact escapeText_plain _ h c hc

open ical in
theorem dateTimeLine_plain (name : String) (t : time.Time) (hn : ∀ c ∈ name.data, plain c)
    (h : ∀ c ∈ t.loc.String.data, c ≠ '\r' ∧ c ≠ '\n') :
    ∀ c ∈ (dateTimeLine name t).data, plain c := by
  obtain ⟨sec, nsec, loc⟩ := t
  have hlit : ∀ (lit : String) (c : Char), c ∈ lit.data →
      (lit = ":" ∨ lit = "Z" ∨ lit = ";TZID=" ∨ lit = "\"") → plain c := by
    intro lit c hc hl
    rcases hl with rfl | rfl | rfl | rfl <;> exact literal_plain _ (by decide) c hc
  cases loc with
  | UTC =>
    intro c hc
    simp only [dateTimeLine, String.data_append, List.mem_append] at hc
    rcases hc with ((hc | hc) | hc) | hc
    · exact hn c hc
    · exact hlit ":" c hc (Or.inl rfl)
    · exact formatDateTime_plain _ c hc
    · exact hlit "Z" c hc (Or.inr (Or.inl rfl))
  | zone zname f =>
    have hz : ∀ c ∈ zname.data, plain c := h
    intro c hc
    simp only [dateTimeLine, String.data_append, List.mem_append] at hc
    rcases hc with (((hc | hc) | hc) | hc) | hc
    · exact hn c hc
    · exact hlit ";TZID=" c hc (Or.inr (Or.inr (Or.inl rfl)))
    · split_ifs at hc
      · simp only [String.data_append, List.mem_append] at hc
        rcases hc with (hc | hc) | hc
        · exact hlit "\"" c hc (Or.inr (Or.inr (Or.inr rfl)))
        · exact hz c hc
        · exact hlit "\"" c hc (Or.inr (Or.inr (Or.inr rfl)))
      · exact hz c hc
    · exact hlit ":" c hc (Or.inl rfl)
    · exact formatDateTime_plain _ c hc

open ical in
theorem eventLines_plain (e : Event) (he : e.encodable) (hz : e.zonesPlain) :
    ∀ l ∈ eventLines e, ∀ c ∈ l.data, plain c := by
  obtain ⟨c1, c2, c3, c4, _, _, _⟩ := he
  have z1 := hz e.CreatedAt (by simp)
  have z2 := hz e.Start (by simp)
  have z3 := hz e.End (by simp)
  intro l hl
  simp only [eventLines, eventPropLines, List.mem_append, List.mem_cons, List.mem_singleton,
    List.not_mem_nil, or_false] at hl
  rcases hl with (rfl | (((hl | hl) | hl) | hl) | hl) | rfl
  · exact literal_plain _ (by decide)
  · split_ifs at hl
    · simp only [List.mem_singleton] at hl
      subst hl
      exact textLine_plain _ _ (literal_plain _ (by decide)) c3
    · simp at hl
  · rcases hl with rfl | rfl | rfl
    · exact dateTimeLine_plain _ _ (literal_plain _ (by decide)) z3
    · exact dateTimeLine_plain _ _ (literal_plain _ (by decide)) z1
    · exact dateTimeLine_plain _ _ (literal_plain _ (by decide)) z2
  · split_ifs at hl
    · simp only [List.mem_singleton] at hl
      subst hl
      exact textLine_plain _ _ (literal_plain _ (by decide)) c4
    · simp at hl
  · split_ifs at hl
    · simp only [List.mem_singleton] at hl
      subst hl
      exact textLine_plain _ _ (literal_plain _ (by decide)) c2
    · simp at hl
  · subst hl
    exact textLine_plain _ _ (literal_plain _ (by decide)) c1
  · exact literal_plain _ (by decide)

open ical in
theorem documentLines_plain (events : List Event) (he : ∀ e ∈ events, e.encodable)
    (hz : ∀ e ∈ events, e.zonesPlain) : ∀ l ∈ documentLines events, ∀ c ∈ l.data, plain c := by
  intro l hl
  simp only [documentLines, List.mem_append, List.mem_cons, List.mem_singleton,
    List.not_mem_nil, or_false, List.mem_flatMap] at hl
  rcases hl with ((rfl | rfl | rfl) | ⟨e, he1, he2⟩) | rfl
  · exact literal_plain _ (by decide)
  · exact literal_plain _ (by decide)
  · exact literal_plain _ (by decide)
  · exact eventLines_plain e (he e he1) (hz e he1) l he2
  · exact literal_plain _ (by decide)

open ical in
theorem propHead_textLine (name : String) (text : GoString)
    (h : name = "DESCRIPTION" ∨ name = "LOCATION" ∨ name = "SUMMARY" ∨ name = "UID") :
    propHead (textLine name text) = true := by
  rcases h with rfl | rfl | rfl | rfl <;> rfl

open ical in
theorem propHead_dateTimeLine (name : String) (t : time.Time)
    (h : name = "DTEND" ∨ name = "DTSTAMP" ∨ name = "DTSTART") :
    propHead (dateTimeLine name t) = true := by
  obtain ⟨sec, nsec, loc⟩ := t
  cases loc <;> rcases h with rfl | rfl | rfl <;> rfl

open ical in
theorem propHead_eventPropLines (e : Event) : ∀ l ∈ eventPropLines e, propHead l = true := by
  intro l hl
  simp only [eventPropLines, List.mem_append, List.mem_cons, List.mem_singleton,
    List.not_mem_nil, or_false] at hl
  rcases hl with (((hl | hl) | hl) | hl) | hl
  · split_ifs at hl
    · simp only [List.mem_singleton] at hl
      subst hl
      exact propHead_textLine _ _ (Or.inl rfl)
    · simp at hl
  · rcases hl with rfl | rfl | rfl
    · exact propHead_dateTimeLine _ _ (Or.inl rfl)
    · exact propHead_dateTimeLine _ _ (Or.inr (Or.inl rfl))
    · exact propHead_dateTimeLine _ _ (Or.inr (Or.inr rfl))
  · split_ifs at hl
    · simp only [List.mem_singleton] at hl
      subst hl
      exact propHead_textLine _ _ (Or.inr (Or.inl rfl))
    · simp at hl
  · split_ifs at hl
    · simp only [List.mem_singleton] at hl
      subst hl
      exact propHead_textLine _ _ (Or.inr (Or.inr (Or.inl rfl)))
    · simp at hl
  · subst hl
    exact propHead_textLine _ _ (Or.inr (Or.inr (Or.inr rfl)))

open ical in
theorem count_eventPropLines (e : Event) (x : String) (hx : propHead x = false) :
    (eventPropLines e).count x = 0 := by
  rw [List.count_eq_zero]
  intro hmem
  rw [propHead_eventPropLines e x hmem] at hx
  cases hx

open ical in
theorem count_eventLines (e : Event) :
    (eventLines e).count "BEGIN:VEVENT" = 1 ∧ (eventLines e).count "END:VEVENT" = 1
      ∧ (eventLines e).count "BEGIN:VCALENDAR" = 0
      ∧ (eventLines e).count "END:VCALENDAR" = 0 := by
  have h1 := count_eventPropLines e "BEGIN:VEVENT" (by decide)
  have h2 := count_eventPropLines e "END:VEVENT" (by decide)
  have h3 := count_eventPropLines e "BEGIN:VCALENDAR" (by decide)
  have h4 := count_eventPropLines e "END:VCALENDAR" (by decide)
  unfold eventLines
  refine ⟨?_, ?_, ?_, ?_⟩ <;> simp only [List.count_append, h1, h2, h3, h4] <;> decide

open ical in
theorem count_documentLines (events : List Event) :
    (documentLines events).count "BEGIN:VCALENDAR" = 1
      ∧ (documentLines events).count "END:VCALENDAR" = 1
      ∧ (documentLines events).count "BEGIN:VEVENT" = events.length
      ∧ (documentLines events).count "END:VEVENT" = events.length := by
  have key : (events.flatMap eventLines).count "BEGIN:VEVENT" = events.length
      ∧ (events.flatMap eventLines).count "END:VEVENT" = events.length
      ∧ (events.flatMap eventLines).count "BEGIN:VCALENDAR" = 0
      ∧ (events.flatMap eventLines).count "END:VCALENDAR" = 0 := by
    induction events with
    | nil => simp
    | cons e rest ih =>
      obtain ⟨a1, a2, a3, a4⟩ := count_eventLines e
      obtain ⟨b1, b2, b3, b4⟩ := ih
      refine ⟨?_, ?_, ?_, ?_⟩ <;>
        simp only [List.flatMap_cons, List.count_append, List.length_cons] <;> omega
  obtain ⟨k1, k2, k3, k4⟩ := key
  unfold documentLines
  refine ⟨?_, ?_, ?_, ?_⟩ <;> simp only [List.count_append, k1, k2, k3, k4]
  · decide
  · decide
  · have : List.count "BEGIN:VEVENT"
        ["BEGIN:VCALENDAR", "PRODID:-//diamondburned//discord-ical-srv", "VERSION:2.0"] = 0 := by
      decide
    have h2 : List.count "BEGIN:VEVENT" ["END:VCALENDAR"] = 0 := by decide
    omega
  · have : List.count "END:VEVENT"
        ["BEGIN:VCALENDAR", "PRODID:-//diamondburned//discord-ical-srv", "VERSION:2.0"] = 0 := by
      decide
    have h2 : List.count "END:VEVENT" ["END:VCALENDAR"] = 0 := by decide
    omega

open ical in
theorem WriteICS_eq_Encode (events : List Event) (w : String) (hne : events ≠ [])
    (hvalid : ∀ e ∈ events, ¬ e.invalid) :
    (Calendar.WriteICS ⟨events⟩ w).out
        = (Encode w (.mk "VCALENDAR" calendarProps (events.map eventComponent))).out
      ∧ (Calendar.WriteICS ⟨events⟩ w).err
        = (Encode w (.mk "VCALENDAR" calendarProps (events.map eventComponent))).err.map
            Error.encode := by
  have hb : buildChildren 0 events NewCalendar.Children = .ok (events.map eventComponent) := by
    rw [buildChildren_valid events 0 _ hvalid]
    rfl
  cases events with
  | nil => exact absurd rfl hne
  | cons e rest =>
    unfold Calendar.WriteICS
    simp only [hb]
    simp only [List.map_cons, List.length_cons, Nat.add_one_ne_zero, if_false]
    have hn : NewCalendar.Name = "VCALENDAR" := rfl
    rw [hn]
    cases hE : Encode w (.mk "VCALENDAR" calendarProps
        (eventComponent e :: rest.map eventComponent)) with
    | mk out err =>
      cases err <;> exact ⟨rfl, rfl⟩

open ical in
theorem WriteICS_document (events : List Event) (w : String) (hne : events ≠ [])
    (hvalid : ∀ e ∈ events, ¬ e.invalid) (henc : ∀ e ∈ events, e.encodable) :
    Calendar.WriteICS ⟨events⟩ w
      = ⟨String.mk (w.data ++ (crlfLines (documentLines events)).data), none⟩ := by
  obtain ⟨h1, h2⟩ := WriteICS_eq_Encode events w hne hvalid
  cases events with
  | nil => exact absurd rfl hne
  | cons e rest =>
    have h := encodeComponent_calendar w e rest henc
    unfold Encode at h1 h2
    rw [h] at h1 h2
    cases hW : Calendar.WriteICS ⟨e :: rest⟩ w with
    | mk out err =>
      rw [hW] at h1 h2
      simp only at h1 h2
      rw [h1, h2]
      rfl

open ical in
/-- C4 (amended): for a non-empty list of events that all have a non-empty ID and
non-zero CreatedAt, Start and End (in any order of Start and End), whose text
fields hold no carriage return and whose zone names hold no double quote,
carriage return or line feed, `WriteICS` succeeds and appends exactly the
document made of one VCALENDAR container, the fixed PRODID and VERSION header
and one VEVENT block per event in input order, the block of an event carrying
its UID, stamp, start and end; cut at its line ends the output has exactly
these lines, of which one opens and one closes the container and `len(events)`
open and `len(events)` close a VEVENT block; no placeholder block is added. -/
theorem WriteICS_valid_events (events : List Event) (w : String) (hne : events ≠ [])
    (hvalid : ∀ e ∈ events, e.ID ≠ "" ∧ e.CreatedAt.IsZero = false ∧ e.Start.IsZero = false
      ∧ e.End.IsZero = false)
    (htext : ∀ e ∈ events, '\r' ∉ e.ID.runes ∧ '\r' ∉ e.Summary.runes
      ∧ '\r' ∉ e.Description.runes ∧ '\r' ∉ e.Location.runes)
    (hzone : ∀ e ∈ events, ∀ t ∈ [e.CreatedAt, e.Start, e.End], ∀ c ∈ t.loc.String.data,
      c ≠ '"' ∧ c ≠ '\r' ∧ c ≠ '\n') :
    (Calendar.WriteICS ⟨events⟩ w).err = none
      ∧ (Calendar.WriteICS ⟨events⟩ w).out = w ++ crlfLines (documentLines events)
      ∧ strings.Lines (Calendar.WriteICS ⟨events⟩ "").out = documentLines events
      ∧ documentLines events
        = ["BEGIN:VCALENDAR", "PRODID:-//diamondburned//discord-ical-srv", "VERSION:2.0"]
          ++ events.flatMap (fun e =>
              ["BEGIN:VEVENT"]
                ++ (if e.Description ≠ "" then [textLine "DESCRIPTION" e.Description] else [])
                ++ [dateTimeLine "DTEND" e.End, dateTimeLine "DTSTAMP" e.CreatedAt,
                    dateTimeLine "DTSTART" e.Start]
                ++ (if e.Location ≠ "" then [textLine "LOCATION" e.Location] else [])
                ++ (if e.Summary ≠ "" then [textLine "SUMMARY" e.Summary] else [])
                ++ [textLine "UID" e.ID, "END:VEVENT"])
          ++ ["END:VCALENDAR"]
      ∧ (documentLines events).count "BEGIN:VCALENDAR" = 1
      ∧ (documentLines events).count "END:VCALENDAR" = 1
      ∧ (documentLines events).count "BEGIN:VEVENT" = events.length
      ∧ (documentLines events).count "END:VEVENT" = events.length := by
  have hv : ∀ e ∈ events, ¬ e.invalid := fun e he => by
    have := hvalid e he
    simp [Event.invalid, this]
  have henc : ∀ e ∈ events, e.encodable := fun e he => by
    obtain ⟨c1, c2, c3, c4⟩ := htext e he
    have hz := hzone e he
    exact ⟨c1, c2, c3, c4, fun h => (hz e.CreatedAt (by simp) _ h).1 rfl,
      fun h => (hz e.Start (by simp) _ h).1 rfl, fun h => (hz e.End (by simp) _ h).1 rfl⟩
  have hzp : ∀ e ∈ events, e.zonesPlain := fun e he t ht c hc => (hzone e he t ht c hc).2
  have hplain := documentLines_plain events henc hzp
  have hlines : (fun e : Event =>
      ["BEGIN:VEVENT"]
        ++ (if e.Description ≠ "" then [textLine "DESCRIPTION" e.Description] else [])
        ++ [dateTimeLine "DTEND" e.End, dateTimeLine "DTSTAMP" e.CreatedAt,
            dateTimeLine "DTSTART" e.Start]
        ++ (if e.Location ≠ "" then [textLine "LOCATION" e.Location] else [])
        ++ (if e.Summary ≠ "" then [textLine "SUMMARY" e.Summary] else [])
        ++ [textLine "UID" e.ID, "END:VEVENT"]) = eventLines := by
    funext e
    simp [eventLines, eventPropLines]
  obtain ⟨k1, k2, k3, k4⟩ := count_documentLines events
  refine ⟨?_, ?_, ?_, ?_, k1, k2, k3, k4⟩
  · rw [WriteICS_document events w hne hv henc]
  · rw [WriteICS_document events w hne hv henc]
    rfl
  · rw [WriteICS_document events "" hne hv henc]
    have : (String.mk ("".data ++ (crlfLines (documentLines events)).data))
        = crlfLines (documentLines events) := rfl
    simp only [this]
    exact splitCRLF_lines _ (fun l hl hcr => (hplain l hl _ hcr).1 rfl)
  · rw [hlines]
    rfl

open ical in
set_option maxRecDepth 100000 in
theorem WriteICS_valid_events_witness :
    testEvents ≠ []
      ∧ (Calendar.WriteICS ⟨testEvents⟩ "").err = none
      ∧ (Calendar.WriteICS ⟨testEvents⟩ "").out
        = "BEGIN:VCALENDAR\r\nPRODID:-//diamondburned//discord-ical-srv\r\nVERSION:2.0\r\nBEGIN:VEVENT\r\nDESCRIPTION:This is a test event.\r\nDTEND;TZID=America/Los_Angeles:19691231T170000\r\nDTSTAMP;TZID=America/Los_Angeles:19691231T160000\r\nDTSTART;TZID=America/Los_Angeles:19691231T160000\r\nLOCATION:Los Angeles\\, CA\r\nSUMMARY:Test Event\r\nUID:1\r\nEND:VEVENT\r\nBEGIN:VEVENT\r\nDESCRIPTION:This is a test event 2.\r\nDTEND;TZID=America/Los_Angeles:19691231T171640\r\nDTSTAMP;TZID=America/Los_Angeles:19691231T160000\r\nDTSTART;TZID=America/Los_Angeles:19691231T161640\r\nLOCATION:Anaheim\\, CA\r\nSUMMARY:Test Event 2\r\nUID:2\r\nEND:VEVENT\r\nEND:VCALENDAR\r\n"
      ∧ (strings.Lines (Calendar.WriteICS ⟨testEvents⟩ "").out).count "BEGIN:VEVENT" = 2 :=
  have h := WriteICS_valid_events testEvents "" (List.cons_ne_nil _ _) (by decide) (by decide)
    (by decide)
  ⟨List.cons_ne_nil _ _, h.1, h.2.1.trans (by rfl), h.2.2.1 ▸ h.2.2.2.2.2.2.1⟩

open ical in
theorem escapeText_flatMap (text : List Char) :
    escapeText text = text.flatMap (fun c =>
      if c = '\\' ∨ c = ';' ∨ c = ',' then ['\\', c]
      else if c = '\n' then ['\\', 'n']
      else [c]) := by
  induction text with
  | nil => rfl
  | cons r rest ih =>
    rw [escapeText, ih, List.flatMap_cons]
    rfl

open ical in
theorem cr_mem_escapeText (text : List Char) (h : '\r' ∈ text) : '\r' ∈ escapeText text := by
  induction text with
  | nil => cases h
  | cons r rest ih =>
    rw [escapeText, List.mem_append]
    rcases List.mem_cons.mp h with h1 | h1
    · left
      subst h1
      decide
    · exact Or.inr (ih h1)

open ical in
theorem encodeLine_text_refused (name : String) (text : GoString) (h : '\r' ∈ text.runes) :
    encodeLine ((NewProp name).SetText text) = .error .valueNewline := by
  have hp : ((NewProp name).SetText text).Params = [] := rfl
  have hv : ((NewProp name).SetText text).Value = String.mk (escapeText text.runes) := rfl
  have hany : (escapeText text.runes).any (fun c => decide (c = '\r' ∨ c = '\n')) = true := by
    rw [List.any_eq_true]
    exact ⟨'\r', cr_mem_escapeText _ h, by decide⟩
  unfold encodeLine
  rw [hp, hv]
  simp only [List.map_nil, sortStrings, List.foldr_nil, encodeParams]
  rw [hany]
  rfl

open ical in
theorem ofString_runes (text : GoString) (h : text.wellFormed) :
    GoString.ofString (String.mk text.runes) = text := by
  obtain ⟨pieces⟩ := text
  unfold GoString.ofString GoString.runes
  simp only [GoString.mk.injEq]
  unfold GoString.wellFormed at h
  simp only at h
  induction pieces with
  | nil => rfl
  | cons p rest ih =>
    obtain ⟨c, rfl⟩ := h p (List.mem_cons_self _ _)
    have := ih (fun q hq => h q (List.mem_cons_of_mem _ hq))
    simp only [List.map_cons, List.cons.injEq, true_and]
    exact this

open ical in
set_option maxRecDepth 100000 in
/-- C5 (amended): for valid events, what `WriteICS` writes is the encoding of the
blocks built for them, whose UID, SUMMARY, DESCRIPTION and LOCATION properties
hold the escaped runes of ID, Summary, Description and Location; the encoder
writes such a property as its name, a colon and that value (or refuses it, for a
carriage return). In the escaped value every backslash, semicolon and comma read
is preceded by a backslash and every newline is the two characters backslash
and `n`, no bare comma, semicolon or newline is left, and reading the escapes
back gives the runes read, which are the input string when the input is
well-formed UTF-8. Location "Los Angeles, CA" is written as
`LOCATION:Los Angeles\, CA`. -/
theorem text_values_escaped (events : List Event) (w : String) (text : GoString)
    (hne : events ≠ [])
    (hvalid : ∀ e ∈ events, e.ID ≠ "" ∧ e.CreatedAt.IsZero = false ∧ e.Start.IsZero = false
      ∧ e.End.IsZero = false) :
    (Calendar.WriteICS ⟨events⟩ w).out
        = (Encode w (.mk "VCALENDAR" calendarProps (events.map eventComponent))).out
      ∧ (∀ e ∈ events,
          (eventComponent e).Props.Values PropUID
              = [⟨"UID", [], String.mk (escapeText e.ID.runes)⟩]
            ∧ (e.Summary ≠ "" → (eventComponent e).Props.Values PropSummary
              = [⟨"SUMMARY", [], String.mk (escapeText e.Summary.runes)⟩])
            ∧ (e.Description ≠ "" → (eventComponent e).Props.Values PropDescription
              = [⟨"DESCRIPTION", [], String.mk (escapeText e.Description.runes)⟩])
            ∧ (e.Location ≠ "" → (eventComponent e).Props.Values PropLocation
              = [⟨"LOCATION", [], String.mk (escapeText e.Location.runes)⟩]))
      ∧ ((∀ e ∈ events, '\r' ∉ e.ID.runes ∧ '\r' ∉ e.Summary.runes ∧ '\r' ∉ e.Description.runes
            ∧ '\r' ∉ e.Location.runes ∧ '"' ∉ e.CreatedAt.loc.String.data
            ∧ '"' ∉ e.Start.loc.String.data ∧ '"' ∉ e.End.loc.String.data) →
          (Calendar.WriteICS ⟨events⟩ w).out = w ++ crlfLines (documentLines events))
      ∧ (∀ name : String, encodeLine ((NewProp name).SetText text)
          = if '\r' ∈ text.runes then .error .valueNewline
            else .ok ((NewProp name).Name.data ++ [':'] ++ escapeText text.runes
              ++ ['\r', '\n']))
      ∧ escapeText text.runes = text.runes.flatMap (fun c =>
          if c = '\\' ∨ c = ';' ∨ c = ',' then ['\\', c]
          else if c = '\n' then ['\\', 'n']
          else [c])
      ∧ '\n' ∉ escapeText text.runes
      ∧ (∀ (pre post : List Char) (c : Char), escapeText text.runes = pre ++ c :: post →
          c = ',' ∨ c = ';' → ∃ pre2, pre = pre2 ++ ['\\'])
      ∧ unescapeText (String.mk (escapeText text.runes)) = some (String.mk text.runes)
      ∧ (text.wellFormed →
          (unescapeText (String.mk (escapeText text.runes))).map GoString.ofString = some text)
      ∧ "LOCATION:Los Angeles\\, CA" ∈ strings.Lines (Calendar.WriteICS ⟨testEvents⟩ "").out := by
  have hv : ∀ e ∈ events, ¬ e.invalid := fun e he => by
    have := hvalid e he
    simp [Event.invalid, this]
  have hun : unescapeText (String.mk (escapeText text.runes)) = some (String.mk text.runes) := by
    unfold unescapeText
    rw [unescapeAux_escapeText]
    rfl
  refine ⟨(WriteICS_eq_Encode events w hne hv).1, ?_, ?_, ?_, escapeText_flatMap _,
    escapeText_no_newline _, escapeText_separator_escaped _, hun, ?_, ?_⟩
  · intro e _
    have p1 : (NewProp PropUID).SetText e.ID
        = ⟨"UID", [], String.mk (escapeText e.ID.runes)⟩ := rfl
    have p2 : (NewProp PropSummary).SetText e.Summary
        = ⟨"SUMMARY", [], String.mk (escapeText e.Summary.runes)⟩ := rfl
    have p3 : (NewProp PropDescription).SetText e.Description
        = ⟨"DESCRIPTION", [], String.mk (escapeText e.Description.runes)⟩ := rfl
    have p4 : (NewProp PropLocation).SetText e.Location
        = ⟨"LOCATION", [], String.mk (escapeText e.Location.runes)⟩ := rfl
    refine ⟨?_, ?_, ?_, ?_⟩
    · rw [eventComponent_Props, ← p1]
      simp +decide [Values_cons, PropUID]
    · intro h
      rw [eventComponent_Props, ← p2]
      simp +decide [Values_cons, PropSummary, h]
    · intro h
      rw [eventComponent_Props, ← p3]
      by_cases h1 : e.Summary = "" <;> simp +decide [Values_cons, PropDescription, h, h1]
    · intro h
      rw [eventComponent_Props, ← p4]
      by_cases h1 : e.Summary = "" <;> by_cases h2 : e.Description = "" <;>
        simp +decide [Values_cons, Values_nil, PropLocation, h, h1, h2]
  · intro henc
    rw [WriteICS_document events w hne hv henc]
    rfl
  · intro name
    by_cases h : '\r' ∈ text.runes
    · rw [if_pos h]
      exact encodeLine_text_refused name text h
    · rw [if_neg h]
      exact encodeLine_text name text h
  · intro hwf
    rw [hun, Option.map_some', ofString_runes text hwf]
  · decide

open ical in
/-- C5 (counterexample): a valid event whose summary is the byte 0xFF, which is
not UTF-8, is written with the line `SUMMARY:` followed by U+FFFD; reading that
value back gives U+FFFD, not the input. -/
theorem WriteICS_invalid_byte_replaced :
    (invalidByteEvent.ID ≠ "" ∧ invalidByteEvent.CreatedAt.IsZero = false
        ∧ invalidByteEvent.Start.IsZero = false ∧ invalidByteEvent.End.IsZero = false)
      ∧ (Calendar.WriteICS ⟨[invalidByteEvent]⟩ "").err = none
      ∧ (Calendar.WriteICS ⟨[invalidByteEvent]⟩ "").out
        = "BEGIN:VCALENDAR\r\nPRODID:-//diamondburned//discord-ical-srv\r\nVERSION:2.0\r\nBEGIN:VEVENT\r\nDTEND:19700101T010000Z\r\nDTSTAMP:19700101T000000Z\r\nDTSTART:19700101T000000Z\r\nSUMMARY:"
          ++ String.mk [RuneError] ++ "\r\nUID:5\r\nEND:VEVENT\r\nEND:VCALENDAR\r\n"
      ∧ (unescapeText (String.mk [RuneError])).map GoString.ofString
        = some (GoString.ofString (String.mk [RuneError]))
      ∧ GoString.ofString (String.mk [RuneError]) ≠ invalidByteEvent.Summary := by
  refine ⟨by decide, rfl, rfl, by decide, by decide⟩

open ical in
theorem text_values_escaped_witness :
    (Calendar.WriteICS ⟨testEvents⟩ "").out
        = (Encode "" (.mk "VCALENDAR" calendarProps (testEvents.map eventComponent))).out
      ∧ "LOCATION:Los Angeles\\, CA" ∈ strings.Lines (Calendar.WriteICS ⟨testEvents⟩ "").out :=
  have h := text_values_escaped testEvents "" "Los Angeles, CA" (List.cons_ne_nil _ _)
    (by decide)
  ⟨h.1, h.2.2.2.2.2.2.2.2.2⟩

open ical in
theorem WriteICS_invalid_writes_nothing_witness :
    (∃ err, (Calendar.WriteICS ⟨testEvents ++ [unscheduledEvent]⟩ "").err = some err)
      ∧ (Calendar.WriteICS ⟨testEvents ++ [unscheduledEvent]⟩ "").out = ""
      ∧ (Calendar.WriteICS ⟨testEvents ++ [unscheduledEvent]⟩ "").out = "" :=
  WriteICS_invalid_writes_nothing (testEvents ++ [unscheduledEvent]) ""
    ⟨unscheduledEvent, by simp, Or.inr (Or.inr (Or.inl rfl))⟩

open ical in
theorem WriteICS_reports_first_violation_witness :
    (Calendar.WriteICS ⟨testEvents ++ [unscheduledEvent, unscheduledEvent]⟩ "").err
      = some (.msg "event 2 has no start time") :=
  (WriteICS_reports_first_violation (testEvents ++ [unscheduledEvent, unscheduledEvent]) ""
    ⟨unscheduledEvent, by simp, Or.inr (Or.inr (Or.inl rfl))⟩).2 2
    unscheduledEvent rfl (Or.inr (Or.inr (Or.inl rfl)))
    (fun j hj e2 h => by
      have hj2 : j = 0 ∨ j = 1 := by omega
      rcases hj2 with rfl | rfl
      · have : e2 = testEvents.get ⟨0, by decide⟩ := by
          simpa [testEvents] using h.symm
        subst this
        decide
      · have : e2 = testEvents.get ⟨1, by decide⟩ := by
          simpa [testEvents] using h.symm
        subst this
        decide)

open ical in
/-- C4 (counterexample): a one-event list whose event has a non-empty ID and
non-zero CreatedAt, Start and End, but a description holding a carriage return,
makes `WriteICS` fail in the encoder, after the lines written before the
DESCRIPTION line. -/
theorem WriteICS_valid_event_refused :
    [crlfEvent] ≠ []
      ∧ (crlfEvent.ID ≠ "" ∧ crlfEvent.CreatedAt.IsZero = false
        ∧ crlfEvent.Start.IsZero = false ∧ crlfEvent.End.IsZero = false)
      ∧ (Calendar.WriteICS ⟨[crlfEvent]⟩ "").err = some (.encode .valueNewline)
      ∧ (Calendar.WriteICS ⟨[crlfEvent]⟩ "").out
        = "BEGIN:VCALENDAR\r\nPRODID:-//diamondburned//discord-ical-srv\r\nVERSION:2.0\r\nBEGIN:VEVENT\r\n" := by
  refine ⟨List.cons_ne_nil _ _, by decide, rfl, rfl⟩

open ical in
theorem optional_props_iff_nonempty_witness :
    0 < ((eventComponent crlfEvent).Props.Values PropDescription).length
      ∧ PropSummary ∉ (eventComponent crlfEvent).Props.map Prod.fst
      ∧ PropLocation ∉ (eventComponent crlfEvent).Props.map Prod.fst :=
  have h := optional_props_iff_nonempty crlfEvent 0 [] (by decide) rfl rfl rfl
  ⟨h.2.2.1.mpr (by decide), h.2.2.2.2.1 rfl, h.2.2.2.2.2.2 rfl⟩

end calendar

/-! ## Properties of `calendarClient.Events` -/

theorem client_eta (c : calendarClient) : ({ c with cache := c.cache } : calendarClient) = c := rfl

theorem Get_absent {K V : Type} [DecidableEq K] (c : ttlcache.Cache K V) (key : K) (now : Int)
    (h : c.values key = none) : c.Get key now = (c, none) := by
  unfold ttlcache.Cache.Get ttlcache.Cache.get
  rw [h]

theorem Get_expired {K V : Type} [DecidableEq K] (c : ttlcache.Cache K V) (key : K) (now : Int)
    (item : ttlcache.Item V) (h : c.values key = some item) (he : item.isExpired now = true) :
    c.Get key now = (c, none) := by
  unfold ttlcache.Cache.Get ttlcache.Cache.get
  rw [h]
  simp only [he, if_true]

theorem Get_hit {K V : Type} [DecidableEq K] (c : ttlcache.Cache K V) (key : K) (now : Int)
    (item : ttlcache.Item V) (h : c.values key = some item) (he : item.isExpired now = false) :
    ∃ item2, (c.Get key now).2 = some item2 ∧ item2.value = item.value ∧ item2.ttl = item.ttl
      ∧ (item2 = item ∨ (0 < item.ttl ∧ item2.expiresAt = now + item.ttl))
      ∧ (c.disableTouchOnHit = false → 0 < item.ttl → item2.expiresAt = now + item.ttl)
      ∧ (c.Get key now).1.values key = some item2
      ∧ (∀ k, k ≠ key → (c.Get key now).1.values k = c.values k)
      ∧ (c.Get key now).1.ttl = c.ttl
      ∧ (c.Get key now).1.disableTouchOnHit = c.disableTouchOnHit
      ∧ (c.Get key now).1.orphans = c.orphans := by
  unfold ttlcache.Cache.Get ttlcache.Cache.get
  rw [h]
  simp only [he, Bool.false_eq_true, if_false]
  by_cases ht : (!c.disableTouchOnHit) = true ∧ item.ttl > 0
  · rw [if_pos ht]
    have hpos : ¬ item.ttl ≤ 0 := not_le.mpr ht.2
    refine ⟨item.touch now, rfl, ?_, ?_, Or.inr ⟨ht.2, ?_⟩, fun _ _ => ?_, by simp, ?_, rfl, rfl,
      rfl⟩
    · simp [ttlcache.Item.touch, hpos]
    · simp [ttlcache.Item.touch, hpos]
    · simp [ttlcache.Item.touch, hpos]
    · simp [ttlcache.Item.touch, hpos]
    · intro k hk
      simp [Function.update_noteq hk]
  · rw [if_neg ht]
    refine ⟨item, rfl, rfl, rfl, Or.inl rfl, fun h1 h2 => ?_, h, fun _ _ => rfl, rfl, rfl, rfl⟩
    exact absurd ⟨by simp [h1], h2⟩ ht

theorem Get_miss_of_none {K V : Type} [DecidableEq K] (c : ttlcache.Cache K V) (key : K)
    (now : Int) (h : (c.Get key now).2 = none) :
    c.Get key now = (c, none)
      ∧ (c.values key = none
        ∨ ∃ item, c.values key = some item ∧ 0 < item.ttl ∧ item.expiresAt < now) := by
  cases hv : c.values key with
  | none => exact ⟨Get_absent c key now hv, Or.inl rfl⟩
  | some item =>
    cases he : item.isExpired now with
    | true =>
      refine ⟨Get_expired c key now item hv he, Or.inr ⟨item, rfl, ?_⟩⟩
      unfold ttlcache.Item.isExpired at he
      by_cases hl : item.ttl ≤ 0
      · simp [hl] at he
      · simp only [hl, if_false, decide_eq_true_eq] at he
        exact ⟨not_le.mp hl, he⟩
    | false =>
      obtain ⟨item2, h2, _⟩ := Get_hit c key now item hv he
      rw [h2] at h
      cases h

theorem Set_spec {K V : Type} [DecidableEq K] (c : ttlcache.Cache K V) (rel : ttlcache.Release)
    (key : K) (value : V) (ttl now : Int) :
    (∃ τ, (c.Set rel key value ttl now).values key = some (ttlcache.newItem value τ now)
        ∧ ((if ttl = ttlcache.DefaultTTL then c.ttl else ttl) ≠ ttlcache.PreviousOrDefaultTTL →
          τ = if ttl = ttlcache.DefaultTTL then c.ttl else ttl))
      ∧ (∀ k, k ≠ key → (c.Set rel key value ttl now).values k = c.values k)
      ∧ (c.Set rel key value ttl now).ttl = c.ttl
      ∧ (c.Set rel key value ttl now).disableTouchOnHit = c.disableTouchOnHit
      ∧ (∀ o ∈ (c.Set rel key value ttl now).orphans,
          o ∈ c.orphans ∨ (o.1 = key ∧ rel.setSeesExpired = false ∧ c.values key = some o.2)) := by
  unfold ttlcache.Cache.Set
  cases hv : c.values key with
  | none =>
    simp only
    refine ⟨⟨_, Function.update_same _ _ _, ?_⟩, fun k hk => by simp [Function.update_noteq hk],
      trivial, trivial,
      fun o ho => Or.inl ho⟩
    intro hne
    simp [hne]
  | some item =>
    simp only
    by_cases hb : item.isExpired now = true ∧ rel.setSeesExpired = false
    · rw [if_pos hb]
      refine ⟨⟨_, Function.update_same _ _ _, ?_⟩, fun k hk => by simp [Function.update_noteq hk],
        rfl, rfl, ?_⟩
      · intro hne
        simp [hne]
      · intro o ho
        simp only [List.mem_cons] at ho
        rcases ho with rfl | ho
        · exact Or.inr ⟨rfl, hb.2, rfl⟩
        · exact Or.inl ho
    · rw [if_neg hb]
      refine ⟨⟨_, Function.update_same _ _ _, ?_⟩, fun k hk => by simp [Function.update_noteq hk],
        rfl, rfl,
        fun o ho => Or.inl ho⟩
      intro hne
      simp [hne]

theorem newItem_spec {V : Type} (value : V) (τ now : Int) :
    (ttlcache.newItem value τ now).value = value ∧ (ttlcache.newItem value τ now).ttl = τ
      ∧ (0 < τ → (ttlcache.newItem value τ now).expiresAt = now + τ) := by
  unfold ttlcache.newItem ttlcache.Item.touch
  by_cases h : τ ≤ 0
  · rw [if_pos h]
    exact ⟨rfl, rfl, fun hp => absurd hp (not_lt.mpr h)⟩
  · rw [if_neg h]
    exact ⟨rfl, rfl, fun _ => rfl⟩

theorem eraseDups_loop_mem {α : Type} [BEq α] (l : List α) :
    ∀ (acc : List α) (x : α), x ∈ List.eraseDups.loop l acc → x ∈ l ∨ x ∈ acc := by
  induction l with
  | nil =>
    intro acc x hx
    unfold List.eraseDups.loop at hx
    exact Or.inr (List.mem_reverse.mp hx)
  | cons a l ih =>
    intro acc x hx
    unfold List.eraseDups.loop at hx
    cases hb : List.elem a acc with
    | true =>
      rw [hb] at hx
      rcases ih acc x hx with h | h
      · exact Or.inl (List.mem_cons_of_mem _ h)
      · exact Or.inr h
    | false =>
      rw [hb] at hx
      rcases ih (a :: acc) x hx with h | h
      · exact Or.inl (List.mem_cons_of_mem _ h)
      · rcases List.mem_cons.mp h with h | h
        · exact Or.inl (h ▸ List.mem_cons_self _ _)
        · exact Or.inr h

theorem eraseDups_mem {α : Type} [BEq α] (l : List α) (x : α) (h : x ∈ l.eraseDups) : x ∈ l := by
  rcases eraseDups_loop_mem l [] x h with h | h
  · exact h
  · cases h

theorem Events_miss (env : Collaborators) (c : calendarClient) (guildID : discord.GuildID)
    (now : Int) (latency : Nat) (upstream : Upstream) (h : c.cache.Get guildID now = (c.cache, none)) :
    c.Events env guildID now latency upstream
      = ⟨finishEvents env guildID (fetchEvents env c guildID upstream (now + latency)).2,
          (fetchEvents env c guildID upstream (now + latency)).1, 1⟩ := by
  unfold calendarClient.Events
  rw [h]

theorem Events_called (env : Collaborators) (c : calendarClient) (guildID : discord.GuildID)
    (now : Int) (latency : Nat) (upstream : Upstream)
    (h : (c.Events env guildID now latency upstream).upstreamCalls = 1) :
    (c.cache.Get guildID now).2 = none := by
  unfold calendarClient.Events at h
  cases hg : c.cache.Get guildID now with
  | mk cache item =>
    cases item with
    | none => rfl
    | some it => rw [hg] at h; simp at h

theorem isExpired_mono {V : Type} (item : ttlcache.Item V) (now later : Int) (h : now ≤ later)
    (he : 0 < item.ttl ∧ item.expiresAt < now) : item.isExpired later = true := by
  unfold ttlcache.Item.isExpired
  have : ¬ item.ttl ≤ 0 := not_le.mpr he.1
  simp only [this, if_false, decide_eq_true_eq]
  omega

/-- C9: when a call of `Events` invokes the upstream and the upstream fails, the
call returns no events and the error "cannot get events for guild <key>: <upstream
error>", the client and its cache are what they were before the call, and any
later call for the same key invokes the upstream again. -/
theorem Events_upstream_failure (env : Collaborators) (c : calendarClient)
    (guildID : discord.GuildID) (now : Int) (latency : Nat) (err : String)
    (hcalled : (c.Events env guildID now latency (.error err)).upstreamCalls = 1) :
    (c.Events env guildID now latency (.error err)).result
        = .error ("cannot get events for guild " ++ env.snowflakeString guildID ++ ": " ++ err)
      ∧ (c.Events env guildID now latency (.error err)).client = c
      ∧ ∀ (later : Int) (latency2 : Nat) (upstream2 : Upstream), now ≤ later →
          ((c.Events env guildID now latency (.error err)).client.Events env guildID later
            latency2 upstream2).upstreamCalls = 1 := by
  obtain ⟨hg, hwhy⟩ := Get_miss_of_none c.cache guildID now (Events_called _ _ _ _ _ _ hcalled)
  have hev := Events_miss env c guildID now latency (.error err) hg
  rw [hev]
  refine ⟨rfl, rfl, ?_⟩
  intro later latency2 upstream2 hle
  have hg2 : c.cache.Get guildID later = (c.cache, none) := by
    rcases hwhy with h | ⟨item, h, hexp⟩
    · exact Get_absent _ _ _ h
    · exact Get_expired _ _ _ item h (isExpired_mono item now later hle hexp)
  show (c.Events env guildID later latency2 upstream2).upstreamCalls = 1
  rw [Events_miss env c guildID later latency2 upstream2 hg2]

theorem fresh_not_expired (item : ttlcache.Item (List calendar.Event)) (ttl inserted now : Int)
    (h : item.ttl ≤ 0 ∨ (ttl ≤ item.ttl ∧ inserted + ttl ≤ item.expiresAt))
    (hnow : now ≤ inserted + ttl) : item.isExpired now = false := by
  unfold ttlcache.Item.isExpired
  by_cases hl : item.ttl ≤ 0
  · simp [hl]
  · simp only [hl, if_false, decide_eq_false_iff_not, not_lt]
    rcases h with h | h
    · exact absurd h hl
    · omega

theorem Events_hit (env : Collaborators) (c : calendarClient) (guildID : discord.GuildID)
    (now : Int) (latency : Nat) (upstream : Upstream)
    (item : ttlcache.Item (List calendar.Event)) (h : c.cache.values guildID = some item)
    (he : item.isExpired now = false) :
    (c.Events env guildID now latency upstream).result = .ok item.value
      ∧ (c.Events env guildID now latency upstream).upstreamCalls = 0
      ∧ (c.Events env guildID now latency upstream).client
        = { c with cache := (c.cache.Get guildID now).1 } := by
  obtain ⟨item2, h2, hv, _⟩ := Get_hit c.cache guildID now item h he
  unfold calendarClient.Events
  cases hg : c.cache.Get guildID now with
  | mk cache it =>
    rw [hg] at h2
    simp only at h2
    subst h2
    simp [hv]

/-- What a call of `Events` for `k` leaves of the cache: the options and the TTL
of the client, the entries of the other keys, and the unmapped elements, to
which it adds at most the expired entry of `k` itself. -/
theorem Events_frame (env : Collaborators) (c : calendarClient) (k : discord.GuildID)
    (now : Int) (latency : Nat) (upstream : Upstream) :
    (∀ guildID, guildID ≠ k →
        (c.Events env k now latency upstream).client.cache.values guildID
          = c.cache.values guildID)
      ∧ (c.Events env k now latency upstream).client.ttl = c.ttl
      ∧ (c.Events env k now latency upstream).client.cache.disableTouchOnHit
        = c.cache.disableTouchOnHit
      ∧ (∀ o ∈ (c.Events env k now latency upstream).client.cache.orphans,
          o ∈ c.cache.orphans
            ∨ (o.1 = k ∧ env.ttlcache.setSeesExpired = false ∧ c.cache.values k = some o.2
              ∧ (c.Events env k now latency upstream).upstreamCalls = 1)) := by
  cases hn : (c.cache.Get k now).2 with
  | none =>
    obtain ⟨hg, _⟩ := Get_miss_of_none c.cache k now hn
    rw [Events_miss env c k now latency upstream hg]
    cases upstream with
    | error err => exact ⟨fun _ _ => rfl, rfl, rfl, fun o ho => Or.inl ho⟩
    | ok des =>
      obtain ⟨_, s2, s3, s4, s5⟩ := Set_spec c.cache env.ttlcache k
        (convertDiscordEvents env des) c.ttl (now + latency)
      refine ⟨fun g hg2 => s2 g hg2, rfl, s4, ?_⟩
      intro o ho
      rcases s5 o ho with h | ⟨h1, h2, h3⟩
      · exact Or.inl h
      · exact Or.inr ⟨h1, h2, h3, rfl⟩
  | some it =>
    cases hv : c.cache.values k with
    | none => rw [Get_absent _ _ _ hv] at hn; cases hn
    | some item =>
      cases he : item.isExpired now with
      | true => rw [Get_expired _ _ _ item hv he] at hn; cases hn
      | false =>
        obtain ⟨_, _, hc⟩ := Events_hit env c k now latency upstream item hv he
        obtain ⟨item2, _, _, _, _, _, _, hoth, _, hdt, horph⟩ := Get_hit c.cache k now item hv he
        rw [hc]
        refine ⟨fun g hg2 => hoth g hg2, rfl, hdt, ?_⟩
        intro o ho
        simp only at ho
        rw [horph] at ho
        exact Or.inl ho

theorem sweep_values (c : calendarClient) (now : Int) (guildID : discord.GuildID)
    (item : ttlcache.Item (List calendar.Event)) (hv : c.cache.values guildID = some item)
    (he : item.isExpired now = false) (hu : c.unshadowed guildID) :
    (c.DeleteExpired now).cache.values guildID = some item := by
  have hany : c.cache.orphans.any
      (fun o => decide (o.1 = guildID) && o.2.isExpired now) = false := by
    rw [List.any_eq_false]
    intro o ho
    simp [hu o ho]
  simp [calendarClient.DeleteExpired, ttlcache.Cache.DeleteExpired, hv, he, hany]

theorem sweep_orphans (c : calendarClient) (now : Int) :
    ∀ o ∈ (c.DeleteExpired now).cache.orphans,
      o ∈ c.cache.orphans ∨ ∃ o2 ∈ c.cache.orphans, o2.1 = o.1 := by
  intro o ho
  simp only [calendarClient.DeleteExpired, ttlcache.Cache.DeleteExpired, List.mem_append,
    List.mem_filter, List.mem_filterMap] at ho
  rcases ho with ⟨ho, _⟩ | ⟨k, hk, hko⟩
  · exact Or.inl ho
  · right
    have hk := eraseDups_mem _ _ hk
    simp only [List.mem_map, List.mem_filter] at hk
    obtain ⟨o2, ⟨ho2, _⟩, rfl⟩ := hk
    refine ⟨o2, ho2, ?_⟩
    cases hv : c.cache.values o2.1 with
    | none => rw [hv] at hko; cases hko
    | some item =>
      rw [hv] at hko
      simp only at hko
      split_ifs at hko
      cases hko
      rfl

theorem apply_ttl (env : Collaborators) (c : calendarClient) (op : Op) :
    (c.apply env op).ttl = c.ttl := by
  cases op with
  | sweep now => rfl
  | events k now latency upstream => exact (Events_frame env c k now latency upstream).2.1

theorem run_ttl (env : Collaborators) (ops : List Op) :
    ∀ c : calendarClient, (c.run env ops).ttl = c.ttl := by
  induction ops with
  | nil => intro c; rfl
  | cons op rest ih => intro c; exact (ih (c.apply env op)).trans (apply_ttl env c op)

theorem orphans_nil_apply (env : Collaborators) (c : calendarClient) (op : Op)
    (hrel : env.ttlcache.setSeesExpired = true) (h : c.cache.orphans = []) :
    (c.apply env op).cache.orphans = [] := by
  rw [List.eq_nil_iff_forall_not_mem]
  intro o ho
  cases op with
  | sweep now =>
    rcases sweep_orphans c now o ho with h1 | ⟨o2, h2, _⟩
    · rw [h] at h1; cases h1
    · rw [h] at h2; cases h2
  | events k now latency upstream =>
    rcases (Events_frame env c k now latency upstream).2.2.2 o ho with h1 | ⟨_, h2, _⟩
    · rw [h] at h1; cases h1
    · rw [hrel] at h2; cases h2

theorem orphans_nil_run (env : Collaborators) (hrel : env.ttlcache.setSeesExpired = true)
    (ops : List Op) :
    ∀ c : calendarClient, c.cache.orphans = [] → (c.run env ops).cache.orphans = [] := by
  induction ops with
  | nil => intro c h; exact h
  | cons op rest ih => intro c h; exact ih _ (orphans_nil_apply env c op hrel h)

theorem fresh_apply (env : Collaborators) (c : calendarClient) (guildID : discord.GuildID)
    (events : List calendar.Event) (ttl inserted : Int) (op : Op)
    (h : c.fresh guildID events ttl inserted)
    (hop : inserted ≤ op.time ∧ op.time ≤ inserted + ttl)
    (hs : c.unshadowed guildID ∨ op.isSweep = false) :
    (c.apply env op).fresh guildID events ttl inserted
      ∧ (c.unshadowed guildID → (c.apply env op).unshadowed guildID) := by
  obtain ⟨httl, item, hv, hval, hexp⟩ := h
  cases op with
  | sweep now =>
    have hu : c.unshadowed guildID := by
      rcases hs with hs | hs
      · exact hs
      · cases hs
    have he := fresh_not_expired item ttl inserted now hexp hop.2
    refine ⟨⟨httl, item, sweep_values c now guildID item hv he hu, hval, hexp⟩, ?_⟩
    intro _ o ho
    rcases sweep_orphans c now o ho with h1 | ⟨o2, h2, h3⟩
    · exact hu o h1
    · rw [← h3]; exact hu o2 h2
  | events k now latency upstream =>
    by_cases hk : guildID = k
    · subst hk
      have he := fresh_not_expired item ttl inserted now hexp hop.2
      obtain ⟨_, hcalls, hc⟩ := Events_hit env c guildID now latency upstream item hv he
      obtain ⟨item2, _, h2v, h2t, h2e, _, h2s, _⟩ := Get_hit c.cache guildID now item hv he
      constructor
      · show ((c.Events env guildID now latency upstream).client).fresh guildID events ttl inserted
        rw [hc]
        refine ⟨httl, item2, h2s, h2v.trans hval, ?_⟩
        rcases h2e with h | ⟨hpos, h⟩
        · rw [h]; exact hexp
        · rcases hexp with hexp | hexp
          · exact absurd hexp (not_le.mpr hpos)
          · right
            have ht : inserted ≤ now := hop.1
            rw [h2t, h]
            constructor
            · exact hexp.1
            · omega
      · intro hu o ho
        rcases (Events_frame env c guildID now latency upstream).2.2.2 o ho with
          h1 | ⟨_, _, _, h4⟩
        · exact hu o h1
        · rw [hcalls] at h4; cases h4
    · obtain ⟨h1, h2, _, h4⟩ := Events_frame env c k now latency upstream
      refine ⟨⟨h2.trans httl, item, (h1 guildID hk).trans hv, hval, hexp⟩, ?_⟩
      intro hu o ho
      rcases h4 o ho with h5 | ⟨h5, _⟩
      · exact hu o h5
      · rw [h5]; exact fun e => hk e.symm

theorem fresh_run (env : Collaborators) (guildID : discord.GuildID)
    (events : List calendar.Event) (ttl inserted : Int) (ops : List Op) :
    ∀ c : calendarClient, c.fresh guildID events ttl inserted →
      (∀ op ∈ ops, inserted ≤ op.time ∧ op.time ≤ inserted + ttl) →
      (c.unshadowed guildID ∨ ∀ op ∈ ops, op.isSweep = false) →
      (c.run env ops).fresh guildID events ttl inserted := by
  induction ops with
  | nil => intro c h _ _; exact h
  | cons op rest ih =>
    intro c h hops hs
    have hstep := fresh_apply env c guildID events ttl inserted op h
      (hops op (List.mem_cons_self _ _))
      (hs.imp id (fun hn => hn op (List.mem_cons_self _ _)))
    refine ih (c.apply env op) hstep.1 (fun o ho => hops o (List.mem_cons_of_mem _ ho)) ?_
    rcases hs with hs | hs
    · exact Or.inl (hstep.2 hs)
    · exact Or.inr (fun o ho => hs o (List.mem_cons_of_mem _ ho))

theorem fresh_after_fetch (env : Collaborators) (c : calendarClient) (guildID : discord.GuildID)
    (now : Int) (latency : Nat) (discordEvents : List discord.GuildScheduledEvent)
    (hcalled : (c.Events env guildID now latency (.ok discordEvents)).upstreamCalls = 1) :
    (c.Events env guildID now latency (.ok discordEvents)).client.fresh guildID
      (convertDiscordEvents env discordEvents) c.ttl (now + latency) := by
  obtain ⟨hg, _⟩ := Get_miss_of_none c.cache guildID now (Events_called _ _ _ _ _ _ hcalled)
  rw [Events_miss env c guildID now latency _ hg]
  obtain ⟨⟨τ, hτv, hτ⟩, _⟩ := Set_spec c.cache env.ttlcache guildID
    (convertDiscordEvents env discordEvents) c.ttl (now + latency)
  obtain ⟨n1, n2, n3⟩ := newItem_spec (convertDiscordEvents env discordEvents) τ (now + latency)
  refine ⟨rfl, _, hτv, n1, ?_⟩
  rw [n2]
  by_cases hl : τ ≤ 0
  · exact Or.inl hl
  · right
    rw [n3 (not_le.mp hl)]
    have hle : c.ttl ≤ τ := by
      unfold ttlcache.DefaultTTL ttlcache.PreviousOrDefaultTTL at hτ
      by_cases h0 : c.ttl = 0
      · omega
      · rw [if_neg h0] at hτ
        by_cases h2 : c.ttl = -2
        · omega
        · rw [hτ h2]
    exact ⟨hle, by omega⟩

/-- The first call of `Events` for a key leaves no stale element of the key in
the expiration queue: on a client made by `newCalendarClient`, after any calls
for other keys and any sweeps. -/
theorem unshadowed_first_call (env : Collaborators) (ttl : Int) (guildID : discord.GuildID)
    (before : List Op) (now : Int) (latency : Nat) (upstream : Upstream)
    (hfirst : ∀ op ∈ before, op.guild ≠ some guildID) :
    (((newCalendarClient ttl).run env before).Events env guildID now latency
      upstream).client.unshadowed guildID := by
  have hrun : ∀ (ops : List Op) (c : calendarClient),
      (∀ op ∈ ops, op.guild ≠ some guildID) →
      c.cache.values guildID = none ∧ c.unshadowed guildID →
      (c.run env ops).cache.values guildID = none ∧ (c.run env ops).unshadowed guildID := by
    intro ops
    induction ops with
    | nil => intro c _ h; exact h
    | cons op rest ih =>
      intro c hops h
      refine ih (c.apply env op) (fun o ho => hops o (List.mem_cons_of_mem _ ho)) ?_
      obtain ⟨hv, hu⟩ := h
      have hop := hops op (List.mem_cons_self _ _)
      cases op with
      | sweep t =>
        constructor
        · simp [calendarClient.apply, calendarClient.DeleteExpired,
            ttlcache.Cache.DeleteExpired, hv]
        · intro o ho
          rcases sweep_orphans c t o ho with h1 | ⟨o2, h2, h3⟩
          · exact hu o h1
          · rw [← h3]; exact hu o2 h2
      | events k t l u =>
        have hk : guildID ≠ k := fun e => hop (by rw [e]; rfl)
        obtain ⟨h1, _, _, h4⟩ := Events_frame env c k t l u
        refine ⟨(h1 guildID hk).trans hv, ?_⟩
        intro o ho
        rcases h4 o ho with h5 | ⟨h5, _⟩
        · exact hu o h5
        · rw [h5]; exact fun e => hk e.symm
  obtain ⟨hv, hu⟩ := hrun before (newCalendarClient ttl) hfirst
    ⟨rfl, fun o ho => by cases ho⟩
  intro o ho
  rcases (Events_frame env _ guildID now latency upstream).2.2.2 o ho with h1 | ⟨_, _, h3, _⟩
  · exact hu o h1
  · rw [hv] at h3
    cases h3

/-- C7 (counterexample): with a TTL of five minutes and a release of `ttlcache`
up to v3.1, the entry of guild 1 inserted at clock reading 0 is found expired by a
call after six minutes, which fetches successfully and stores a new entry; a
sweep after seven minutes deletes that new entry together with the expired one;
and the call after eight minutes, inside the window of five minutes that
started at six, invokes the upstream again. -/
theorem Events_sweep_drops_fresh_entry :
    afterFetch = (newCalendarClient (5 * time.Minute)).run exampleEnv [.events 1 0 0 (.ok [])]
      ∧ (afterFetch.Events exampleEnv 1 (6 * time.Minute) 0 (.ok [])).upstreamCalls = 1
      ∧ (afterFetch.Events exampleEnv 1 (6 * time.Minute) 0 (.ok [])).result = .ok []
      ∧ (6 * time.Minute + (0 : Nat) ≤ 7 * time.Minute
        ∧ 7 * time.Minute ≤ 6 * time.Minute + (0 : Nat) + 5 * time.Minute)
      ∧ (6 * time.Minute + (0 : Nat) ≤ 8 * time.Minute
        ∧ 8 * time.Minute ≤ 6 * time.Minute + (0 : Nat) + 5 * time.Minute)
      ∧ ((((afterFetch.Events exampleEnv 1 (6 * time.Minute) 0 (.ok [])).client.run exampleEnv
          [.sweep (7 * time.Minute)]).Events exampleEnv 1 (8 * time.Minute) 0
            (.ok [])).upstreamCalls = 1) := by
  refine ⟨by rfl, by decide, by rfl, by decide, by decide, by decide⟩

/-- C7 (amended): on a client made by `newCalendarClient`, after any calls and
sweeps, once a call of `Events` for a key has fetched successfully, every call
for that key made within the TTL window of the insertion (whatever calls for
any key and sweeps were made in between within that window) returns the
cached list unchanged, with no error, and makes no call to the upstream,
provided the release of `ttlcache` is v3.3 or later, or the expiration queue of
the cache holds no stale element of the key after the fetch (as after the
first call for the key, `unshadowed_first_call`), or no sweep runs in between. -/
theorem Events_cache_hit (env : Collaborators) (ttl : Int) (before : List Op)
    (guildID : discord.GuildID) (t0 : Int) (latency : Nat)
    (discordEvents : List discord.GuildScheduledEvent)
    (ops : List Op) (t : Int) (latency2 : Nat) (upstream2 : Upstream)
    (hfetch : (((newCalendarClient ttl).run env before).Events env guildID t0 latency
      (.ok discordEvents)).upstreamCalls = 1)
    (hops : ∀ op ∈ ops, t0 + latency ≤ op.time ∧ op.time ≤ t0 + latency + ttl)
    (ht : t0 + latency ≤ t ∧ t ≤ t0 + latency + ttl)
    (hsafe : env.ttlcache = .v3_3
      ∨ (((newCalendarClient ttl).run env before).Events env guildID t0 latency
          (.ok discordEvents)).client.unshadowed guildID
      ∨ ∀ op ∈ ops, op.isSweep = false) :
    (((((newCalendarClient ttl).run env before).Events env guildID t0 latency
        (.ok discordEvents)).client.run env ops).Events env guildID t latency2 upstream2).result
        = .ok (convertDiscordEvents env discordEvents)
      ∧ (((((newCalendarClient ttl).run env before).Events env guildID t0 latency
        (.ok discordEvents)).client.run env ops).Events env guildID t latency2
          upstream2).upstreamCalls = 0 := by
  have httl : ((newCalendarClient ttl).run env before).ttl = ttl := run_ttl env before _
  have h1 := fresh_after_fetch env _ guildID t0 latency discordEvents hfetch
  rw [httl] at h1
  have hs : (((newCalendarClient ttl).run env before).Events env guildID t0 latency
        (.ok discordEvents)).client.unshadowed guildID ∨ ∀ op ∈ ops, op.isSweep = false := by
    rcases hsafe with hrel | hu | hn
    · left
      have hrel2 : env.ttlcache.setSeesExpired = true := by rw [hrel]; rfl
      have h0 := orphans_nil_run env hrel2 (before ++ [.events guildID t0 latency
        (.ok discordEvents)]) (newCalendarClient ttl) rfl
      intro o ho
      have hrun : (newCalendarClient ttl).run env (before ++ [.events guildID t0 latency
          (.ok discordEvents)]) = (((newCalendarClient ttl).run env before).Events env guildID
            t0 latency (.ok discordEvents)).client := by
        simp [calendarClient.run, calendarClient.apply, List.foldl_append]
      rw [hrun] at h0
      rw [h0] at ho
      cases ho
    · exact Or.inl hu
    · exact Or.inr hn
  have h2 := fresh_run env guildID _ ttl (t0 + latency) ops _ h1 hops hs
  obtain ⟨_, item, hv, hval, hexp⟩ := h2
  have he := fresh_not_expired item ttl (t0 + latency) t hexp ht.2
  obtain ⟨hr, hc, _⟩ := Events_hit env _ guildID t latency2 upstream2 item hv he
  exact ⟨hr.trans (by rw [hval]), hc⟩

theorem regular_new (ttl : Int) : (newCalendarClient ttl).regular ttl := by
  refine ⟨rfl, rfl, ?_⟩
  intro k item h
  simp [newCalendarClient, ttlcache.New] at h

theorem regular_apply (env : Collaborators) (c : calendarClient) (ttl : Int) (op : Op)
    (hpos : 0 < ttl) (h : c.regular ttl) : (c.apply env op).regular ttl := by
  obtain ⟨httl, htouch, hitems⟩ := h
  cases op with
  | sweep now =>
    refine ⟨httl, htouch, ?_⟩
    intro k item hk
    simp only [calendarClient.apply, calendarClient.DeleteExpired,
      ttlcache.Cache.DeleteExpired] at hk
    split_ifs at hk
    exact hitems k _ hk
  | events k now latency upstream =>
    show ((c.Events env k now latency upstream).client).regular ttl
    cases hn : (c.cache.Get k now).2 with
    | none =>
      obtain ⟨hg, _⟩ := Get_miss_of_none c.cache k now hn
      rw [Events_miss env c k now latency upstream hg]
      cases upstream with
      | error err => exact ⟨httl, htouch, hitems⟩
      | ok des =>
        obtain ⟨⟨τ, hτv, hτ⟩, s2, _, s4, _⟩ := Set_spec c.cache env.ttlcache k
          (convertDiscordEvents env des) c.ttl (now + latency)
        refine ⟨httl, s4.trans htouch, ?_⟩
        intro k2 item hk2
        by_cases hkk : k2 = k
        · subst hkk
          have hk3 : some (ttlcache.newItem (convertDiscordEvents env des) τ (now + latency))
              = some item := hτv.symm.trans hk2
          cases hk3
          rw [(newItem_spec _ _ _).2.1]
          unfold ttlcache.DefaultTTL ttlcache.PreviousOrDefaultTTL at hτ
          rw [httl, if_neg (by omega)] at hτ
          exact hτ (by omega)
        · exact hitems k2 item ((s2 k2 hkk).symm.trans hk2)
    | some it =>
      cases hv : c.cache.values k with
      | none => rw [Get_absent _ _ _ hv] at hn; cases hn
      | some item =>
        cases he : item.isExpired now with
        | true => rw [Get_expired _ _ _ item hv he] at hn; cases hn
        | false =>
          obtain ⟨_, _, hc⟩ := Events_hit env c k now latency upstream item hv he
          obtain ⟨item2, _, _, h2t, _, _, h2s, hoth, _, hdt, _⟩ :=
            Get_hit c.cache k now item hv he
          rw [hc]
          refine ⟨httl, hdt.trans htouch, ?_⟩
          intro k2 it2 hk2
          by_cases hkk : k2 = k
          · subst hkk
            simp only at hk2
            rw [h2s] at hk2
            cases hk2
            rw [h2t]
            exact hitems k2 item hv
          · simp only at hk2
            rw [hoth k2 hkk] at hk2
            exact hitems k2 it2 hk2

theorem regular_run (env : Collaborators) (ttl : Int) (hpos : 0 < ttl) (ops : List Op) :
    ∀ c : calendarClient, c.regular ttl → (c.run env ops).regular ttl := by
  induction ops with
  | nil => intro c h; exact h
  | cons op rest ih => intro c h; exact ih _ (regular_apply env c ttl op hpos h)

/-- C8 (counterexample): with a TTL of five minutes, an entry inserted at clock
reading 0 and read after four minutes has its expiry moved from five to nine
minutes by that read, and a call made after six minutes, later than insertion
time plus TTL, is served from the cache without any upstream fetch. -/
theorem Events_read_moves_expiry :
    ((newCalendarClient (5 * time.Minute)).Events exampleEnv 1 0 0 (.ok [])).upstreamCalls = 1
      ∧ (afterFetch.cache.values 1).map (fun item => item.expiresAt) = some (5 * time.Minute)
      ∧ (afterRead.cache.values 1).map (fun item => item.expiresAt) = some (9 * time.Minute)
      ∧ 0 + 5 * time.Minute < 6 * time.Minute
      ∧ (afterRead.Events exampleEnv 1 (6 * time.Minute) 0 (.ok [])).upstreamCalls = 0 := by
  refine ⟨by decide, by decide, by decide, by decide, by decide⟩

/-- C8 (amended): on a client made by `newCalendarClient` with a positive TTL,
after any calls and sweeps: a successful fetch stores the entry with expiry
insertion time + TTL; a call that finds the entry unexpired is served from the
cache and moves the expiry to the time of that call + TTL; and a call made after
the expiry of the entry triggers exactly one upstream fetch. -/
theorem Events_expiry_sliding (env : Collaborators) (ttl : Int) (ops : List Op)
    (c : calendarClient) (guildID : discord.GuildID) (now : Int) (latency : Nat)
    (upstream : Upstream) (hpos : 0 < ttl) (hc : c = (newCalendarClient ttl).run env ops) :
    (∀ discordEvents, upstream = .ok discordEvents →
        (c.Events env guildID now latency upstream).upstreamCalls = 1 →
        ∃ item, (c.Events env guildID now latency upstream).client.cache.values guildID
            = some item
          ∧ item.value = convertDiscordEvents env discordEvents
          ∧ item.expiresAt = now + latency + ttl)
      ∧ (∀ item, c.cache.values guildID = some item → now ≤ item.expiresAt →
          (c.Events env guildID now latency upstream).upstreamCalls = 0
            ∧ (c.Events env guildID now latency upstream).result = .ok item.value
            ∧ ∃ item2, (c.Events env guildID now latency upstream).client.cache.values guildID
                = some item2
              ∧ item2.value = item.value ∧ item2.expiresAt = now + ttl)
      ∧ (∀ item, c.cache.values guildID = some item → item.expiresAt < now →
          (c.Events env guildID now latency upstream).upstreamCalls = 1) := by
  have hreg : c.regular ttl := hc ▸ regular_run env ttl hpos ops _ (regular_new ttl)
  obtain ⟨httl, htouch, hitems⟩ := hreg
  refine ⟨?_, ?_, ?_⟩
  · intro des hup hcalled
    subst hup
    obtain ⟨hg, _⟩ := Get_miss_of_none c.cache guildID now (Events_called _ _ _ _ _ _ hcalled)
    rw [Events_miss env c guildID now latency _ hg]
    obtain ⟨⟨τ, hτv, hτ⟩, _⟩ := Set_spec c.cache env.ttlcache guildID
      (convertDiscordEvents env des) c.ttl (now + latency)
    obtain ⟨n1, _, n3⟩ := newItem_spec (convertDiscordEvents env des) τ (now + latency)
    have hτ2 : τ = ttl := by
      unfold ttlcache.DefaultTTL ttlcache.PreviousOrDefaultTTL at hτ
      rw [httl, if_neg (by omega)] at hτ
      exact hτ (by omega)
    refine ⟨_, hτv, n1, ?_⟩
    rw [n3 (by omega), hτ2]
  · intro item hv hle
    have hit : item.ttl = ttl := hitems guildID item hv
    have he : item.isExpired now = false := by
      unfold ttlcache.Item.isExpired
      have : ¬ item.ttl ≤ 0 := by rw [hit]; omega
      simp only [this, if_false, decide_eq_false_iff_not, not_lt]
      exact hle
    obtain ⟨hr, hcalls, hcl⟩ := Events_hit env c guildID now latency upstream item hv he
    obtain ⟨item2, _, h2v, _, _, h2e, h2s, _⟩ := Get_hit c.cache guildID now item hv he
    refine ⟨hcalls, hr, item2, ?_, h2v, ?_⟩
    · rw [hcl]; exact h2s
    · rw [h2e htouch (by rw [hit]; exact hpos), hit]
  · intro item hv hlt
    have hit : item.ttl = ttl := hitems guildID item hv
    have he : item.isExpired now = true := by
      unfold ttlcache.Item.isExpired
      have : ¬ item.ttl ≤ 0 := by rw [hit]; omega
      simp only [this, if_false, decide_eq_true_eq]
      exact hlt
    rw [Events_miss env c guildID now latency upstream (Get_expired _ _ _ item hv he)]

theorem Events_cache_hit_witness :
    ((((((newCalendarClient (5 * time.Minute)).run exampleEnv [.events 2 0 0 (.ok []),
          .sweep time.Minute]).Events exampleEnv 1 (2 * time.Minute) 0 (.ok [])).client.run
          exampleEnv [.events 1 (3 * time.Minute) 0 (.ok []), .sweep (6 * time.Minute),
            .events 2 (7 * time.Minute) 0 (.error "boom")]).Events exampleEnv 1
          (7 * time.Minute) 0 (.error "boom")).result = .ok (convertDiscordEvents exampleEnv []))
      ∧ (((((newCalendarClient (5 * time.Minute)).run exampleEnv [.events 2 0 0 (.ok []),
          .sweep time.Minute]).Events exampleEnv 1 (2 * time.Minute) 0 (.ok [])).client.run
          exampleEnv [.events 1 (3 * time.Minute) 0 (.ok []), .sweep (6 * time.Minute),
            .events 2 (7 * time.Minute) 0 (.error "boom")]).Events exampleEnv 1
          (7 * time.Minute) 0 (.error "boom")).upstreamCalls = 0 :=
  Events_cache_hit exampleEnv (5 * time.Minute) [.events 2 0 0 (.ok []), .sweep time.Minute]
    1 (2 * time.Minute) 0 []
    [.events 1 (3 * time.Minute) 0 (.ok []), .sweep (6 * time.Minute),
      .events 2 (7 * time.Minute) 0 (.error "boom")]
    (7 * time.Minute) 0 (.error "boom") (by decide) (by decide) (by decide)
    (Or.inr (Or.inl (by unfold calendarClient.unshadowed; decide)))

theorem Events_expiry_sliding_witness :
    (afterFetch.Events exampleEnv 1 (6 * time.Minute) 0 (.ok [])).upstreamCalls = 1 :=
  (Events_expiry_sliding exampleEnv (5 * time.Minute) [.events 1 0 0 (.ok [])] afterFetch 1
    (6 * time.Minute) 0 (.ok []) (by decide) rfl).2.2
    ⟨[], 5 * time.Minute, 5 * time.Minute⟩ (by rfl) (by decide)

theorem Events_upstream_failure_witness :
    ((newCalendarClient (5 * time.Minute)).Events exampleEnv 42 0 0 (.error "boom")).result
        = .error "cannot get events for guild 42: boom"
      ∧ (((newCalendarClient (5 * time.Minute)).Events exampleEnv 42 0 0
          (.error "boom")).client.Events exampleEnv 42 1 0 (.ok [])).upstreamCalls = 1 :=
  have h := Events_upstream_failure exampleEnv (newCalendarClient (5 * time.Minute)) 42 0 0
    "boom" (by decide)
  ⟨h.1.trans (by rfl), h.2.2 1 0 (.ok []) (by decide)⟩

/-! ## Properties of concurrent calls of `Events` -/

namespace interleaving

theorem init_consistent (env : Collaborators) (c : calendarClient) (n : Nat)
    (keys : Nat → discord.GuildID) : (init c n keys).consistent env := by
  refine ⟨?_, ?_, ?_, ?_⟩
  · intro g call h
    rcases h with h | ⟨r, h⟩ <;> simp [init] at h
  · intro g1 g2 call h
    rcases h with h | ⟨r, h⟩ <;> simp [init] at h
  · intro g r call h
    simp [init] at h
  · intro call _
    rfl

theorem leads_of_update_ne (s : State) (pcs : Nat → Pc) (g g2 call : Nat) (pc : Pc)
    (hpcs : pcs = Function.update s.pcs g pc) (hne : g2 ≠ g)
    (h : pcs g2 = .leading call ∨ ∃ r, pcs g2 = .leaving call r) : s.leads g2 call := by
  subst hpcs
  rw [Function.update_noteq hne] at h
  exact h

theorem step_consistent (env : Collaborators) (s s1 : State) (a : Action)
    (hs : s.consistent env) (h : step env s a = some s1) :
    s1.consistent env ∧ s1.keys = s.keys := by
  obtain ⟨i1, i2, i3, i4⟩ := hs
  unfold step at h
  split_ifs at h with hn
  split at h
  · -- get
    rename_i g now hpc
    have key : ∀ cache pc, (pc = Pc.missed ∨ ∃ r, pc = Pc.done r none) →
        State.consistent env { s with
          client := { s.client with cache := cache }
          pcs := Function.update s.pcs g pc } := by
      intro cache pc hpcv
      have hnl : ∀ call, ¬ (pc = .leading call ∨ ∃ r, pc = .leaving call r) := by
        intro call hc
        rcases hpcv with rfl | ⟨r, rfl⟩ <;> rcases hc with hc | ⟨_, hc⟩ <;> cases hc
      have hl : ∀ g2 call, (Function.update s.pcs g pc g2 = .leading call
          ∨ ∃ r, Function.update s.pcs g pc g2 = .leaving call r) → s.leads g2 call := by
        intro g2 call hc
        by_cases hg : g2 = g
        · subst hg
          rw [Function.update_same] at hc
          exact absurd hc (hnl call)
        · exact leads_of_update_ne s _ g g2 call pc rfl hg hc
      refine ⟨fun g2 call hc => i1 g2 call (hl g2 call hc),
        fun g1 g2 call h1 h2 => i2 g1 g2 call (hl g1 call h1) (hl g2 call h2), ?_, i4⟩
      intro g2 r call hd
      by_cases hg : g2 = g
      · subst hg
        simp only [Function.update_same] at hd
        rcases hpcv with rfl | ⟨r2, rfl⟩ <;> cases hd
      · simp only [Function.update_noteq hg] at hd
        exact i3 g2 r call hd
    split at h
    · cases h
      exact ⟨key _ _ (Or.inr ⟨_, rfl⟩), rfl⟩
    · cases h
      exact ⟨key _ _ (Or.inl rfl), rfl⟩
  · -- enter
    rename_i g hpc
    split at h
    · rename_i call hf
      cases h
      refine ⟨⟨?_, ?_, ?_, i4⟩, rfl⟩
      · intro g2 c2 hc
        by_cases hg : g2 = g
        · subst hg
          simp only [State.leads, Function.update_same] at hc
          rcases hc with hc | ⟨_, hc⟩ <;> cases hc
        · exact i1 g2 c2 (leads_of_update_ne s _ g g2 c2 _ rfl hg hc)
      · intro g1 g2 c2 h1 h2
        have n1 : g1 ≠ g := by
          rintro rfl
          simp only [State.leads, Function.update_same] at h1
          rcases h1 with h1 | ⟨_, h1⟩ <;> cases h1
        have n2 : g2 ≠ g := by
          rintro rfl
          simp only [State.leads, Function.update_same] at h2
          rcases h2 with h2 | ⟨_, h2⟩ <;> cases h2
        exact i2 g1 g2 c2 (leads_of_update_ne s _ g g1 c2 _ rfl n1 h1)
          (leads_of_update_ne s _ g g2 c2 _ rfl n2 h2)
      · intro g2 r c2 hd
        by_cases hg : g2 = g
        · subst hg
          simp only [Function.update_same] at hd
          cases hd
        · simp only [Function.update_noteq hg] at hd
          exact i3 g2 r c2 hd
    · rename_i hf
      cases h
      refine ⟨⟨?_, ?_, ?_, ?_⟩, rfl⟩
      · intro g2 c2 hc
        by_cases hg : g2 = g
        · subst hg
          simp only [State.leads, Function.update_same] at hc
          rcases hc with hc | ⟨_, hc⟩
          · cases hc
            exact ⟨by simp, i4 _ (le_refl _), Nat.lt_succ_self _⟩
          · cases hc
        · have hold := leads_of_update_ne s _ g g2 c2 _ rfl hg hc
          obtain ⟨f1, f2, f3⟩ := i1 g2 c2 hold
          have hk : s.keys g2 ≠ s.keys g := by
            intro hk
            rw [hk, hf] at f1
            cases f1
          exact ⟨by simp only [Function.update_noteq hk]; exact f1, f2, Nat.lt_succ_of_lt f3⟩
      · intro g1 g2 c2 h1 h2
        by_cases hg1 : g1 = g
        · by_cases hg2 : g2 = g
          · rw [hg1, hg2]
          · subst hg1
            simp only [State.leads, Function.update_same] at h1
            have hold := leads_of_update_ne s _ g1 g2 c2 _ rfl hg2 h2
            rcases h1 with h1 | ⟨_, h1⟩
            · cases h1
              exact absurd (i1 g2 _ hold).2.2 (lt_irrefl _)
            · cases h1
        · have hold1 := leads_of_update_ne s _ g g1 c2 _ rfl hg1 h1
          by_cases hg2 : g2 = g
          · subst hg2
            simp only [State.leads, Function.update_same] at h2
            rcases h2 with h2 | ⟨_, h2⟩
            · cases h2
              exact absurd (i1 g1 _ hold1).2.2 (lt_irrefl _)
            · cases h2
          · exact i2 g1 g2 c2 hold1 (leads_of_update_ne s _ g g2 c2 _ rfl hg2 h2)
      · intro g2 r c2 hd
        by_cases hg : g2 = g
        · subst hg
          simp only [Function.update_same] at hd
          cases hd
        · simp only [Function.update_noteq hg] at hd
          exact i3 g2 r c2 hd
      · intro call hle
        exact i4 call (Nat.le_of_succ_le hle)
  · -- fetch
    rename_i g upstream now call hpc
    cases h
    have hl : ∀ g2 c2, (Function.update s.pcs g
          (.leaving call (fetchEvents env s.client (s.keys g) upstream now).2) g2 = .leading c2
        ∨ ∃ r, Function.update s.pcs g
          (.leaving call (fetchEvents env s.client (s.keys g) upstream now).2) g2
            = .leaving c2 r) → s.leads g2 c2 := by
      intro g2 c2 hc
      by_cases hg : g2 = g
      · subst hg
        simp only [Function.update_same] at hc
        rcases hc with hc | ⟨_, hc⟩
        · cases hc
        · cases hc
          exact Or.inl hpc
      · exact leads_of_update_ne s _ g g2 c2 _ rfl hg hc
    refine ⟨⟨fun g2 c2 hc => i1 g2 c2 (hl g2 c2 hc),
      fun g1 g2 c2 h1 h2 => i2 g1 g2 c2 (hl g1 c2 h1) (hl g2 c2 h2), ?_, i4⟩, rfl⟩
    intro g2 r c2 hd
    by_cases hg : g2 = g
    · subst hg
      simp only [Function.update_same] at hd
      cases hd
    · simp only [Function.update_noteq hg] at hd
      exact i3 g2 r c2 hd
  · -- leave
    rename_i g call r hpc
    cases h
    have hlead : s.leads g call := Or.inr ⟨r, hpc⟩
    obtain ⟨f1, f2, f3⟩ := i1 g call hlead
    have hl : ∀ g2 c2, (Function.update s.pcs g
          (.done (finishEvents env (s.keys g) r) (some call)) g2 = .leading c2
        ∨ ∃ r2, Function.update s.pcs g
          (.done (finishEvents env (s.keys g) r) (some call)) g2 = .leaving c2 r2) →
        g2 ≠ g ∧ s.leads g2 c2 := by
      intro g2 c2 hc
      by_cases hg : g2 = g
      · subst hg
        simp only [Function.update_same] at hc
        rcases hc with hc | ⟨_, hc⟩ <;> cases hc
      · exact ⟨hg, leads_of_update_ne s _ g g2 c2 _ rfl hg hc⟩
    refine ⟨⟨?_, fun g1 g2 c2 h1 h2 => i2 g1 g2 c2 (hl g1 c2 h1).2 (hl g2 c2 h2).2, ?_, ?_⟩, rfl⟩
    · intro g2 c2 hc
      obtain ⟨hg, hold⟩ := hl g2 c2 hc
      obtain ⟨e1, e2, e3⟩ := i1 g2 c2 hold
      have hcall : c2 ≠ call := by
        rintro rfl
        exact hg (i2 g2 g c2 hold hlead)
      have hk : s.keys g2 ≠ s.keys g := by
        intro hk
        rw [hk, f1] at e1
        cases e1
        exact hcall rfl
      refine ⟨?_, ?_, e3⟩
      · simp only [Function.update_noteq hk]; exact e1
      · simp only [Function.update_noteq hcall]; exact e2
    · intro g2 r2 c2 hd
      by_cases hg : g2 = g
      · subst hg
        simp only [Function.update_same] at hd
        cases hd
        exact ⟨r, by simp, rfl⟩
      · simp only [Function.update_noteq hg] at hd
        obtain ⟨r0, h0, hr⟩ := i3 g2 r2 c2 hd
        have hcall : c2 ≠ call := by
          rintro rfl
          rw [f2] at h0
          cases h0
        exact ⟨r0, by simp only [Function.update_noteq hcall]; exact h0, hr⟩
    · intro c2 hle
      have hle2 : s.nextCall ≤ c2 := hle
      have hcall : c2 ≠ call := by omega
      simp only [Function.update_noteq hcall]
      exact i4 c2 hle
  · -- wake
    rename_i g call hpc
    split at h
    · rename_i r hr
      cases h
      have hl : ∀ g2 c2, (Function.update s.pcs g
            (.done (finishEvents env (s.keys g) r) (some call)) g2 = .leading c2
          ∨ ∃ r2, Function.update s.pcs g
            (.done (finishEvents env (s.keys g) r) (some call)) g2 = .leaving c2 r2) →
          s.leads g2 c2 := by
        intro g2 c2 hc
        by_cases hg : g2 = g
        · subst hg
          simp only [Function.update_same] at hc
          rcases hc with hc | ⟨_, hc⟩ <;> cases hc
        · exact leads_of_update_ne s _ g g2 c2 _ rfl hg hc
      refine ⟨⟨fun g2 c2 hc => i1 g2 c2 (hl g2 c2 hc),
        fun g1 g2 c2 h1 h2 => i2 g1 g2 c2 (hl g1 c2 h1) (hl g2 c2 h2), ?_, i4⟩, rfl⟩
      intro g2 r2 c2 hd
      by_cases hg : g2 = g
      · subst hg
        simp only [Function.update_same] at hd
        cases hd
        exact ⟨r, hr, rfl⟩
      · simp only [Function.update_noteq hg] at hd
        exact i3 g2 r2 c2 hd
    · cases h
  · cases h

theorem run_consistent (env : Collaborators) (actions : List Action) :
    ∀ s s1 : State, s.consistent env → run env s actions = some s1 →
      s1.consistent env ∧ s1.keys = s.keys := by
  induction actions with
  | nil =>
    intro s s1 hs h
    simp only [run, Option.some.injEq] at h
    subst h
    exact ⟨hs, rfl⟩
  | cons a rest ih =>
    intro s s1 hs h
    unfold run at h
    cases hst : step env s a with
    | none => rw [hst] at h; cases h
    | some s2 =>
      rw [hst] at h
      obtain ⟨c2, k2⟩ := step_consistent env s s2 a hs hst
      obtain ⟨c3, k3⟩ := ih s2 s1 c2 h
      exact ⟨c3, k3.trans k2⟩

/-- C10 (counterexample): two concurrent calls of `Events` for guild 7 on a cold
cache, both missing the cache before either fetch, the second entering
`single.Do` after the first has left it: both calls run to their end, the
upstream is called twice, and the calls return different results (the first no
error, the second the wrapped upstream error). -/
theorem late_entry_fetches_twice :
    ((newCalendarClient (5 * time.Minute)).cache.values 7).isNone = true
      ∧ (run exampleEnv (init (newCalendarClient (5 * time.Minute)) 2 (fun _ => 7)) lateEntry).map
          (fun s => (s.allDone, s.upstream, s.errorOf 0, s.errorOf 1))
        = some (true, [7, 7], some none, some (some "cannot get events for guild 7: boom")) := by
  refine ⟨rfl, by decide⟩

/-- In every state reached by any interleaving of any number of concurrent
calls of `Events`, for any keys, at most one goroutine is inside `single.Do`
running the fetch for a given key, and the goroutines served by one and the same
`single.Do` call for a key (the one that ran the fetch and those that waited for
it) have returned the same result. -/
theorem flights_exclusive_and_shared (env : Collaborators) (c : calendarClient) (n : Nat)
    (keys : Nat → discord.GuildID) (actions : List Action) (s : State)
    (hrun : run env (init c n keys) actions = some s) :
    (∀ g1 g2 call1 call2, s.leads g1 call1 → s.leads g2 call2 → keys g1 = keys g2 → g1 = g2)
      ∧ (∀ g1 g2 r1 r2 call, s.pcs g1 = .done r1 (some call) → s.pcs g2 = .done r2 (some call) →
          keys g1 = keys g2 → r1 = r2) := by
  obtain ⟨⟨i1, i2, i3, _⟩, hk⟩ :=
    run_consistent env actions _ s (init_consistent env c n keys) hrun
  have hk2 : s.keys = keys := hk
  constructor
  · intro g1 g2 call1 call2 h1 h2 hkeys
    have e1 := (i1 g1 call1 h1).1
    have e2 := (i1 g2 call2 h2).1
    rw [hk2] at e1 e2
    rw [hkeys, e2] at e1
    cases e1
    exact i2 g1 g2 call1 h1 h2
  · intro g1 g2 r1 r2 call h1 h2 hkeys
    obtain ⟨a, ha, hr1⟩ := i3 g1 r1 call h1
    obtain ⟨b, hb, hr2⟩ := i3 g2 r2 call h2
    rw [ha] at hb
    cases hb
    rw [hr1, hr2, hk2, hkeys]

theorem Get_cases {K V : Type} [DecidableEq K] (c : ttlcache.Cache K V) (key : K) (now : Int) :
    c.Get key now = (c, none)
      ∨ ∃ item0 item2, c.values key = some item0 ∧ (c.Get key now).2 = some item2
          ∧ item2.value = item0.value ∧ (c.Get key now).1.values key = some item2 := by
  cases hv : c.values key with
  | none => exact Or.inl (Get_absent c key now hv)
  | some item =>
    cases he : item.isExpired now with
    | true => exact Or.inl (Get_expired c key now item hv he)
    | false =>
      obtain ⟨item2, h2, h3, _, _, _, h7, _⟩ := Get_hit c key now item hv he
      exact Or.inr ⟨item, item2, rfl, h2, h3, h7⟩

theorem update_pcs (P : Pc → Prop) (pcs : Nat → Pc) (g : Nat) (pc : Pc) (g2 : Nat)
    (hnew : P pc) (hold : g2 ≠ g → P (pcs g2)) : P (Function.update pcs g pc g2) := by
  by_cases hg : g2 = g
  · subst hg
    rw [Function.update_same]
    exact hnew
  · rw [Function.update_noteq hg]
    exact hold hg

theorem fetchEvents_served (env : Collaborators) (c : calendarClient) (key : discord.GuildID)
    (upstream : Upstream) (now : Int) :
    match (fetchEvents env c key upstream now).2 with
    | .ok events => ∀ item, (fetchEvents env c key upstream now).1.cache.values key = some item →
        item.value = events
    | .error _ => (fetchEvents env c key upstream now).1 = c := by
  cases upstream with
  | error err => rfl
  | ok des =>
    obtain ⟨⟨τ, hτv, _⟩, _⟩ := Set_spec c.cache env.ttlcache key
      (convertDiscordEvents env des) c.ttl now
    intro item hitem
    have h2 : some (ttlcache.newItem (convertDiscordEvents env des) τ now) = some item :=
      hτv.symm.trans hitem
    cases h2
    exact (newItem_spec _ _ _).1

theorem step_get (env : Collaborators) (s s1 : State) (g : Nat) (now : Int)
    (h : step env s (.get g now) = some s1) :
    s.pcs g = .start ∧ g < s.n
      ∧ ((s.client.cache.Get (s.keys g) now = (s.client.cache, none)
          ∧ s1 = { s with pcs := Function.update s.pcs g .missed })
        ∨ ∃ item0 item2, s.client.cache.values (s.keys g) = some item0
          ∧ (s.client.cache.Get (s.keys g) now).2 = some item2
          ∧ item2.value = item0.value
          ∧ (s.client.cache.Get (s.keys g) now).1.values (s.keys g) = some item2
          ∧ s1 = { s with
              client := { s.client with cache := (s.client.cache.Get (s.keys g) now).1 }
              pcs := Function.update s.pcs g (.done (.ok item2.value) none) }) := by
  unfold step at h
  simp only [Action.goroutine] at h
  split_ifs at h with hn
  cases hpc : s.pcs g with
  | start =>
    rw [hpc] at h
    simp only at h
    refine ⟨rfl, hn, ?_⟩
    rcases Get_cases s.client.cache (s.keys g) now with hm | ⟨item0, item2, h0, h2, h3, h4⟩
    · rw [hm] at h
      simp only [Option.some.injEq] at h
      exact Or.inl ⟨hm, h.symm⟩
    · right
      refine ⟨item0, item2, h0, h2, h3, h4, ?_⟩
      cases hG : s.client.cache.Get (s.keys g) now with
      | mk cache it =>
        have h5 : it = some item2 := by rw [hG] at h2; exact h2
        rw [hG] at h
        subst h5
        simp only [Option.some.injEq] at h
        exact h.symm
  | missed => rw [hpc] at h; simp at h
  | leading call => rw [hpc] at h; simp at h
  | leaving call r => rw [hpc] at h; simp at h
  | waiting call => rw [hpc] at h; simp at h
  | done r call => rw [hpc] at h; simp at h

theorem step_enter (env : Collaborators) (s s1 : State) (g : Nat)
    (h : step env s (.enter g) = some s1) :
    s.pcs g = .missed ∧ g < s.n
      ∧ ((∃ call, s.flights (s.keys g) = some call
          ∧ s1 = { s with pcs := Function.update s.pcs g (.waiting call) })
        ∨ (s.flights (s.keys g) = none
          ∧ s1 = { s with
              flights := Function.update s.flights (s.keys g) (some s.nextCall)
              nextCall := s.nextCall + 1
              pcs := Function.update s.pcs g (.leading s.nextCall) })) := by
  unfold step at h
  simp only [Action.goroutine] at h
  split_ifs at h with hn
  cases hpc : s.pcs g with
  | missed =>
    rw [hpc] at h
    simp only at h
    refine ⟨rfl, hn, ?_⟩
    cases hf : s.flights (s.keys g) with
    | none =>
      rw [hf] at h
      simp only [Option.some.injEq] at h
      exact Or.inr ⟨rfl, h.symm⟩
    | some call =>
      rw [hf] at h
      simp only [Option.some.injEq] at h
      exact Or.inl ⟨call, rfl, h.symm⟩
  | start => rw [hpc] at h; simp at h
  | leading call => rw [hpc] at h; simp at h
  | leaving call r => rw [hpc] at h; simp at h
  | waiting call => rw [hpc] at h; simp at h
  | done r call => rw [hpc] at h; simp at h

theorem step_fetch (env : Collaborators) (s s1 : State) (g : Nat) (upstream : Upstream)
    (now : Int) (h : step env s (.fetch g upstream now) = some s1) :
    ∃ call, s.pcs g = .leading call ∧ g < s.n
      ∧ s1 = { s with
          client := (fetchEvents env s.client (s.keys g) upstream now).1
          pcs := Function.update s.pcs g
            (.leaving call (fetchEvents env s.client (s.keys g) upstream now).2)
          upstream := s.upstream ++ [s.keys g] } := by
  unfold step at h
  simp only [Action.goroutine] at h
  split_ifs at h with hn
  cases hpc : s.pcs g with
  | leading call =>
    rw [hpc] at h
    simp only [Option.some.injEq] at h
    exact ⟨call, rfl, hn, h.symm⟩
  | start => rw [hpc] at h; simp at h
  | missed => rw [hpc] at h; simp at h
  | leaving call r => rw [hpc] at h; simp at h
  | waiting call => rw [hpc] at h; simp at h
  | done r call => rw [hpc] at h; simp at h

theorem step_leave (env : Collaborators) (s s1 : State) (g : Nat)
    (h : step env s (.leave g) = some s1) :
    ∃ call r, s.pcs g = .leaving call r ∧ g < s.n
      ∧ s1 = { s with
          results := Function.update s.results call (some r)
          flights := Function.update s.flights (s.keys g) none
          pcs := Function.update s.pcs g (.done (finishEvents env (s.keys g) r) (some call)) } := by
  unfold step at h
  simp only [Action.goroutine] at h
  split_ifs at h with hn
  cases hpc : s.pcs g with
  | leaving call r =>
    rw [hpc] at h
    simp only [Option.some.injEq] at h
    exact ⟨call, r, rfl, hn, h.symm⟩
  | start => rw [hpc] at h; simp at h
  | missed => rw [hpc] at h; simp at h
  | leading call => rw [hpc] at h; simp at h
  | waiting call => rw [hpc] at h; simp at h
  | done r call => rw [hpc] at h; simp at h

theorem step_wake (env : Collaborators) (s s1 : State) (g : Nat)
    (h : step env s (.wake g) = some s1) :
    ∃ call r, s.pcs g = .waiting call ∧ g < s.n ∧ s.results call = some r
      ∧ s1 = { s with
          pcs := Function.update s.pcs g (.done (finishEvents env (s.keys g) r) (some call)) } := by
  unfold step at h
  simp only [Action.goroutine] at h
  split_ifs at h with hn
  cases hpc : s.pcs g with
  | waiting call =>
    rw [hpc] at h
    simp only at h
    cases hr : s.results call with
    | none => rw [hr] at h; simp at h
    | some r =>
      rw [hr] at h
      simp only [Option.some.injEq] at h
      exact ⟨call, r, rfl, hn, hr, h.symm⟩
  | start => rw [hpc] at h; simp at h
  | missed => rw [hpc] at h; simp at h
  | leading call => rw [hpc] at h; simp at h
  | leaving call r => rw [hpc] at h; simp at h
  | done r call => rw [hpc] at h; simp at h

theorem served_client (c : calendarClient) (key : discord.GuildID) (s s1 : State)
    (r : EventsResult) (h : s1.client = s.client) (hs : s.served c key r) :
    s1.served c key r := by
  cases r with
  | ok events =>
    intro item hi
    rw [h] at hi
    exact hs item hi
  | error err => exact h.trans hs

theorem rest_update (env : Collaborators) (key : discord.GuildID) (s s1 : State)
    (r : EventsResult) (g : Nat) (pc : Pc) (hpcs : s1.pcs = Function.update s.pcs g pc)
    (hpc : pc = .start ∨ pc = .missed ∨ pc = .waiting 0
      ∨ ∃ call, pc = .done (finishEvents env key r) call)
    (g2 : Nat) (hold : g2 ≠ g → s.rest env key r g2) : s1.rest env key r g2 := by
  unfold State.rest
  rw [hpcs]
  exact update_pcs (fun pc => pc = .start ∨ pc = .missed ∨ pc = .waiting 0
      ∨ ∃ call, pc = .done (finishEvents env key r) call) s.pcs g pc g2 hpc hold

/-- A read of the cache after the fetch has given `r`: on a miss the client is
unchanged, on a hit the entry holds the fetched events. -/
theorem get_served (env : Collaborators) (c : calendarClient) (key : discord.GuildID)
    (s s1 : State) (g : Nat) (now : Int) (r : EventsResult)
    (hk : ∀ g, s.keys g = key) (hs : s.served c key r)
    (hcold : (c.cache.Get key now).2 = none)
    (h : step env s (.get g now) = some s1) :
    s1.served c key r ∧ s1.flights = s.flights ∧ s1.nextCall = s.nextCall
      ∧ s1.upstream = s.upstream ∧ s1.results = s.results ∧ s1.n = s.n ∧ s1.keys = s.keys
      ∧ s.pcs g = .start
      ∧ ∃ pc, s1.pcs = Function.update s.pcs g pc
        ∧ (pc = .missed ∨ (pc = .done (finishEvents env key r) none ∧ ∃ events, r = .ok events)) := by
  obtain ⟨hstart, _, hcase⟩ := step_get env s s1 g now h
  rw [hk g] at hcase
  rcases hcase with ⟨_, rfl⟩ | ⟨item0, item2, h0, hsome, h2, h4, rfl⟩
  · exact ⟨hs, rfl, rfl, rfl, rfl, rfl, rfl, hstart, _, rfl, Or.inl rfl⟩
  · cases r with
    | ok events =>
      have hv : item2.value = events := h2.trans (hs item0 h0)
      refine ⟨?_, rfl, rfl, rfl, rfl, rfl, rfl, hstart, _, rfl, Or.inr ⟨?_, events, rfl⟩⟩
      · intro item hi
        have h5 : some item2 = some item := h4.symm.trans hi
        cases h5
        exact hv
      · rw [hv]
        rfl
    | error err =>
      have hc : s.client = c := hs
      rw [hc, hcold] at hsome
      cases hsome

theorem step_joining (env : Collaborators) (c : calendarClient) (key : discord.GuildID)
    (s s1 : State) (a : Action) (hs : s.joining env c key) (h : step env s a = some s1)
    (hcold : ∀ g now, a = .get g now → (c.cache.Get key now).2 = none) :
    (a.isLeave = false → s1.joining env c key) ∧ (a.isLeave = true → s1.settled env c key) := by
  obtain ⟨hk, hstage⟩ := hs
  cases a with
  | get g now =>
    refine ⟨fun _ => ?_, fun hl => by cases hl⟩
    have hc0 := hcold g now rfl
    rcases hstage with ⟨f, nc, up, hc, hr, hp⟩ | ⟨f, nc, up, hc, hr, g0, hg0, hl0, hp⟩
      | ⟨r, f, nc, up, hsv, hr, g0, hg0, hl0, hp⟩
    · obtain ⟨sv, e1, e2, e3, e4, e5, e6, _, pc, hpcs, hpc⟩ :=
        get_served env c key s s1 g now (.error "") hk hc hc0 h
      have hpc2 : pc = .missed := by
        rcases hpc with h | ⟨_, ev, h⟩
        · exact h
        · cases h
      refine ⟨by rw [e6]; exact hk, Or.inl ⟨by rw [e1]; exact f, by rw [e2]; exact nc,
        by rw [e3]; exact up, sv, by rw [e4]; exact hr, ?_⟩⟩
      intro g2
      rw [hpcs]
      exact update_pcs (fun pc => pc = .start ∨ pc = .missed) s.pcs g pc g2 (Or.inr hpc2)
        (fun _ => hp g2)
    · obtain ⟨sv, e1, e2, e3, e4, e5, e6, hstart, pc, hpcs, hpc⟩ :=
        get_served env c key s s1 g now (.error "") hk hc hc0 h
      have hpc2 : pc = .missed := by
        rcases hpc with h | ⟨_, ev, h⟩
        · exact h
        · cases h
      have hne : g0 ≠ g := by
        rintro rfl
        rw [hl0] at hstart
        cases hstart
      refine ⟨by rw [e6]; exact hk, Or.inr (Or.inl ⟨by rw [e1]; exact f, by rw [e2]; exact nc,
        by rw [e3]; exact up, sv, by rw [e4]; exact hr, g0, by rw [e5]; exact hg0,
        by rw [hpcs, Function.update_noteq hne]; exact hl0, ?_⟩)⟩
      intro g2 hg2
      rw [hpcs]
      exact update_pcs (fun pc => pc = .start ∨ pc = .missed ∨ pc = .waiting 0) s.pcs g pc g2
        (Or.inr (Or.inl hpc2)) (fun _ => hp g2 hg2)
    · obtain ⟨sv, e1, e2, e3, e4, e5, e6, hstart, pc, hpcs, hpc⟩ :=
        get_served env c key s s1 g now r hk hsv hc0 h
      have hne : g0 ≠ g := by
        rintro rfl
        rw [hl0] at hstart
        cases hstart
      refine ⟨by rw [e6]; exact hk, Or.inr (Or.inr ⟨r, by rw [e1]; exact f, by rw [e2]; exact nc,
        by rw [e3]; exact up, sv, by rw [e4]; exact hr, g0, by rw [e5]; exact hg0,
        by rw [hpcs, Function.update_noteq hne]; exact hl0, ?_⟩)⟩
      intro g2 hg2
      refine rest_update env key s s1 r g pc hpcs ?_ g2 (fun _ => hp g2 hg2)
      rcases hpc with h | ⟨h, _⟩
      · exact Or.inr (Or.inl h)
      · exact Or.inr (Or.inr (Or.inr ⟨none, h⟩))
  | enter g =>
    refine ⟨fun _ => ?_, fun hl => by cases hl⟩
    obtain ⟨hpc, hlt, hcase⟩ := step_enter env s s1 g h
    rw [hk g] at hcase
    rcases hstage with ⟨f, nc, up, hc, hr, hp⟩ | ⟨f, nc, up, hc, hr, g0, hg0, hl0, hp⟩
      | ⟨r, f, nc, up, hsv, hr, g0, hg0, hl0, hp⟩
    · rcases hcase with ⟨call, hf, _⟩ | ⟨_, rfl⟩
      · rw [f] at hf
        cases hf
      · refine ⟨hk, Or.inr (Or.inl ⟨?_, ?_, up, hc, hr, g, hlt, ?_, ?_⟩)⟩
        · simp only [Function.update_same, nc]
        · simp only [nc]
        · simp only [Function.update_same, nc]
        · intro g2 hg2
          simp only [Function.update_noteq hg2]
          rcases hp g2 with h | h
          · exact Or.inl h
          · exact Or.inr (Or.inl h)
    · rcases hcase with ⟨call, hf, rfl⟩ | ⟨hf, _⟩
      · rw [f] at hf
        cases hf
        have hne : g0 ≠ g := by
          rintro rfl
          rw [hl0] at hpc
          cases hpc
        refine ⟨hk, Or.inr (Or.inl ⟨f, nc, up, hc, hr, g0, hg0, ?_, ?_⟩)⟩
        · simp only [Function.update_noteq hne]
          exact hl0
        · intro g2 hg2
          exact update_pcs (fun pc => pc = .start ∨ pc = .missed ∨ pc = .waiting 0) s.pcs g _ g2
            (Or.inr (Or.inr rfl)) (fun _ => hp g2 hg2)
      · rw [f] at hf
        cases hf
    · rcases hcase with ⟨call, hf, rfl⟩ | ⟨hf, _⟩
      · rw [f] at hf
        cases hf
        have hne : g0 ≠ g := by
          rintro rfl
          rw [hl0] at hpc
          cases hpc
        refine ⟨hk, Or.inr (Or.inr ⟨r, f, nc, up, hsv, hr, g0, hg0, ?_, ?_⟩)⟩
        · simp only [Function.update_noteq hne]
          exact hl0
        · intro g2 hg2
          exact rest_update env key s _ r g (.waiting 0) rfl (Or.inr (Or.inr (Or.inl rfl))) g2
            (fun _ => hp g2 hg2)
      · rw [f] at hf
        cases hf
  | fetch g upstream now =>
    refine ⟨fun _ => ?_, fun hl => by cases hl⟩
    obtain ⟨call, hpc, hlt, rfl⟩ := step_fetch env s s1 g upstream now h
    rcases hstage with ⟨f, nc, up, hc, hr, hp⟩ | ⟨f, nc, up, hc, hr, g0, hg0, hl0, hp⟩
      | ⟨r, f, nc, up, hsv, hr, g0, hg0, hl0, hp⟩
    · have := hp g
      rw [hpc] at this
      simp at this
    · have hg : g = g0 := by
        by_contra hne
        have := hp g hne
        rw [hpc] at this
        simp at this
      subst hg
      rw [hpc] at hl0
      cases hl0
      refine ⟨hk, Or.inr (Or.inr ⟨(fetchEvents env c key upstream now).2, f, nc, ?_, ?_, hr, g,
        hlt, ?_, ?_⟩)⟩
      · simp only [up, hk g, List.nil_append]
      · have hfs := fetchEvents_served env c key upstream now
        simp only [hk g, hc]
        cases hres : (fetchEvents env c key upstream now).2 with
        | ok events =>
          rw [hres] at hfs
          exact hfs
        | error err =>
          rw [hres] at hfs
          exact hfs
      · simp only [Function.update_same, hk g, hc]
      · intro g2 hg2
        simp only [State.rest, Function.update_noteq hg2]
        rcases hp g2 hg2 with h | h | h
        · exact Or.inl h
        · exact Or.inr (Or.inl h)
        · exact Or.inr (Or.inr (Or.inl h))
    · by_cases hg : g = g0
      · subst hg
        rw [hpc] at hl0
        cases hl0
      · have := hp g hg
        unfold State.rest at this
        rw [hpc] at this
        simp at this
  | leave g =>
    refine ⟨fun hl => (by cases hl), fun _ => ?_⟩
    obtain ⟨call, r2, hpc, hlt, rfl⟩ := step_leave env s s1 g h
    rcases hstage with ⟨f, nc, up, hc, hr, hp⟩ | ⟨f, nc, up, hc, hr, g0, hg0, hl0, hp⟩
      | ⟨r, f, nc, up, hsv, hr, g0, hg0, hl0, hp⟩
    · have := hp g
      rw [hpc] at this
      simp at this
    · by_cases hg : g = g0
      · subst hg
        rw [hpc] at hl0
        cases hl0
      · have := hp g hg
        rw [hpc] at this
        simp at this
    · have hg : g = g0 := by
        by_contra hne
        have := hp g hne
        unfold State.rest at this
        rw [hpc] at this
        simp at this
      subst hg
      rw [hpc] at hl0
      cases hl0
      refine ⟨hk, r2, up, served_client c key s _ r2 rfl hsv, ?_, ?_⟩
      · simp only [Function.update_same]
      · intro g2
        refine rest_update env key s _ r2 g _ rfl (Or.inr (Or.inr (Or.inr ⟨some 0, ?_⟩))) g2
          (fun hne => hp g2 hne)
        rw [hk g]
  | wake g =>
    obtain ⟨call, r2, hpc, hlt, hres, rfl⟩ := step_wake env s s1 g h
    exfalso
    rcases hstage with ⟨f, nc, up, hc, hr, hp⟩ | ⟨f, nc, up, hc, hr, g0, hg0, hl0, hp⟩
      | ⟨r, f, nc, up, hsv, hr, g0, hg0, hl0, hp⟩
    · have := hp g
      rw [hpc] at this
      simp at this
    · by_cases hg : g = g0
      · subst hg
        rw [hpc] at hl0
        cases hl0
      · have := hp g hg
        rw [hpc] at this
        simp at this
        subst this
        rw [hr] at hres
        cases hres
    · by_cases hg : g = g0
      · subst hg
        rw [hpc] at hl0
        cases hl0
      · have := hp g hg
        unfold State.rest at this
        rw [hpc] at this
        simp at this
        subst this
        rw [hr] at hres
        cases hres

theorem step_settled (env : Collaborators) (c : calendarClient) (key : discord.GuildID)
    (s s1 : State) (a : Action) (hs : s.settled env c key) (h : step env s a = some s1)
    (henter : a.isEnter = false)
    (hcold : ∀ g now, a = .get g now → (c.cache.Get key now).2 = none) :
    s1.settled env c key := by
  obtain ⟨hk, r, up, hsv, hr, hp⟩ := hs
  cases a with
  | get g now =>
    obtain ⟨sv, e1, e2, e3, e4, e5, e6, hstart, pc, hpcs, hpc⟩ :=
      get_served env c key s s1 g now r hk hsv (hcold g now rfl) h
    refine ⟨by rw [e6]; exact hk, r, by rw [e3]; exact up, sv, by rw [e4]; exact hr, ?_⟩
    intro g2
    refine rest_update env key s s1 r g pc hpcs ?_ g2 (fun _ => hp g2)
    rcases hpc with h | ⟨h, _⟩
    · exact Or.inr (Or.inl h)
    · exact Or.inr (Or.inr (Or.inr ⟨none, h⟩))
  | enter g => cases henter
  | fetch g upstream now =>
    obtain ⟨call, hpc, hlt, rfl⟩ := step_fetch env s s1 g upstream now h
    have := hp g
    unfold State.rest at this
    rw [hpc] at this
    simp at this
  | leave g =>
    obtain ⟨call, r2, hpc, hlt, rfl⟩ := step_leave env s s1 g h
    have := hp g
    unfold State.rest at this
    rw [hpc] at this
    simp at this
  | wake g =>
    obtain ⟨call, r2, hpc, hlt, hres, rfl⟩ := step_wake env s s1 g h
    have := hp g
    unfold State.rest at this
    rw [hpc] at this
    simp at this
    subst this
    rw [hr] at hres
    cases hres
    refine ⟨hk, r, up, served_client c key s _ r rfl hsv, hr, ?_⟩
    intro g2
    refine rest_update env key s _ r g _ rfl (Or.inr (Or.inr (Or.inr ⟨some 0, ?_⟩))) g2
      (fun _ => hp g2)
    rw [hk g]

theorem step_n (env : Collaborators) (s s1 : State) (a : Action)
    (h : step env s a = some s1) : s1.n = s.n := by
  cases a with
  | get g now =>
    obtain ⟨_, _, hcase⟩ := step_get env s s1 g now h
    rcases hcase with ⟨_, rfl⟩ | ⟨_, _, _, _, _, _, rfl⟩ <;> rfl
  | enter g =>
    obtain ⟨_, _, hcase⟩ := step_enter env s s1 g h
    rcases hcase with ⟨_, _, rfl⟩ | ⟨_, rfl⟩ <;> rfl
  | fetch g upstream now =>
    obtain ⟨_, _, _, rfl⟩ := step_fetch env s s1 g upstream now h
    rfl
  | leave g =>
    obtain ⟨_, _, _, _, rfl⟩ := step_leave env s s1 g h
    rfl
  | wake g =>
    obtain ⟨_, _, _, _, _, rfl⟩ := step_wake env s s1 g h
    rfl

theorem run_append (env : Collaborators) (pre post : List Action) :
    ∀ s : State, run env s (pre ++ post) = (run env s pre).bind (fun s1 => run env s1 post) := by
  induction pre with
  | nil => intro s; rfl
  | cons a rest ih =>
    intro s
    simp only [List.cons_append, run]
    cases step env s a with
    | none => rfl
    | some s1 => exact ih s1

theorem run_joining (env : Collaborators) (c : calendarClient) (key : discord.GuildID)
    (actions : List Action) :
    ∀ s s1 : State, s.joining env c key → run env s actions = some s1 →
      (∀ a ∈ actions, a.isLeave = false) →
      (∀ g now, Action.get g now ∈ actions → (c.cache.Get key now).2 = none) →
      s1.joining env c key ∧ s1.n = s.n := by
  induction actions with
  | nil =>
    intro s s1 hs h _ _
    simp only [run, Option.some.injEq] at h
    subst h
    exact ⟨hs, rfl⟩
  | cons a rest ih =>
    intro s s1 hs h hleave hcold
    unfold run at h
    cases hst : step env s a with
    | none => rw [hst] at h; cases h
    | some s2 =>
      rw [hst] at h
      have h2 := (step_joining env c key s s2 a hs hst
        (fun g now ha => hcold g now (ha ▸ List.mem_cons_self _ _))).1
        (hleave a (List.mem_cons_self _ _))
      obtain ⟨h3, h4⟩ := ih s2 s1 h2 h (fun b hb => hleave b (List.mem_cons_of_mem _ hb))
        (fun g now hb => hcold g now (List.mem_cons_of_mem _ hb))
      exact ⟨h3, h4.trans (step_n env s s2 a hst)⟩

theorem run_settling (env : Collaborators) (c : calendarClient) (key : discord.GuildID)
    (actions : List Action) :
    ∀ s s1 : State, s.joining env c key ∨ s.settled env c key → run env s actions = some s1 →
      (∀ a ∈ actions, a.isEnter = false) →
      (∀ g now, Action.get g now ∈ actions → (c.cache.Get key now).2 = none) →
      (s1.joining env c key ∨ s1.settled env c key) ∧ s1.n = s.n := by
  induction actions with
  | nil =>
    intro s s1 hs h _ _
    simp only [run, Option.some.injEq] at h
    subst h
    exact ⟨hs, rfl⟩
  | cons a rest ih =>
    intro s s1 hs h henter hcold
    unfold run at h
    cases hst : step env s a with
    | none => rw [hst] at h; cases h
    | some s2 =>
      rw [hst] at h
      have hc1 : ∀ g now, a = .get g now → (c.cache.Get key now).2 = none :=
        fun g now ha => hcold g now (ha ▸ List.mem_cons_self _ _)
      have h2 : s2.joining env c key ∨ s2.settled env c key := by
        rcases hs with hs | hs
        · cases hl : a.isLeave with
          | false => exact Or.inl ((step_joining env c key s s2 a hs hst hc1).1 hl)
          | true => exact Or.inr ((step_joining env c key s s2 a hs hst hc1).2 hl)
        · exact Or.inr (step_settled env c key s s2 a hs hst
            (henter a (List.mem_cons_self _ _)) hc1)
      obtain ⟨h3, h4⟩ := ih s2 s1 h2 h (fun b hb => henter b (List.mem_cons_of_mem _ hb))
        (fun g now hb => hcold g now (List.mem_cons_of_mem _ hb))
      exact ⟨h3, h4.trans (step_n env s s2 a hst)⟩

theorem done_of_allDone (s : State) (g : Nat) (hg : g < s.n) (h : s.allDone = true) :
    ∃ r call, s.pcs g = .done r call := by
  unfold State.allDone at h
  rw [List.all_eq_true] at h
  have hg2 := h g (List.mem_range.mpr hg)
  cases hpc : s.pcs g with
  | done r call => exact ⟨r, call, rfl⟩
  | start => rw [hpc] at hg2; cases hg2
  | missed => rw [hpc] at hg2; cases hg2
  | leading call => rw [hpc] at hg2; cases hg2
  | leaving call r => rw [hpc] at hg2; cases hg2
  | waiting call => rw [hpc] at hg2; cases hg2

theorem run_cons (env : Collaborators) (s s1 : State) (a : Action) (rest : List Action)
    (h : step env s a = some s1) : run env s (a :: rest) = run env s1 rest := by
  simp only [run, h]

theorem step_joinedRead (env : Collaborators) (c : calendarClient) (n : Nat)
    (key : discord.GuildID) (now : Int) (k : Nat) (hk : k < n)
    (hcold : (c.cache.Get key now).2 = none) :
    step env (joinedRead c n key k) (.get k now) = some (joinedRead c n key (k + 1)) := by
  have hG : c.cache.Get key now = (c.cache, none) := (Get_miss_of_none _ _ _ hcold).1
  have hp : Function.update (fun g => if g < k then Pc.missed else Pc.start) k Pc.missed
      = fun g => if g < k + 1 then Pc.missed else Pc.start := by
    funext g
    by_cases hg : g = k
    · subst hg
      simp
    · rw [Function.update_noteq hg]
      have : g < k ↔ g < k + 1 := by omega
      simp only [this]
  simp only [step, joinedRead, Action.goroutine, hk, if_true, lt_irrefl, if_false, hG, hp]

theorem run_joinedRead (env : Collaborators) (c : calendarClient) (n : Nat)
    (key : discord.GuildID) (now : Int) (hcold : (c.cache.Get key now).2 = none) (m : Nat) :
    ∀ k, k + m ≤ n →
      run env (joinedRead c n key k) ((List.range' k m).map (fun g => Action.get g now))
        = some (joinedRead c n key (k + m)) := by
  induction m with
  | zero => intro k _; rfl
  | succ m ih =>
    intro k hk
    simp only [List.range'_succ, List.map_cons, run]
    rw [step_joinedRead env c n key now k (by omega) hcold]
    simp only
    rw [ih (k + 1) (by omega)]
    have : k + 1 + m = k + (m + 1) := by omega
    rw [this]

theorem step_joinedEntered (env : Collaborators) (c : calendarClient) (n : Nat)
    (key : discord.GuildID) (k : Nat) (hk : k < n) (hpos : 0 < k) :
    step env (joinedEntered c n key k) (.enter k) = some (joinedEntered c n key (k + 1)) := by
  have hp : Function.update (fun g => if g < k then (if g = 0 then Pc.leading 0 else Pc.waiting 0)
        else if g < n then Pc.missed else Pc.start) k (Pc.waiting 0)
      = fun g => if g < k + 1 then (if g = 0 then Pc.leading 0 else Pc.waiting 0)
        else if g < n then Pc.missed else Pc.start := by
    funext g
    by_cases hg : g = k
    · subst hg
      have h0 : g ≠ 0 := by omega
      simp [h0]
    · rw [Function.update_noteq hg]
      have : g < k ↔ g < k + 1 := by omega
      simp only [this]
  simp only [step, joinedEntered, Action.goroutine, hk, if_true, lt_irrefl, if_false,
    Function.update_same, hp]

theorem run_joinedEntered (env : Collaborators) (c : calendarClient) (n : Nat)
    (key : discord.GuildID) (m : Nat) :
    ∀ k, 0 < k → k + m ≤ n →
      run env (joinedEntered c n key k) ((List.range' k m).map Action.enter)
        = some (joinedEntered c n key (k + m)) := by
  induction m with
  | zero => intro k _ _; rfl
  | succ m ih =>
    intro k hpos hk
    simp only [List.range'_succ, List.map_cons, run]
    rw [step_joinedEntered env c n key k (by omega) hpos]
    simp only
    rw [ih (k + 1) (by omega) (by omega)]
    have : k + 1 + m = k + (m + 1) := by omega
    rw [this]

theorem step_joinedReturned (env : Collaborators) (c1 : calendarClient) (r : EventsResult)
    (n : Nat) (key : discord.GuildID) (k : Nat) (hk : k < n) :
    step env (joinedReturned env c1 r n key k) (.wake k)
      = some (joinedReturned env c1 r n key (k + 1)) := by
  have hp : Function.update (fun g => if g < k then Pc.done (finishEvents env key r) (some 0)
        else if g < n then Pc.waiting 0 else Pc.start) k
        (Pc.done (finishEvents env key r) (some 0))
      = fun g => if g < k + 1 then Pc.done (finishEvents env key r) (some 0)
        else if g < n then Pc.waiting 0 else Pc.start := by
    funext g
    by_cases hg : g = k
    · subst hg
      simp
    · rw [Function.update_noteq hg]
      have : g < k ↔ g < k + 1 := by omega
      simp only [this]
  simp only [step, joinedReturned, Action.goroutine, hk, if_true, lt_irrefl, if_false,
    Function.update_same, hp]

theorem run_joinedReturned (env : Collaborators) (c1 : calendarClient) (r : EventsResult)
    (n : Nat) (key : discord.GuildID) (m : Nat) :
    ∀ k, k + m ≤ n →
      run env (joinedReturned env c1 r n key k) ((List.range' k m).map Action.wake)
        = some (joinedReturned env c1 r n key (k + m)) := by
  induction m with
  | zero => intro k _; rfl
  | succ m ih =>
    intro k hk
    simp only [List.range'_succ, List.map_cons, run]
    rw [step_joinedReturned env c1 r n key k (by omega)]
    simp only
    rw [ih (k + 1) (by omega)]
    have : k + 1 + m = k + (m + 1) := by omega
    rw [this]

/-- Concurrent calls that all join one `single.Do` call run to their end: for
every number N ≥ 1 of calls for one key on a cache that is cold or expired for
it at `now`, and every answer of the upstream, the schedule `joinedPre`,
`joinedPost` can be run, no call of it enters `single.Do` after another has left
it, and at its end every call has returned. -/
theorem joined_schedule_completes (env : Collaborators) (c : calendarClient) (n : Nat)
    (key : discord.GuildID) (upstream : Upstream) (now fetched : Int) (hn : 0 < n)
    (hcold : (c.cache.Get key now).2 = none) :
    (∃ s, run env (init c n (fun _ => key)) (joinedPre n upstream now fetched ++ joinedPost n)
        = some s ∧ s.allDone = true)
      ∧ (∀ a ∈ joinedPre n upstream now fetched, a.isLeave = false)
      ∧ (∀ a ∈ joinedPost n, a.isEnter = false)
      ∧ (∀ g t, Action.get g t ∈ joinedPre n upstream now fetched ++ joinedPost n → t = now) := by
  obtain ⟨m, rfl⟩ := Nat.exists_eq_succ_of_ne_zero (Nat.pos_iff_ne_zero.mp hn)
  refine ⟨?_, ?_, ?_, ?_⟩
  · refine ⟨joinedReturned env (fetchEvents env c key upstream fetched).1
      (fetchEvents env c key upstream fetched).2 (m + 1) key (m + 1), ?_, ?_⟩
    · have h0 : init c (m + 1) (fun _ => key) = joinedRead c (m + 1) key 0 := by
        simp [init, joinedRead]
      have h1 := run_joinedRead env c (m + 1) key now hcold (m + 1) 0 (by omega)
      rw [Nat.zero_add] at h1
      have h2 : step env (joinedRead c (m + 1) key (m + 1)) (.enter 0)
          = some (joinedEntered c (m + 1) key 1) := by
        have hp : Function.update (fun g => if g < m + 1 then Pc.missed else Pc.start) 0
            (Pc.leading 0)
            = fun g => if g < 1 then (if g = 0 then Pc.leading 0 else Pc.waiting 0)
              else if g < m + 1 then Pc.missed else Pc.start := by
          funext g
          by_cases hg : g = 0
          · subst hg
            simp
          · rw [Function.update_noteq hg]
            have h3 : ¬ g < 1 := by omega
            simp only [h3, if_false]
        simp only [step, joinedRead, joinedEntered, Action.goroutine, hn, if_true, Nat.zero_add]
        rw [hp]
      have h3 := run_joinedEntered env c (m + 1) key m 1 (by omega) (by omega)
      rw [Nat.add_comm 1 m] at h3
      have h4 : step env (joinedEntered c (m + 1) key (m + 1)) (.fetch 0 upstream fetched)
          = some { joinedEntered c (m + 1) key (m + 1) with
              client := (fetchEvents env c key upstream fetched).1
              pcs := Function.update (joinedEntered c (m + 1) key (m + 1)).pcs 0
                (.leaving 0 (fetchEvents env c key upstream fetched).2)
              upstream := [key] } := by
        simp only [step, joinedEntered, Action.goroutine, hn, if_true, List.nil_append]
      have h5 : step env { joinedEntered c (m + 1) key (m + 1) with
              client := (fetchEvents env c key upstream fetched).1
              pcs := Function.update (joinedEntered c (m + 1) key (m + 1)).pcs 0
                (.leaving 0 (fetchEvents env c key upstream fetched).2)
              upstream := [key] } (.leave 0)
          = some (joinedReturned env (fetchEvents env c key upstream fetched).1
              (fetchEvents env c key upstream fetched).2 (m + 1) key 1) := by
        have hp : Function.update (Function.update (joinedEntered c (m + 1) key (m + 1)).pcs 0
              (.leaving 0 (fetchEvents env c key upstream fetched).2)) 0
              (Pc.done (finishEvents env key (fetchEvents env c key upstream fetched).2) (some 0))
            = fun g => if g < 1
                then Pc.done (finishEvents env key (fetchEvents env c key upstream fetched).2)
                  (some 0)
                else if g < m + 1 then Pc.waiting 0 else Pc.start := by
          funext g
          by_cases hg : g = 0
          · subst hg
            simp
          · rw [Function.update_noteq hg, Function.update_noteq hg]
            have h3 : ¬ g < 1 := by omega
            simp only [joinedEntered, h3, if_false, hg]
            by_cases hgn : g < m + 1 <;> simp [hgn]
        simp only [step, Action.goroutine, hn, if_true, Function.update_same, joinedReturned]
        simp only [joinedEntered] at hp ⊢
        rw [hp, if_pos hn]
      have h6 := run_joinedReturned env (fetchEvents env c key upstream fetched).1
        (fetchEvents env c key upstream fetched).2 (m + 1) key m 1 (by omega)
      rw [Nat.add_comm 1 m] at h6
      have e1 : List.map Action.enter (List.range' 0 (m + 1)) ++ [.fetch 0 upstream fetched]
          = .enter 0
            :: (List.map Action.enter (List.range' 1 m) ++ [.fetch 0 upstream fetched]) := rfl
      rw [h0, joinedPre, joinedPost, run_append, run_append, h1]
      simp only [Option.some_bind]
      rw [e1, run_cons env _ _ _ _ h2, run_append, h3]
      simp only [Option.some_bind]
      rw [run_cons env _ _ _ _ h4]
      simp only [run, Option.some_bind]
      rw [h5]
      simp only [Nat.add_sub_cancel]
      exact h6
    · unfold State.allDone
      rw [List.all_eq_true]
      intro g hg
      have hg2 : g < m + 1 := List.mem_range.mp hg
      simp [joinedReturned, hg2]
  · intro a ha
    simp only [joinedPre, List.mem_append, List.mem_map, List.mem_singleton] at ha
    rcases ha with ⟨g, _, rfl⟩ | ⟨g, _, rfl⟩ | rfl <;> rfl
  · intro a ha
    simp only [joinedPost, List.mem_cons, List.mem_map] at ha
    rcases ha with rfl | ⟨g, _, rfl⟩ <;> rfl
  · intro g t ha
    simp only [joinedPre, joinedPost, List.mem_append, List.mem_map, List.mem_singleton,
      List.mem_cons] at ha
    rcases ha with (⟨g2, _, h⟩ | ⟨g2, _, h⟩ | h | h) | h | ⟨g2, _, h⟩ <;> cases h
    rfl

/-- C10 (amended): for every key and every number N ≥ 1 of concurrent calls of
`Events` for that key, each reading a cache that is cold or expired for the key
at the start, in any interleaving in which no call enters `single.Do` after
another has left it (`pre` is the schedule up to the first return of a leader
from `single.Do`, `post` the rest) and no sweep runs meanwhile: once all calls
have returned, the upstream has been invoked exactly once, for that key, and
all N calls have returned the same result (the same event list, or the same
error). Such an interleaving exists for every N and every answer of the
upstream (`joined_schedule_completes`). -/
theorem joined_calls_fetch_once (env : Collaborators) (c : calendarClient) (n : Nat)
    (key : discord.GuildID) (pre post : List Action) (s : State) (hn : 0 < n)
    (hcold : ∀ g now, Action.get g now ∈ pre ++ post → (c.cache.Get key now).2 = none)
    (hpre : ∀ a ∈ pre, a.isLeave = false)
    (hpost : ∀ a ∈ post, a.isEnter = false)
    (hrun : run env (init c n (fun _ => key)) (pre ++ post) = some s)
    (hdone : s.allDone = true) :
    s.upstream = [key] ∧ ∃ r, ∀ g, g < n → ∃ call, s.pcs g = .done r call := by
  have hinit : (init c n (fun _ => key)).joining env c key :=
    ⟨fun _ => rfl, Or.inl ⟨rfl, rfl, rfl, rfl, rfl, fun _ => Or.inl rfl⟩⟩
  rw [run_append] at hrun
  cases hmid : run env (init c n (fun _ => key)) pre with
  | none => rw [hmid] at hrun; cases hrun
  | some mid =>
    rw [hmid] at hrun
    obtain ⟨hj, hn1⟩ := run_joining env c key pre _ mid hinit hmid hpre
      (fun g now hm => hcold g now (List.mem_append_left _ hm))
    obtain ⟨hfin, hn2⟩ := run_settling env c key post mid s (Or.inl hj) hrun hpost
      (fun g now hm => hcold g now (List.mem_append_right _ hm))
    have hsn : s.n = n := hn2.trans hn1
    have hall : ∀ g, g < n → ∃ r call, s.pcs g = .done r call :=
      fun g hg => done_of_allDone s g (hsn ▸ hg) hdone
    rcases hfin with ⟨_, hstage⟩ | ⟨_, r, up, _, _, hp⟩
    · exfalso
      rcases hstage with ⟨_, _, _, _, _, hp⟩ | ⟨_, _, _, _, _, g0, hg0, hl0, _⟩
        | ⟨r, _, _, _, _, _, g0, hg0, hl0, _⟩
      · obtain ⟨r, call, hd⟩ := hall 0 hn
        have := hp 0
        rw [hd] at this
        simp at this
      · obtain ⟨r, call, hd⟩ := hall g0 (hsn ▸ hg0)
        rw [hd] at hl0
        cases hl0
      · obtain ⟨r2, call, hd⟩ := hall g0 (hsn ▸ hg0)
        rw [hd] at hl0
        cases hl0
    · refine ⟨up, finishEvents env key r, ?_⟩
      intro g hg
      obtain ⟨r2, call, hd⟩ := hall g hg
      have := hp g
      unfold State.rest at this
      rw [hd] at this
      simp only [false_or, Pc.done.injEq, reduceCtorEq] at this
      obtain ⟨call2, h1, h2⟩ := this
      exact ⟨call, by rw [hd, h1]⟩

theorem joined_calls_fetch_once_witness :
    joinedState.upstream = [7]
      ∧ ∃ r, ∀ g, g < 2 → ∃ call, joinedState.pcs g = .done r call :=
  joined_calls_fetch_once exampleEnv (newCalendarClient (5 * time.Minute)) 2 7
    [.get 0 0, .get 1 0, .enter 0, .enter 1, .fetch 0 (.ok []) 1] [.leave 0, .wake 1]
    joinedState (by decide) (fun _ _ _ => rfl) (by decide) (by decide) (by rfl) (by decide)

end interleaving
